import Mathlib

/-!
Verification of the mini-framework's reactive core against its specification.

The development shallowly embeds the two modules the claims are about:

* the `State` container of the state-management module (`State.js`):
  shallow-merge updates, observer notification, defensive copies;
* the virtual-DOM reconciler (`Framework/VDom.js`): `createRealNode` (mount),
  `updateDom` (top-level reconcile), `updateElementInPlace` (patch in place),
  `updateTodoList` / `updateTodoItem` / `updateTodoItemContent` (keyed-list
  patcher).

JavaScript objects are modelled as insertion-ordered association lists with
unique keys; object identity (aliasing) is modelled by a reference id handed
out by an explicit allocation counter.  Host (DOM) nodes are a tree of
elements and text nodes; element identity is a numeric id (two host nodes are
"the same node" exactly when their ids coincide), and every host write the
reconciler performs is recorded as an explicit mutation event.
-/

namespace MF

/-! ## JavaScript object primitives -/

/-- One step of a JS object spread `{...acc, k: v}`: when the key is already
present its value is overwritten in place (preserving the object's insertion
order), otherwise the pair is appended. -/
def setAssoc {α : Type} (o : List (String × α)) (k : String) (v : α) : List (String × α) :=
  if o.any (fun e => e.1 = k) then o.map (fun e => if e.1 = k then (k, v) else e)
  else o ++ [(k, v)]

/-- JS object spread `{...s, ...p}`: `p`'s entries are written over `s` in order. -/
def spread {α : Type} (s p : List (String × α)) : List (String × α) :=
  p.foldl (fun acc e => setAssoc acc e.1 e.2) s

/-- JS property read `o[k]` (the object invariant of unique keys makes the
first matching entry the only one). -/
def objGet {α : Type} : List (String × α) → String → Option α
  | [], _ => none
  | e :: es, k => if e.1 = k then some e.2 else objGet es k

theorem objGet_setAssoc_self {α : Type} (s : List (String × α)) (k : String) (v : α) :
    objGet (setAssoc s k v) k = some v := by
  unfold setAssoc
  by_cases h : s.any (fun e => e.1 = k)
  · rw [if_pos h]
    induction s with
    | nil => simp at h
    | cons e es ih =>
      by_cases he : e.1 = k
      · simp [objGet, he]
      · simp only [List.any_cons, decide_eq_true_eq, he, decide_False, Bool.false_or] at h
        simp [objGet, he, ih h]
  · rw [if_neg h]
    induction s with
    | nil => simp [objGet]
    | cons e es ih =>
      simp only [List.any_cons, Bool.or_eq_true, decide_eq_true_eq, not_or] at h
      simp only [List.cons_append, objGet, if_neg h.1]
      exact ih (by simpa using h.2)

theorem objGet_setAssoc_other {α : Type} (s : List (String × α)) (k' k : String) (v : α)
    (h : k' ≠ k) : objGet (setAssoc s k' v) k = objGet s k := by
  unfold setAssoc
  by_cases ha : s.any (fun e => e.1 = k')
  · rw [if_pos ha]
    clear ha
    induction s with
    | nil => simp
    | cons e es ih =>
      by_cases he : e.1 = k'
      · have h2 : ¬ (e.1 = k) := by rw [he]; exact h
        simp [objGet, he, h2, h, ih]
      · by_cases hk : e.1 = k
        · simp [objGet, he, hk, Ne.symm h]
        · simp [objGet, he, hk, ih]
  · rw [if_neg ha]
    clear ha
    induction s with
    | nil => simp [objGet, h]
    | cons e es ih =>
      by_cases he : e.1 = k
      · simp [objGet, he]
      · simp only [List.cons_append, objGet, if_neg he]
        exact ih

theorem objGet_spread_not_mem {α : Type} (s p : List (String × α)) (k : String)
    (h : k ∉ p.map Prod.fst) : objGet (spread s p) k = objGet s k := by
  induction p generalizing s with
  | nil => rfl
  | cons e es ih =>
    simp only [List.map_cons, List.mem_cons, not_or] at h
    rw [spread, List.foldl_cons]
    have := ih (setAssoc s e.1 e.2) h.2
    rw [spread] at this
    rw [this, objGet_setAssoc_other _ _ _ _ (fun he => h.1 he.symm)]

theorem objGet_spread_mem {α : Type} (s p : List (String × α)) (k : String) (v : α)
    (hnd : (p.map Prod.fst).Nodup) (h : (k, v) ∈ p) : objGet (spread s p) k = some v := by
  induction p generalizing s with
  | nil => simp at h
  | cons e es ih =>
    simp only [List.map_cons, List.nodup_cons] at hnd
    rw [spread, List.foldl_cons]
    rcases List.mem_cons.mp h with h1 | h1
    · subst h1
      have hk : k ∉ es.map Prod.fst := hnd.1
      have := objGet_spread_not_mem (setAssoc s k v) es k hk
      rw [spread] at this
      rw [this, objGet_setAssoc_self]
    · have := ih (setAssoc s e.1 e.2) hnd.2 h1
      rw [spread] at this
      rw [this]

/-! ## The State container (state-management module) -/

/-- Observable calls made during `setState`: each subscribed listener is called
with (a reference to) the new state object, then the registered update
callback, if any, is called. -/
inductive SEvent where
  | listenerCall (listener : Nat) (argRef : Nat)
  | updateCall (cb : Nat)
  deriving DecidableEq

/-- A JavaScript value passed as the `newState` argument of `setState`.
`jobj` is a non-null object (association list, unique keys, insertion
ordered); the remaining constructors are exactly the values rejected by the
code's `typeof newState === 'object' && newState !== null` guard (`null` has
`typeof` `'object'` but fails the null test; the others fail the `typeof`
test). Functions and listeners are identified by a reference id. -/
inductive JVal (α : Type) where
  | jobj (o : List (String × α))
  | jnull
  | jundefined
  | jnum (n : Int)
  | jstr (s : String)
  | jfun (f : Nat)
  | jbool (b : Bool)

/-- The `State` class: the stored state object (contents plus a reference id
standing for its JS object identity), the ordered listener list and the
optional update callback.  Two objects alias exactly when their reference ids
coincide. -/
structure State (α : Type) where
  stateRef : Nat
  stateObj : List (String × α)
  listeners : List Nat
  updateCallback : Option Nat

/-- Result of a `setState` call: the updated container, the observable calls
made, and the reference id and contents of the object the call returns
(`return this.state`). -/
structure SetStateResult (α : Type) where
  container : State α
  events : List SEvent
  retRef : Nat
  retObj : List (String × α)

/-- `State.setState(newState, triggerUpdate = true)`.  If `newState` passes the
non-null-object test, the state becomes `{ ...this.state, ...newState }` — a
freshly allocated object whose reference id is `fresh` — and, when
`triggerUpdate` is set, every listener is called in subscription order with
`this.state` (the internal object itself, reference `fresh`), then the update
callback if one is set.  Otherwise nothing happens.  Either way the call
returns `this.state` — the internal object, not a copy. -/
def State.setState {α : Type} (c : State α) (newState : JVal α) (triggerUpdate : Bool)
    (fresh : Nat) : SetStateResult α :=
  match newState with
  | .jobj o =>
      let merged := spread c.stateObj o
      let c' : State α := { c with stateRef := fresh, stateObj := merged }
      let evs := if triggerUpdate then
          c.listeners.map (fun l => SEvent.listenerCall l fresh) ++
            (match c.updateCallback with
             | some cb => [SEvent.updateCall cb]
             | none => [])
        else []
      ⟨c', evs, fresh, merged⟩
  | _ => ⟨c, [], c.stateRef, c.stateObj⟩

/-- `State.getState()`: returns `{ ...this.state }`, a freshly allocated
shallow copy whose reference id is `fresh`; the container is untouched. -/
def State.getState {α : Type} (c : State α) (fresh : Nat) : Nat × List (String × α) :=
  (fresh, c.stateObj)

/-- `State.subscribe(listener)`: appends a function listener to the observer
list; any non-function argument is silently ignored. -/
def State.subscribe {α : Type} (c : State α) (listener : JVal α) : State α :=
  match listener with
  | .jfun f => { c with listeners := c.listeners ++ [f] }
  | _ => c

/-- `State.setUpdateCallback(callback)`. -/
def State.setUpdateCallback {α : Type} (c : State α) (cb : Nat) : State α :=
  { c with updateCallback := some cb }

/-- The `newState` values `setState` treats as malformed: everything that is
not a non-null object. -/
def isNonObject {α : Type} : JVal α → Prop
  | .jobj _ => False
  | _ => True

instance {α : Type} (p : JVal α) : Decidable (isNonObject p) := by
  cases p <;> simp [isNonObject] <;> infer_instance

/-- C3: `setState` is a shallow merge — every key of the partial maps to the
partial's value (last write wins) and every other key keeps its previous
value; unrelated keys survive and no nested merge happens. -/
theorem setState_shallow_merge {α : Type} (c : State α) (o : List (String × α))
    (trig : Bool) (fresh : Nat) (ho : (o.map Prod.fst).Nodup) :
    (∀ k v, (k, v) ∈ o →
      objGet ((c.setState (.jobj o) trig fresh).container.stateObj) k = some v) ∧
    (∀ k, k ∉ o.map Prod.fst →
      objGet ((c.setState (.jobj o) trig fresh).container.stateObj) k = objGet c.stateObj k) := by
  constructor
  · intro k v hkv
    exact objGet_spread_mem c.stateObj o k v ho hkv
  · intro k hk
    exact objGet_spread_not_mem c.stateObj o k hk

/-- Witness for C3 at concrete inputs, including the spec's two-call examples:
`setState({a:1}); setState({b:2})` gives `{a:1, b:2}` and
`setState({a:1}); setState({a:2})` gives `{a:2}`. -/
theorem setState_shallow_merge_witness :
    ((State.setState ⟨1, [("a", (1 : Int))], [], none⟩ (.jobj [("b", 2)]) true 2).container.stateObj
        = [("a", 1), ("b", 2)] ∧
      (State.setState ⟨1, [("a", (1 : Int))], [], none⟩ (.jobj [("a", 2)]) true 2).container.stateObj
        = [("a", 2)]) ∧
    ((["b"] : List String).Nodup ∧
      objGet ((State.setState ⟨1, [("a", (1 : Int))], [], none⟩
          (.jobj [("b", 2)]) true 2).container.stateObj) "b" = some 2 ∧
      objGet ((State.setState ⟨1, [("a", (1 : Int))], [], none⟩
          (.jobj [("b", 2)]) true 2).container.stateObj) "a"
        = objGet [("a", (1 : Int))] "a") :=
  ⟨⟨by decide, by decide⟩, by decide,
    (setState_shallow_merge ⟨1, [("a", (1 : Int))], [], none⟩ [("b", 2)] true 2
      (by decide)).1 "b" 2 (by decide),
    (setState_shallow_merge ⟨1, [("a", (1 : Int))], [], none⟩ [("b", 2)] true 2
      (by decide)).2 "a" (by decide)⟩

/-- C4: for any `newState` that is not a non-null object, `setState` is a
no-op — state untouched, no listener or callback invoked, no error, and the
unchanged current state returned. -/
theorem setState_non_object_noop {α : Type} (c : State α) (p : JVal α) (trig : Bool)
    (fresh : Nat) (hp : isNonObject p) :
    c.setState p trig fresh = ⟨c, [], c.stateRef, c.stateObj⟩ := by
  cases p with
  | jobj o => exact absurd hp (by simp [isNonObject])
  | jnull => rfl
  | jundefined => rfl
  | jnum n => rfl
  | jstr s => rfl
  | jfun f => rfl
  | jbool b => rfl

/-- Witness for C4: a `null` partial at a concrete container is a no-op. -/
theorem setState_non_object_noop_witness :
    isNonObject (JVal.jnull (α := Int)) ∧
      State.setState ⟨3, [("a", (1 : Int))], [5], some 9⟩ .jnull true 7
        = ⟨⟨3, [("a", 1)], [5], some 9⟩, [], 3, [("a", 1)]⟩ :=
  ⟨trivial, setState_non_object_noop ⟨3, [("a", (1 : Int))], [5], some 9⟩ .jnull true 7 trivial⟩

/-- C5 counterexample: `setState`'s return value and the argument passed to
listeners are the internal state object itself, not a copy — at this concrete
input the returned reference equals the container's stored reference and is
exactly what the listener receives. -/
theorem setState_return_aliases_internal :
    (State.setState ⟨0, [("a", (1 : Int))], [7], none⟩ (.jobj [("b", 2)]) true 5).retRef
        = (State.setState ⟨0, [("a", (1 : Int))], [7], none⟩ (.jobj [("b", 2)]) true 5).container.stateRef ∧
      (State.setState ⟨0, [("a", (1 : Int))], [7], none⟩ (.jobj [("b", 2)]) true 5).events
        = [SEvent.listenerCall 7 5] ∧
      (State.setState ⟨0, [("a", (1 : Int))], [7], none⟩ (.jobj [("b", 2)]) true 5).container.stateRef = 5 := by
  refine ⟨rfl, rfl, rfl⟩

/-- C5 as amended: `getState` does return a defensive shallow copy (a freshly
allocated object, never the stored reference, with equal contents, leaving the
container untouched) — but `setState`'s return value and the object passed to
every notified listener are the internal state object itself. -/
theorem getState_copy_setState_alias {α : Type} (c : State α) (fresh : Nat)
    (hfresh : fresh ≠ c.stateRef) :
    ((c.getState fresh).1 = fresh ∧ (c.getState fresh).1 ≠ c.stateRef ∧
      (c.getState fresh).2 = c.stateObj) ∧
    (∀ (o : List (String × α)) (trig : Bool) (f' : Nat),
      (c.setState (.jobj o) trig f').retRef = (c.setState (.jobj o) trig f').container.stateRef ∧
      (trig = true → ∀ l ∈ c.listeners,
        SEvent.listenerCall l (c.setState (.jobj o) trig f').container.stateRef
          ∈ (c.setState (.jobj o) trig f').events)) := by
  refine ⟨⟨rfl, hfresh, rfl⟩, fun o trig f' => ⟨rfl, fun ht l hl => ?_⟩⟩
  subst ht
  show SEvent.listenerCall l f' ∈
    c.listeners.map (fun l => SEvent.listenerCall l f') ++
      (match c.updateCallback with
       | some cb => [SEvent.updateCall cb]
       | none => [])
  exact List.mem_append_left _ (List.mem_map_of_mem _ hl)

/-- Witness for C5's amended theorem at a concrete container. -/
theorem getState_copy_setState_alias_witness :
    (6 : Nat) ≠ 0 ∧
      (((State.getState (⟨0, [("a", (1 : Int))], [7], none⟩ : State Int) 6).1 = 6 ∧
        (State.getState (⟨0, [("a", (1 : Int))], [7], none⟩ : State Int) 6).1 ≠ 0 ∧
        (State.getState (⟨0, [("a", (1 : Int))], [7], none⟩ : State Int) 6).2 = [("a", 1)]) ∧
      (∀ (o : List (String × Int)) (trig : Bool) (f' : Nat),
        ((⟨0, [("a", (1 : Int))], [7], none⟩ : State Int).setState (.jobj o) trig f').retRef
            = ((⟨0, [("a", (1 : Int))], [7], none⟩ : State Int).setState (.jobj o) trig f').container.stateRef ∧
        (trig = true → ∀ l ∈ [7],
          SEvent.listenerCall l
              ((⟨0, [("a", (1 : Int))], [7], none⟩ : State Int).setState (.jobj o) trig f').container.stateRef
            ∈ ((⟨0, [("a", (1 : Int))], [7], none⟩ : State Int).setState (.jobj o) trig f').events))) :=
  ⟨by decide, getState_copy_setState_alias ⟨0, [("a", (1 : Int))], [7], none⟩ 6 (by decide)⟩

/-- C10: `setState` performs no change detection — for every non-null object
partial with `triggerUpdate` true (however trivial the merge, including an
empty partial), every subscribed listener is notified in subscription order
and then the update callback (if set) runs; the events depend only on the
listener list and callback, never on whether the state changed. -/
theorem setState_notifies_unconditionally {α : Type} (c : State α)
    (o : List (String × α)) (fresh : Nat) :
    (c.setState (.jobj o) true fresh).events =
      c.listeners.map (fun l => SEvent.listenerCall l fresh) ++
        (match c.updateCallback with
         | some cb => [SEvent.updateCall cb]
         | none => []) := rfl

/-! ## Virtual DOM: data model

The reconciler of `Framework/VDom.js`.  A `VDom` is what `createElement`
produces: string/number children become `vtext` leaves, everything else is an
element with tag, attribute mapping and child list.  Attribute values carry
the JS type distinctions the code branches on. -/

/-- A JS attribute value: string, number, boolean, function (event callback,
identified by a reference id) or a style object. -/
inductive AttrV where
  | str (s : String)
  | num (n : Int)
  | boolV (b : Bool)
  | fn (f : Nat)
  | styleObj (entries : List (String × String))
  deriving DecidableEq

/-- A virtual DOM node. -/
inductive VDom where
  | vtext (s : String)
  | velem (tag : String) (attrs : List (String × AttrV)) (children : List VDom)

/-- JS truthiness of an attribute value. -/
def attrTruthy : AttrV → Bool
  | .str s => !(s == "")
  | .num n => !(n == 0)
  | .boolV b => b
  | .fn _ => true
  | .styleObj _ => true

/-- JS `String(v)` coercion as applied by `setAttribute` and property writes. -/
def attrToString : AttrV → String
  | .str s => s
  | .num n => toString n
  | .boolV b => if b then "true" else "false"
  | .fn _ => "function"
  | .styleObj _ => "[object Object]"

/-- ASCII upper-casing of one character, as `toUpperCase` acts on tag names. -/
def upChar (c : Char) : Char :=
  if 97 ≤ c.toNat ∧ c.toNat ≤ 122 then Char.ofNat (c.toNat - 32) else c

/-- ASCII lower-casing of one character, as `toLowerCase` acts on tag names. -/
def lowChar (c : Char) : Char :=
  if 65 ≤ c.toNat ∧ c.toNat ≤ 90 then Char.ofNat (c.toNat + 32) else c

/-- JS `s.toUpperCase()` restricted to ASCII (tag names). -/
def upStr (s : String) : String := String.mk (s.data.map upChar)

/-- JS `s.toLowerCase()` restricted to ASCII (tag names). -/
def lowStr (s : String) : String := String.mk (s.data.map lowChar)

theorem toNat_ofNat_valid (n : Nat) (hv : n.isValidChar) : (Char.ofNat n).toNat = n := by
  simp [Char.ofNat, hv]
  rfl

theorem lowChar_upChar (c : Char) : lowChar (upChar c) = lowChar c := by
  by_cases h : 97 ≤ c.toNat ∧ c.toNat ≤ 122
  · have hv : (c.toNat - 32).isValidChar := Or.inl (by omega)
    have ht : (Char.ofNat (c.toNat - 32)).toNat = c.toNat - 32 := toNat_ofNat_valid _ hv
    have h2 : 65 ≤ (Char.ofNat (c.toNat - 32)).toNat ∧ (Char.ofNat (c.toNat - 32)).toNat ≤ 90 := by
      rw [ht]; omega
    have h3 : ¬ (65 ≤ c.toNat ∧ c.toNat ≤ 90) := by omega
    rw [upChar, if_pos h, lowChar, if_pos h2, lowChar, if_neg h3, ht]
    have e : c.toNat - 32 + 32 = c.toNat := by omega
    rw [e, Char.ofNat_toNat]
  · rw [upChar, if_neg h]

theorem lowStr_upStr (s : String) : lowStr (upStr s) = lowStr s := by
  simp [lowStr, upStr, List.map_map, Function.comp_def, lowChar_upChar]

/-- Character-list prefix test (for modelling JS `String.prototype.includes`). -/
def isPrefChars : List Char → List Char → Bool
  | [], _ => true
  | _ :: _, [] => false
  | a :: as, b :: bs => a == b && isPrefChars as bs

/-- Character-list infix test. -/
def isInfChars : List Char → List Char → Bool
  | needle, [] => isPrefChars needle []
  | needle, b :: bs => isPrefChars needle (b :: bs) || isInfChars needle bs

/-- JS `s.includes(sub)`: contiguous substring test. -/
def strIncludes (s sub : String) : Bool := isInfChars sub.data s.data

/-- JS `key.startsWith('on')`, the reserved event-binding prefix test. -/
def startsWithOn (k : String) : Bool := isPrefChars "on".data k.data

/-- JS `classList` token view of a class string (split on spaces). -/
def classTokens (s : String) : List String := (s.splitOn " ").filter (fun t => !(t == ""))

/-! ## Host (DOM) nodes -/

/-- A host node: a text node, or an element with identity id, `tagName`
(upper-cased, as the DOM reports it), the `className` property, the attribute
map written through `setAttribute`, the `checked` and `value` properties, and
the child node list.  Two element nodes are the same JS object exactly when
their ids coincide. -/
inductive HNode where
  | text (s : String)
  | elem (id : Nat) (tagName : String) (className : String)
      (attrs : List (String × String)) (checked : Bool) (val : String)
      (children : List HNode)

def HNode.isElem : HNode → Bool
  | .text _ => false
  | .elem .. => true

/-- Identity of an element node (0 for text nodes, which the claims never
track by identity). -/
def nid : HNode → Nat
  | .text _ => 0
  | .elem i _ _ _ _ _ _ => i

def tagNameOf : HNode → String
  | .text _ => ""
  | .elem _ t _ _ _ _ _ => t

def classNameOf : HNode → String
  | .text _ => ""
  | .elem _ _ c _ _ _ _ => c

def attrsOf : HNode → List (String × String)
  | .text _ => []
  | .elem _ _ _ a _ _ _ => a

def checkedOf : HNode → Bool
  | .text _ => false
  | .elem _ _ _ _ ch _ _ => ch

def childrenOf : HNode → List HNode
  | .text _ => []
  | .elem _ _ _ _ _ _ kids => kids

/-- `element.children`: the element children only (text nodes excluded), as
`Array.from(container.children)` reads them. -/
def elemChildren (cs : List HNode) : List HNode := cs.filter HNode.isElem

/-- `getAttribute`: `none` models the `null` a missing attribute returns. -/
def getAttr (h : HNode) (k : String) : Option String := objGet (attrsOf h) k

mutual
/-- `node.textContent` (concatenation of all descendant text). -/
def hTextContent : HNode → String
  | .text s => s
  | .elem _ _ _ _ _ _ kids => hTextContentList kids
def hTextContentList : List HNode → String
  | [] => ""
  | c :: cs => hTextContent c ++ hTextContentList cs
end

/-- Host mutations the reconciler can perform, recorded in order. -/
inductive Mut where
  | clearChildren (id : Nat)
  | appendChild (parent : Nat) (child : Nat)
  | insertBefore (parent : Nat) (child : Nat) (ref : Nat)
  | removeChild (id : Nat)
  | setClassName (id : Nat) (v : String)
  | setAttr (id : Nat) (key : String) (v : String)
  | setText (id : Nat) (v : String)
  | replaceChild (parent : Nat) (newChild : Nat) (oldChild : Nat)
  | setChecked (id : Nat) (b : Bool)
  deriving DecidableEq

/-! ## Mount: `createRealNode` -/

/-- The element properties `createRealNode`'s attribute loop writes. -/
structure ElemFields where
  className : String
  attrs : List (String × String)
  checked : Bool
  val : String

/-- One iteration of `createRealNode`'s attribute loop: event keys add a
listener (no tree-visible effect), `className`/`checked`/`value` set the
corresponding property, a style object is merged into `element.style`
(not tree-visible), `autofocus` schedules a deferred focus call, and every
other key goes through `setAttribute` with string coercion. -/
def applyMountAttr (f : ElemFields) (k : String) (av : AttrV) : ElemFields :=
  if startsWithOn k && (match av with | .fn _ => true | _ => false) then f
  else if k == "className" then { f with className := attrToString av }
  else if k == "style" && (match av with | .styleObj _ => true | _ => false) then f
  else if k == "checked" then { f with checked := attrTruthy av }
  else if k == "value" then { f with val := attrToString av }
  else if k == "autofocus" then f
  else { f with attrs := setAssoc f.attrs k (attrToString av) }

mutual
/-- `createRealNode(vnode)`: build a fresh host subtree; `ctr` is the id
allocator for the new element nodes. -/
def createRealNode : VDom → Nat → HNode × Nat
  | .vtext s, ctr => (.text s, ctr)
  | .velem tag attrs kids, ctr =>
      let f := attrs.foldl (fun f e => applyMountAttr f e.1 e.2) ⟨"", [], false, ""⟩
      let r := createRealNodeList kids (ctr + 1)
      (.elem ctr (upStr tag) f.className f.attrs f.checked f.val r.1, r.2)
def createRealNodeList : List VDom → Nat → List HNode × Nat
  | [], ctr => ([], ctr)
  | v :: vs, ctr =>
      let r := createRealNode v ctr
      let r2 := createRealNodeList vs r.2
      (r.1 :: r2.1, r2.2)
end

/-! ## VNode readers used by the patch paths -/

def VDom.isVElem : VDom → Bool
  | .vtext _ => false
  | .velem .. => true

def vChildren : VDom → List VDom
  | .vtext _ => []
  | .velem _ _ kids => kids

def vAttrs : VDom → List (String × AttrV)
  | .vtext _ => []
  | .velem _ attrs _ => attrs

/-- JS `vnode.attrs?.className || ''` followed by the string coercion the
`className` property write performs. -/
def vClassName (v : VDom) : String :=
  match v with
  | .vtext _ => ""
  | .velem _ attrs _ =>
      match objGet attrs "className" with
      | some av => if attrTruthy av then attrToString av else ""
      | none => ""

/-- The strict comparison `existing.className !== (vnode.attrs?.className || '')`
of the structural-compatibility test (true means equal, i.e. compatible). -/
def classNameCompat (hostCls : String) (attrs : List (String × AttrV)) : Bool :=
  match objGet attrs "className" with
  | some (.str s) => hostCls == s
  | some av => if attrTruthy av then false else hostCls == ""
  | none => hostCls == ""

/-- JS truthiness of a virtual child (`if (result) return result`). -/
def vTruthy : VDom → Bool
  | .vtext s => !(s == "")
  | .velem .. => true

/-! ## Keyed-list patcher: `updateTodoList` and helpers -/

/-- `li.getAttribute('data-id')` filtered through the `if (id)` truthiness
guard: the key of an existing host item. -/
def hKey (h : HNode) : Option String :=
  match h with
  | .text _ => none
  | .elem _ _ _ a _ _ _ =>
      match objGet a "data-id" with
      | some s => if s == "" then none else some s
      | none => none

/-- `vli.attrs?.['data-id']` filtered through the `if (!id) return` truthiness
guard: the raw key value of a new virtual item.  The raw JS value is kept
because `Map` keys compare with strict equality: a numeric key never matches
the string `getAttribute` returns. -/
def vKeyRaw (v : VDom) : Option AttrV :=
  match v with
  | .vtext _ => none
  | .velem _ attrs _ =>
      match objGet attrs "data-id" with
      | some av => if attrTruthy av then some av else none
      | none => none

mutual
/-- `element.querySelector(sel)` over a child list: first matching element in
tree order, searching descendants. -/
def querySelectorList (p : HNode → Bool) : List HNode → Option HNode
  | [] => none
  | c :: cs =>
      if c.isElem && p c then some c
      else
        match querySelectorNode p c with
        | some r => some r
        | none => querySelectorList p cs
def querySelectorNode (p : HNode → Bool) : HNode → Option HNode
  | .text _ => none
  | .elem _ _ _ _ _ _ kids => querySelectorList p kids
end

mutual
/-- Apply a host write `f` to the first element matching `p` in tree order
(the node `querySelector` finds); the Bool reports whether a match was hit. -/
def updFirstList (p : HNode → Bool) (f : HNode → HNode × List Mut) :
    List HNode → List HNode × List Mut × Bool
  | [] => ([], [], false)
  | c :: cs =>
      if c.isElem && p c then
        let r := f c
        (r.1 :: cs, r.2, true)
      else
        let rc := updFirstNode p f c
        if rc.2.2 then (rc.1 :: cs, rc.2.1, true)
        else
          let rs := updFirstList p f cs
          (c :: rs.1, rs.2.1, rs.2.2)
def updFirstNode (p : HNode → Bool) (f : HNode → HNode × List Mut) :
    HNode → HNode × List Mut × Bool
  | .text s => (.text s, [], false)
  | .elem i t c a ch vl kids =>
      let r := updFirstList p f kids
      (.elem i t c a ch vl r.1, r.2)
end

mutual
/-- `findLabelTextInVNode`: a label element's first child if one exists,
otherwise the first truthy result found under an element child. -/
def findLabelTextInVNode : VDom → Option VDom
  | .vtext _ => none
  | .velem t _ kids =>
      if t == "label" && !kids.isEmpty then kids.head?
      else findLabelTextInList kids
def findLabelTextInList : List VDom → Option VDom
  | [] => none
  | c :: cs =>
      match c with
      | .vtext _ => findLabelTextInList cs
      | .velem t a k =>
          match findLabelTextInVNode (.velem t a k) with
          | some r => if vTruthy r then some r else findLabelTextInList cs
          | none => findLabelTextInList cs
end

mutual
/-- `findCheckboxStateInVNode`: the coerced `checked` attribute of a checkbox
input; the recursion returns from the first element child unconditionally
because the helper never returns `null`. -/
def findCheckboxStateInVNode : VDom → Bool
  | .vtext _ => false
  | .velem t attrs kids =>
      if t == "input" &&
          (match objGet attrs "type" with | some (.str s) => s == "checkbox" | _ => false) then
        match objGet attrs "checked" with
        | some av => attrTruthy av
        | none => false
      else findCheckboxStateInList kids
def findCheckboxStateInList : List VDom → Bool
  | [] => false
  | c :: cs =>
      match c with
      | .vtext _ => findCheckboxStateInList cs
      | .velem t a k => findCheckboxStateInVNode (.velem t a k)
end

/-- The string `label.textContent = x` writes when `x` is the found virtual
child: a text child writes its text, an element child coerces to
`"[object Object]"`. -/
def labelWriteString : VDom → String
  | .vtext s => s
  | .velem .. => "[object Object]"

/-- Whether `label.textContent !== newLabelText` holds: against a text child
this is a string comparison, against an element child the strict comparison
of a string with an object is always true. -/
def labelWriteNeeded (lab : HNode) : VDom → Bool
  | .vtext s => !(hTextContent lab == s)
  | .velem .. => true

/-- `textContent = s` on an element replaces its children by one text node. -/
def setTextContentH (h : HNode) (s : String) : HNode :=
  match h with
  | .text t => .text t
  | .elem i t c a ch vl _ => .elem i t c a ch vl [.text s]

/-- `checkbox.checked = b`. -/
def setCheckedH (h : HNode) (b : Bool) : HNode :=
  match h with
  | .text t => .text t
  | .elem i t c a _ vl kids => .elem i t c a b vl kids

/-- `updateTodoItemContent(li, vli)`: guarded writes of the label text and the
checkbox `checked` state, located by `querySelector('label')` and
`querySelector('.toggle')`. -/
def updateTodoItemContent (li : HNode) (vli : VDom) : HNode × List Mut :=
  match li with
  | .text s => (.text s, [])
  | .elem i t c a ch vl kids =>
      let isLabel : HNode → Bool := fun n => tagNameOf n == "LABEL"
      let labelFound := querySelectorList isLabel kids
      let step1 : List HNode × List Mut :=
        match labelFound, findLabelTextInVNode vli with
        | some lab, some w =>
            if vTruthy w && labelWriteNeeded lab w then
              let target := labelWriteString w
              let r := updFirstList isLabel
                (fun n => (setTextContentH n target, [Mut.setText (nid n) target])) kids
              (r.1, r.2.1)
            else (kids, [])
        | _, _ => (kids, [])
      let isToggle : HNode → Bool := fun n => (classTokens (classNameOf n)).contains "toggle"
      let newChecked := findCheckboxStateInVNode vli
      let step2 : List HNode × List Mut :=
        match querySelectorList isToggle step1.1 with
        | some box =>
            if !(checkedOf box == newChecked) then
              let r := updFirstList isToggle
                (fun n => (setCheckedH n newChecked, [Mut.setChecked (nid n) newChecked])) step1.1
              (r.1, r.2.1)
            else (step1.1, [])
        | none => (step1.1, [])
      (.elem i t c a ch vl step2.1, step1.2 ++ step2.2)

/-- `updateTodoItem(li, vli)`: guarded `className` write; when the
`editing` class flag (substring test) flips, the item's content is rebuilt
from scratch (plus a deferred focus call with no tree effect), otherwise the
content-only update runs. -/
def updateTodoItem (li : HNode) (vli : VDom) (ctr : Nat) : HNode × Nat × List Mut :=
  match li with
  | .text s => (.text s, ctr, [])
  | .elem i tagN cls a ch vl kids =>
      let newCls := vClassName vli
      let clsMuts : List Mut := if cls == newCls then [] else [Mut.setClassName i newCls]
      let wasE := strIncludes cls "editing"
      let isE := strIncludes newCls "editing"
      if !(wasE == isE) then
        let r := createRealNodeList (vChildren vli) ctr
        (.elem i tagN newCls a ch vl r.1, r.2,
          clsMuts ++ Mut.clearChildren i :: r.1.map (fun c => Mut.appendChild i (nid c)))
      else
        let r := updateTodoItemContent (.elem i tagN newCls a ch vl kids) vli
        (r.1, ctr, clsMuts ++ r.2)

/-- `li.remove()` executed on the child list, removing the element with id
`eid`. -/
def removeByIdList (cs : List HNode) (eid : Nat) : List HNode :=
  cs.filter (fun c => !(c.isElem && nid c == eid))

/-- Insert `n` directly before the element with id `refId` (before-the-end
fallback is unreachable in the modelled flows). -/
def insertBeforeId : List HNode → HNode → Nat → List HNode
  | [], n, _ => [n]
  | c :: rest, n, refId =>
      if c.isElem && nid c == refId then n :: c :: rest
      else c :: insertBeforeId rest n refId

/-- `parent.insertBefore(n, ref)`: if `n` is already in the list it is moved. -/
def domInsertBefore (cs : List HNode) (n : HNode) (refId : Nat) : List HNode :=
  insertBeforeId (removeByIdList cs (nid n)) n refId

/-- `parent.appendChild(n)`: if `n` is already in the list it is moved. -/
def domAppend (cs : List HNode) (n : HNode) : List HNode :=
  removeByIdList cs (nid n) ++ [n]

def findElemById (cs : List HNode) (eid : Nat) : Option HNode :=
  cs.find? (fun c => c.isElem && nid c == eid)

/-- `Array.from(ul.children).indexOf(existingLi)` (`none` for `-1`). -/
def elemIndexOf (cs : List HNode) (eid : Nat) : Option Nat :=
  (elemChildren cs).findIdx? (fun c => nid c == eid)

/-- The shared placement step of the upsert pass:
`if (index >= ul.children.length) appendChild else insertBefore(n, ul.children[index])`. -/
def placeChild (ulId : Nat) (cs : List HNode) (n : HNode) (idx : Nat) : List HNode × List Mut :=
  if (elemChildren cs).length ≤ idx then
    (domAppend cs n, [Mut.appendChild ulId (nid n)])
  else
    match (elemChildren cs).get? idx with
    | some ref => (domInsertBefore cs n (nid ref), [Mut.insertBefore ulId (nid n) (nid ref)])
    | none => (domAppend cs n, [Mut.appendChild ulId (nid n)])

/-- The `existingById` map: key read off each existing child, `Map.set`
overwriting on duplicates; values are node identities. -/
def existingByIdMap (items : List HNode) : List (String × Nat) :=
  items.foldl (fun m li =>
    match hKey li with
    | some k => setAssoc m k (nid li)
    | none => m) []

/-- The keys of `newByKey` (raw values, for the strict-equality `has` test of
the removal pass). -/
def newKeysRaw (items : List VDom) : List AttrV :=
  items.foldl (fun m vli =>
    match vKeyRaw vli with
    | some kv => m ++ [kv]
    | none => m) []

/-- One entry of the removal pass: a keyed existing child whose key is absent
from the new key set (strict-equality `Map.has`) is detached. -/
def removalStep (newKeys : List AttrV) (acc : List HNode × List Mut) (e : String × Nat) :
    List HNode × List Mut :=
  if newKeys.contains (AttrV.str e.1) then acc
  else (removeByIdList acc.1 e.2, acc.2 ++ [Mut.removeChild e.2])

/-- The removal pass over the `existingById` entries. -/
def removalPass (cs : List HNode) (ebid : List (String × Nat)) (newKeys : List AttrV) :
    List HNode × List Mut :=
  ebid.foldl (removalStep newKeys) (cs, [])

/-- `existingById.get(id)` followed by the `if (existingLi)` guard: a string
key is looked up in the map (a non-string `Map` key never matches, keys being
compared with strict equality) and the found element is located in the current
child list by its identity. -/
def fetchExisting (ebid : List (String × Nat)) (cs : List HNode) : AttrV → Option (Nat × HNode)
  | .str s =>
      match objGet ebid s with
      | some eid =>
          match findElemById cs eid with
          | some cur => some (eid, cur)
          | none => none
      | none => none
  | _ => none

/-- The upsert-and-reorder pass over the new forest, carrying the running
child index (`forEach`'s index counts unkeyed entries too). -/
def upsertLoop (ulId : Nat) (ebid : List (String × Nat)) :
    List VDom → Nat → List HNode → Nat → List HNode × Nat × List Mut
  | [], _, cs, ctr => (cs, ctr, [])
  | vli :: rest, idx, cs, ctr =>
      match vKeyRaw vli with
      | none => upsertLoop ulId ebid rest (idx + 1) cs ctr
      | some kraw =>
          match fetchExisting ebid cs kraw with
          | some (eid, cur) =>
              let r := updateTodoItem cur vli ctr
              let cs1 := cs.map (fun c => if c.isElem && nid c == eid then r.1 else c)
              let moved : List HNode × List Mut :=
                if elemIndexOf cs1 eid == some idx then (cs1, [])
                else placeChild ulId cs1 r.1 idx
              let cont := upsertLoop ulId ebid rest (idx + 1) moved.1 r.2.1
              (cont.1, cont.2.1, r.2.2 ++ moved.2 ++ cont.2.2)
          | none =>
              let m := createRealNode vli ctr
              let placed := placeChild ulId cs m.1 idx
              let cont := upsertLoop ulId ebid rest (idx + 1) placed.1 m.2
              (cont.1, cont.2.1, placed.2 ++ cont.2.2)

/-- `updateTodoList(ul, vnode)`: key maps, removal pass, then upsert/reorder. -/
def updateTodoList (ul : HNode) (v : VDom) (ctr : Nat) : HNode × Nat × List Mut :=
  match ul with
  | .text s => (.text s, ctr, [])
  | .elem i tagN cls a ch vl kids =>
      let ebid := existingByIdMap (elemChildren kids)
      let newItems := vChildren v
      let nk := newKeysRaw newItems
      let rem := removalPass kids ebid nk
      let ups := upsertLoop i ebid newItems 0 rem.1 ctr
      (.elem i tagN cls a ch vl ups.1, ups.2.1, rem.2 ++ ups.2.2)

/-! ## Patch in place: `updateElementInPlace` -/

/-- The `element.tagName === 'UL' && element.classList.contains('todo-list')`
signature that routes a host node to the keyed-list patcher. -/
def isTodoListHost (h : HNode) : Bool :=
  tagNameOf h == "UL" && (classTokens (classNameOf h)).contains "todo-list"

/-- One iteration of the attribute loop of `updateElementInPlace`:
event-prefixed keys are skipped, `className` is written only on strict
inequality (with coercion), a string-valued `style` is written through
`setAttribute` unconditionally; every other key is ignored. -/
def patchAttrStep (id : Nat) (acc : String × List (String × String) × List Mut)
    (e : String × AttrV) : String × List (String × String) × List Mut :=
  if startsWithOn e.1 then acc
  else if e.1 == "className" then
    let same := match e.2 with | .str s => acc.1 == s | _ => false
    if same then acc
    else (attrToString e.2, acc.2.1, acc.2.2 ++ [Mut.setClassName id (attrToString e.2)])
  else if e.1 == "style" then
    match e.2 with
    | .str s => (acc.1, setAssoc acc.2.1 "style" s, acc.2.2 ++ [Mut.setAttr id "style" s])
    | _ => acc
  else acc

/-- The attribute loop of `updateElementInPlace` over the new VNode's
attribute mapping.  Returns the new `className` property, the new attribute
map and the writes performed. -/
def patchAttrs (id : Nat) (cls : String) (a : List (String × String))
    (vattrs : List (String × AttrV)) : String × List (String × String) × List Mut :=
  vattrs.foldl (patchAttrStep id) (cls, a, [])

/-- Replace the element entries of a child list positionally by the given
replacements, leaving text nodes where they are (how the per-index
`replaceChild`/in-place patches of the child loop act on the child list). -/
def replaceElems : List HNode → List HNode → List HNode
  | [], _ => []
  | c :: cs, repl =>
      if c.isElem then
        match repl with
        | r :: rrest => r :: replaceElems cs rrest
        | [] => c :: replaceElems cs []
      else c :: replaceElems cs repl

mutual
/-- `updateElementInPlace(element, vnode)`: todo-list containers delegate to
the keyed patcher; otherwise the attribute loop runs, then the single-string
text shortcut (guarded `textContent` write), then the structural child pass:
with matching child counts each pair is recursively patched (tag match) or
replaced (`replaceChild` with a fresh mount), with differing counts the
children are rebuilt from scratch. -/
def updateElementInPlace (el : HNode) (v : VDom) (ctr : Nat) : HNode × Nat × List Mut :=
  match el with
  | .text s => (.text s, ctr, [])
  | .elem i tagN cls a ch vl kids =>
      if isTodoListHost (.elem i tagN cls a ch vl kids) then
        updateTodoList (.elem i tagN cls a ch vl kids) v ctr
      else
        match v with
        | .vtext _ => (.elem i tagN cls a ch vl kids, ctr, [])
        | .velem _ vattrs vkids =>
            let pa := patchAttrs i cls a vattrs
            match vkids with
            | [] => (.elem i tagN pa.1 pa.2.1 ch vl kids, ctr, pa.2.2)
            | [.vtext s] =>
                if hTextContentList kids == s then
                  (.elem i tagN pa.1 pa.2.1 ch vl kids, ctr, pa.2.2)
                else
                  (.elem i tagN pa.1 pa.2.1 ch vl [.text s], ctr, pa.2.2 ++ [Mut.setText i s])
            | [.velem t0 a0 k0] =>
                if (elemChildren kids).length == 1 then
                  let r := uipPairs i (elemChildren kids) [.velem t0 a0 k0] ctr
                  (.elem i tagN pa.1 pa.2.1 ch vl (replaceElems kids r.1), r.2.1,
                    pa.2.2 ++ r.2.2)
                else
                  let r := createRealNodeList [.velem t0 a0 k0] ctr
                  (.elem i tagN pa.1 pa.2.1 ch vl r.1, r.2,
                    pa.2.2 ++ Mut.clearChildren i :: r.1.map (fun c => Mut.appendChild i (nid c)))
            | v0 :: v1 :: vrest =>
                if (elemChildren kids).length == (v0 :: v1 :: vrest).length then
                  let r := uipPairs i (elemChildren kids) (v0 :: v1 :: vrest) ctr
                  (.elem i tagN pa.1 pa.2.1 ch vl (replaceElems kids r.1), r.2.1,
                    pa.2.2 ++ r.2.2)
                else
                  let r := createRealNodeList (v0 :: v1 :: vrest) ctr
                  (.elem i tagN pa.1 pa.2.1 ch vl r.1, r.2,
                    pa.2.2 ++ Mut.clearChildren i :: r.1.map (fun c => Mut.appendChild i (nid c)))
/-- The structural child loop of `updateElementInPlace`: the snapshot of
element children paired index-wise with the new virtual children; a pair with
matching tags (case-insensitive, object children only) is patched in place,
any other pair is replaced by a fresh mount. -/
def uipPairs (pid : Nat) : List HNode → List VDom → Nat → List HNode × Nat × List Mut
  | _, [], ctr => ([], ctr, [])
  | [], _ :: _, ctr => ([], ctr, [])
  | c :: cs, vc :: vrest, ctr =>
      let ok := match vc with
        | .velem t _ _ => lowStr (tagNameOf c) == lowStr t
        | .vtext _ => false
      if ok then
        let r := updateElementInPlace c vc ctr
        let cont := uipPairs pid cs vrest r.2.1
        (r.1 :: cont.1, cont.2.1, r.2.2 ++ cont.2.2)
      else
        let m := createRealNode vc ctr
        let cont := uipPairs pid cs vrest m.2
        (m.1 :: cont.1, cont.2.1, Mut.replaceChild pid (nid m.1) (nid c) :: cont.2.2)
end

/-! ### Unfolding equations

Equation lemmas for the mutually recursive definitions above, stated
explicitly (the structural recursion over the nested inductives compiles, but
automatic equation generation for some of these match towers does not; each
equation below holds by `rfl`). -/

theorem createRealNode_vtext (s : String) (ctr : Nat) :
    createRealNode (.vtext s) ctr = (.text s, ctr) := rfl

theorem createRealNode_velem (tag : String) (attrs : List (String × AttrV))
    (kids : List VDom) (ctr : Nat) :
    createRealNode (.velem tag attrs kids) ctr =
      (let f := attrs.foldl (fun f e => applyMountAttr f e.1 e.2) ⟨"", [], false, ""⟩
       let r := createRealNodeList kids (ctr + 1)
       (.elem ctr (upStr tag) f.className f.attrs f.checked f.val r.1, r.2)) := rfl

theorem createRealNodeList_nil (ctr : Nat) : createRealNodeList [] ctr = ([], ctr) := rfl

theorem createRealNodeList_cons (v : VDom) (vs : List VDom) (ctr : Nat) :
    createRealNodeList (v :: vs) ctr =
      (let r := createRealNode v ctr
       let r2 := createRealNodeList vs r.2
       (r.1 :: r2.1, r2.2)) := rfl

theorem hTextContent_text (s : String) : hTextContent (.text s) = s := rfl

theorem hTextContent_elem (i : Nat) (t c : String) (a : List (String × String)) (ch : Bool)
    (vl : String) (kids : List HNode) :
    hTextContent (.elem i t c a ch vl kids) = hTextContentList kids := rfl

theorem hTextContentList_nil : hTextContentList [] = "" := rfl

theorem hTextContentList_cons (c : HNode) (cs : List HNode) :
    hTextContentList (c :: cs) = hTextContent c ++ hTextContentList cs := rfl

theorem querySelectorList_nil (p : HNode → Bool) : querySelectorList p [] = none := rfl

theorem querySelectorList_cons (p : HNode → Bool) (c : HNode) (cs : List HNode) :
    querySelectorList p (c :: cs) =
      (if c.isElem && p c then some c
       else
        match querySelectorNode p c with
        | some r => some r
        | none => querySelectorList p cs) := rfl

theorem querySelectorNode_text (p : HNode → Bool) (s : String) :
    querySelectorNode p (.text s) = none := rfl

theorem querySelectorNode_elem (p : HNode → Bool) (i : Nat) (t c : String)
    (a : List (String × String)) (ch : Bool) (vl : String) (kids : List HNode) :
    querySelectorNode p (.elem i t c a ch vl kids) = querySelectorList p kids := rfl

theorem updFirstList_nil (p : HNode → Bool) (f : HNode → HNode × List Mut) :
    updFirstList p f [] = ([], [], false) := rfl

theorem updFirstList_cons (p : HNode → Bool) (f : HNode → HNode × List Mut)
    (c : HNode) (cs : List HNode) :
    updFirstList p f (c :: cs) =
      (if c.isElem && p c then
        let r := f c
        (r.1 :: cs, r.2, true)
      else
        let rc := updFirstNode p f c
        if rc.2.2 then (rc.1 :: cs, rc.2.1, true)
        else
          let rs := updFirstList p f cs
          (c :: rs.1, rs.2.1, rs.2.2)) := rfl

theorem updFirstNode_text (p : HNode → Bool) (f : HNode → HNode × List Mut) (s : String) :
    updFirstNode p f (.text s) = (.text s, [], false) := rfl

theorem updFirstNode_elem (p : HNode → Bool) (f : HNode → HNode × List Mut) (i : Nat)
    (t c : String) (a : List (String × String)) (ch : Bool) (vl : String) (kids : List HNode) :
    updFirstNode p f (.elem i t c a ch vl kids) =
      (let r := updFirstList p f kids
       (.elem i t c a ch vl r.1, r.2)) := rfl

theorem findLabelTextInVNode_vtext (s : String) : findLabelTextInVNode (.vtext s) = none := rfl

theorem findLabelTextInVNode_velem (t : String) (a : List (String × AttrV)) (kids : List VDom) :
    findLabelTextInVNode (.velem t a kids) =
      (if t == "label" && !kids.isEmpty then kids.head?
       else findLabelTextInList kids) := rfl

theorem findLabelTextInList_nil : findLabelTextInList [] = none := rfl

theorem findLabelTextInList_cons_vtext (s : String) (cs : List VDom) :
    findLabelTextInList (.vtext s :: cs) = findLabelTextInList cs := rfl

theorem findLabelTextInList_cons_velem (t : String) (a : List (String × AttrV))
    (k : List VDom) (cs : List VDom) :
    findLabelTextInList (.velem t a k :: cs) =
      (match findLabelTextInVNode (.velem t a k) with
       | some r => if vTruthy r then some r else findLabelTextInList cs
       | none => findLabelTextInList cs) := rfl

theorem findCheckboxStateInVNode_vtext (s : String) :
    findCheckboxStateInVNode (.vtext s) = false := rfl

theorem findCheckboxStateInVNode_velem (t : String) (attrs : List (String × AttrV))
    (kids : List VDom) :
    findCheckboxStateInVNode (.velem t attrs kids) =
      (if t == "input" &&
          (match objGet attrs "type" with | some (.str s) => s == "checkbox" | _ => false) then
        match objGet attrs "checked" with
        | some av => attrTruthy av
        | none => false
      else findCheckboxStateInList kids) := rfl

theorem findCheckboxStateInList_nil : findCheckboxStateInList [] = false := rfl

theorem findCheckboxStateInList_cons_vtext (s : String) (cs : List VDom) :
    findCheckboxStateInList (.vtext s :: cs) = findCheckboxStateInList cs := rfl

theorem findCheckboxStateInList_cons_velem (t : String) (a : List (String × AttrV))
    (k : List VDom) (cs : List VDom) :
    findCheckboxStateInList (.velem t a k :: cs) = findCheckboxStateInVNode (.velem t a k) := rfl

theorem updateElementInPlace_text_vtext (s s' : String) (ctr : Nat) :
    updateElementInPlace (.text s) (.vtext s') ctr = (.text s, ctr, []) := rfl

theorem updateElementInPlace_text_velem (s t : String) (vattrs : List (String × AttrV))
    (vkids : List VDom) (ctr : Nat) :
    updateElementInPlace (.text s) (.velem t vattrs vkids) ctr = (.text s, ctr, []) := rfl

theorem updateElementInPlace_elem_vtext (i : Nat) (tagN cls : String)
    (a : List (String × String)) (ch : Bool) (vl : String) (kids : List HNode)
    (s : String) (ctr : Nat) :
    updateElementInPlace (.elem i tagN cls a ch vl kids) (.vtext s) ctr =
      (if isTodoListHost (.elem i tagN cls a ch vl kids) then
        updateTodoList (.elem i tagN cls a ch vl kids) (.vtext s) ctr
      else (.elem i tagN cls a ch vl kids, ctr, [])) := rfl

theorem updateElementInPlace_elem_nil (i : Nat) (tagN cls : String)
    (a : List (String × String)) (ch : Bool) (vl : String) (kids : List HNode)
    (t : String) (vattrs : List (String × AttrV)) (ctr : Nat) :
    updateElementInPlace (.elem i tagN cls a ch vl kids) (.velem t vattrs []) ctr =
      (if isTodoListHost (.elem i tagN cls a ch vl kids) then
        updateTodoList (.elem i tagN cls a ch vl kids) (.velem t vattrs []) ctr
      else
        (.elem i tagN (patchAttrs i cls a vattrs).1 (patchAttrs i cls a vattrs).2.1 ch vl kids,
          ctr, (patchAttrs i cls a vattrs).2.2)) := rfl

theorem updateElementInPlace_elem_text_child (i : Nat) (tagN cls : String)
    (a : List (String × String)) (ch : Bool) (vl : String) (kids : List HNode)
    (t : String) (vattrs : List (String × AttrV)) (s : String) (ctr : Nat) :
    updateElementInPlace (.elem i tagN cls a ch vl kids) (.velem t vattrs [.vtext s]) ctr =
      (if isTodoListHost (.elem i tagN cls a ch vl kids) then
        updateTodoList (.elem i tagN cls a ch vl kids) (.velem t vattrs [.vtext s]) ctr
      else if hTextContentList kids == s then
        (.elem i tagN (patchAttrs i cls a vattrs).1 (patchAttrs i cls a vattrs).2.1 ch vl kids,
          ctr, (patchAttrs i cls a vattrs).2.2)
      else
        (.elem i tagN (patchAttrs i cls a vattrs).1 (patchAttrs i cls a vattrs).2.1 ch vl
            [.text s],
          ctr, (patchAttrs i cls a vattrs).2.2 ++ [Mut.setText i s])) := rfl

theorem updateElementInPlace_elem_one_elem_child (i : Nat) (tagN cls : String)
    (a : List (String × String)) (ch : Bool) (vl : String) (kids : List HNode)
    (t : String) (vattrs : List (String × AttrV)) (t0 : String)
    (a0 : List (String × AttrV)) (k0 : List VDom) (ctr : Nat) :
    updateElementInPlace (.elem i tagN cls a ch vl kids)
        (.velem t vattrs [.velem t0 a0 k0]) ctr =
      (if isTodoListHost (.elem i tagN cls a ch vl kids) then
        updateTodoList (.elem i tagN cls a ch vl kids) (.velem t vattrs [.velem t0 a0 k0]) ctr
      else if (elemChildren kids).length == 1 then
        (.elem i tagN (patchAttrs i cls a vattrs).1 (patchAttrs i cls a vattrs).2.1 ch vl
            (replaceElems kids (uipPairs i (elemChildren kids) [.velem t0 a0 k0] ctr).1),
          (uipPairs i (elemChildren kids) [.velem t0 a0 k0] ctr).2.1,
          (patchAttrs i cls a vattrs).2.2 ++
            (uipPairs i (elemChildren kids) [.velem t0 a0 k0] ctr).2.2)
      else
        (.elem i tagN (patchAttrs i cls a vattrs).1 (patchAttrs i cls a vattrs).2.1 ch vl
            (createRealNodeList [.velem t0 a0 k0] ctr).1,
          (createRealNodeList [.velem t0 a0 k0] ctr).2,
          (patchAttrs i cls a vattrs).2.2 ++ Mut.clearChildren i ::
            (createRealNodeList [.velem t0 a0 k0] ctr).1.map
              (fun c => Mut.appendChild i (nid c)))) := rfl

theorem updateElementInPlace_elem_many_children (i : Nat) (tagN cls : String)
    (a : List (String × String)) (ch : Bool) (vl : String) (kids : List HNode)
    (t : String) (vattrs : List (String × AttrV)) (v0 v1 : VDom) (vrest : List VDom)
    (ctr : Nat) :
    updateElementInPlace (.elem i tagN cls a ch vl kids)
        (.velem t vattrs (v0 :: v1 :: vrest)) ctr =
      (if isTodoListHost (.elem i tagN cls a ch vl kids) then
        updateTodoList (.elem i tagN cls a ch vl kids) (.velem t vattrs (v0 :: v1 :: vrest)) ctr
      else if (elemChildren kids).length == (v0 :: v1 :: vrest).length then
        (.elem i tagN (patchAttrs i cls a vattrs).1 (patchAttrs i cls a vattrs).2.1 ch vl
            (replaceElems kids (uipPairs i (elemChildren kids) (v0 :: v1 :: vrest) ctr).1),
          (uipPairs i (elemChildren kids) (v0 :: v1 :: vrest) ctr).2.1,
          (patchAttrs i cls a vattrs).2.2 ++
            (uipPairs i (elemChildren kids) (v0 :: v1 :: vrest) ctr).2.2)
      else
        (.elem i tagN (patchAttrs i cls a vattrs).1 (patchAttrs i cls a vattrs).2.1 ch vl
            (createRealNodeList (v0 :: v1 :: vrest) ctr).1,
          (createRealNodeList (v0 :: v1 :: vrest) ctr).2,
          (patchAttrs i cls a vattrs).2.2 ++ Mut.clearChildren i ::
            (createRealNodeList (v0 :: v1 :: vrest) ctr).1.map
              (fun c => Mut.appendChild i (nid c)))) := by
  cases v0 <;> rfl

theorem uipPairs_nil_nil (pid : Nat) (ctr : Nat) : uipPairs pid [] [] ctr = ([], ctr, []) := rfl

theorem uipPairs_cons_nil (pid : Nat) (c : HNode) (cs : List HNode) (ctr : Nat) :
    uipPairs pid (c :: cs) [] ctr = ([], ctr, []) := rfl

theorem uipPairs_nil_cons (pid : Nat) (vc : VDom) (vcs : List VDom) (ctr : Nat) :
    uipPairs pid [] (vc :: vcs) ctr = ([], ctr, []) := rfl

theorem uipPairs_cons_cons (pid : Nat) (c : HNode) (cs : List HNode) (vc : VDom)
    (vrest : List VDom) (ctr : Nat) :
    uipPairs pid (c :: cs) (vc :: vrest) ctr =
      (let ok := match vc with
        | .velem t _ _ => lowStr (tagNameOf c) == lowStr t
        | .vtext _ => false
      if ok then
        let r := updateElementInPlace c vc ctr
        let cont := uipPairs pid cs vrest r.2.1
        (r.1 :: cont.1, cont.2.1, r.2.2 ++ cont.2.2)
      else
        let m := createRealNode vc ctr
        let cont := uipPairs pid cs vrest m.2
        (m.1 :: cont.1, cont.2.1, Mut.replaceChild pid (nid m.1) (nid c) :: cont.2.2)) := rfl

/-! ## Top level: `updateDom` -/

/-- The structural-compatibility test of one index pair: the virtual entry
must be present (truthy), tags must match case-insensitively, class strings
must match.  A bare text entry is never compatible (reading `.tag` off a
string is the throwing case analysed separately in the `JEntry` model). -/
def compatPair (e : HNode) (v : VDom) : Bool :=
  match v with
  | .vtext _ => false
  | .velem t vattrs _ => lowStr (tagNameOf e) == lowStr t && classNameCompat (classNameOf e) vattrs

/-- The `canUpdateInPlace` loop of `updateDom` (invoked on equal lengths;
a missing entry or failing pair stops it with `false`). -/
def canUpdateInPlace : List HNode → List (Option VDom) → Bool
  | _, [] => true
  | [], _ :: _ => false
  | e :: es, ov :: ovs =>
      match ov with
      | none => false
      | some v => compatPair e v && canUpdateInPlace es ovs

/-- The in-place branch of `updateDom`: patch each element child with its
index mate, skipping falsy entries (`if (vnode)`). -/
def udPatchPairs : List HNode → List (Option VDom) → Nat → List HNode × Nat × List Mut
  | _, [], ctr => ([], ctr, [])
  | [], _ :: _, ctr => ([], ctr, [])
  | c :: cs, ov :: rest, ctr =>
      match ov with
      | some v =>
          let r := updateElementInPlace c v ctr
          let cont := udPatchPairs cs rest r.2.1
          (r.1 :: cont.1, cont.2.1, r.2.2 ++ cont.2.2)
      | none =>
          let cont := udPatchPairs cs rest ctr
          (c :: cont.1, cont.2.1, cont.2.2)

/-- The fallback branch of `updateDom`: mount and append each truthy entry. -/
def rebuildChildren (cid : Nat) : List (Option VDom) → Nat → List HNode × Nat × List Mut
  | [], ctr => ([], ctr, [])
  | ov :: rest, ctr =>
      match ov with
      | none => rebuildChildren cid rest ctr
      | some v =>
          let m := createRealNode v ctr
          let cont := rebuildChildren cid rest m.2
          (m.1 :: cont.1, cont.2.1, Mut.appendChild cid (nid m.1) :: cont.2.2)

/-- `updateDom(container, newVNodes)`: compare the element children against
the forest; patch in place when lengths match and every pair is compatible,
otherwise clear the container (`innerHTML = ''`) and rebuild from scratch. -/
def updateDom (container : HNode) (forest : List (Option VDom)) (ctr : Nat) :
    HNode × Nat × List Mut :=
  match container with
  | .text s => (.text s, ctr, [])
  | .elem i tagN cls a ch vl kids =>
      let ex := elemChildren kids
      if ex.length == forest.length && canUpdateInPlace ex forest then
        let r := udPatchPairs ex forest ctr
        (.elem i tagN cls a ch vl (replaceElems kids r.1), r.2.1, r.2.2)
      else
        let r := rebuildChildren i forest ctr
        (.elem i tagN cls a ch vl r.1, r.2.1, Mut.clearChildren i :: r.2.2)

/-! ## Keyed-list infrastructure lemmas -/

theorem objGet_mem {α : Type} (l : List (String × α)) (k : String) (v : α)
    (h : objGet l k = some v) : (k, v) ∈ l := by
  induction l with
  | nil => simp [objGet] at h
  | cons e es ih =>
    rw [objGet] at h
    by_cases he : e.1 = k
    · rw [if_pos he] at h
      obtain ⟨e1, e2⟩ := e
      simp only at he h
      subst he
      rw [← Option.some.inj h]
      exact List.mem_cons_self _ _
    · rw [if_neg he] at h
      exact List.mem_cons_of_mem _ (ih h)

theorem objGet_setAssoc_src {α : Type} (m : List (String × α)) (k k' : String) (v w : α)
    (h : objGet (setAssoc m k v) k' = some w) :
    (k' = k ∧ w = v) ∨ objGet m k' = some w := by
  by_cases he : k' = k
  · subst he
    rw [objGet_setAssoc_self] at h
    exact Or.inl ⟨rfl, (Option.some.inj h).symm⟩
  · rw [objGet_setAssoc_other m k k' v (fun hc => he hc.symm)] at h
    exact Or.inr h

theorem existingByIdMap_src (items : List HNode) (k : String) (eid : Nat)
    (h : objGet (existingByIdMap items) k = some eid) :
    ∃ li ∈ items, hKey li = some k ∧ nid li = eid := by
  unfold existingByIdMap at h
  suffices hgen : ∀ (its : List HNode) (m : List (String × Nat)),
      objGet (its.foldl (fun m li =>
        match hKey li with
        | some k' => setAssoc m k' (nid li)
        | none => m) m) k = some eid →
      objGet m k = some eid ∨ ∃ li ∈ its, hKey li = some k ∧ nid li = eid by
    rcases hgen items [] h with hm | hm
    · simp [objGet] at hm
    · exact hm
  intro its
  induction its with
  | nil => intro m hm; exact Or.inl hm
  | cons li rest ih =>
    intro m hm
    rw [List.foldl_cons] at hm
    cases hk : hKey li with
    | none =>
      rw [hk] at hm
      rcases ih m hm with h1 | ⟨li', h1, h2⟩
      · exact Or.inl h1
      · exact Or.inr ⟨li', List.mem_cons_of_mem _ h1, h2⟩
    | some k' =>
      rw [hk] at hm
      rcases ih (setAssoc m k' (nid li)) hm with h1 | ⟨li', h1, h2⟩
      · rcases objGet_setAssoc_src m k' k (nid li) eid h1 with ⟨rfl, rfl⟩ | h2
        · exact Or.inr ⟨li, List.mem_cons_self _ _, hk, rfl⟩
        · exact Or.inl h2
      · exact Or.inr ⟨li', List.mem_cons_of_mem _ h1, h2⟩

theorem existingByIdMap_fold_preserve (its : List HNode) (k : String) :
    ∀ (m : List (String × Nat)), (∀ li ∈ its, hKey li ≠ some k) →
      objGet (its.foldl (fun m li =>
        match hKey li with
        | some k' => setAssoc m k' (nid li)
        | none => m) m) k = objGet m k := by
  induction its with
  | nil => intro m _; rfl
  | cons li rest ih =>
    intro m hno
    rw [List.foldl_cons]
    cases hk : hKey li with
    | none => exact ih m (fun li' h => hno li' (List.mem_cons_of_mem _ h))
    | some k' =>
      rw [ih (setAssoc m k' (nid li)) (fun li' h => hno li' (List.mem_cons_of_mem _ h))]
      have hkk : k' ≠ k := fun hc => hno li (List.mem_cons_self _ _) (hc ▸ hk)
      exact objGet_setAssoc_other m k' k (nid li) hkk

theorem existingByIdMap_lookup (items : List HNode)
    (hnd : (items.filterMap hKey).Nodup) :
    ∀ li ∈ items, ∀ k, hKey li = some k →
      objGet (existingByIdMap items) k = some (nid li) := by
  unfold existingByIdMap
  suffices hgen : ∀ (its : List HNode) (m : List (String × Nat)),
      (its.filterMap hKey).Nodup →
      ∀ li ∈ its, ∀ k, hKey li = some k →
        objGet (its.foldl (fun m li =>
          match hKey li with
          | some k' => setAssoc m k' (nid li)
          | none => m) m) k = some (nid li) by
    intro li hli k hk
    exact hgen items [] hnd li hli k hk
  intro its
  induction its with
  | nil => intro m _ li hli; simp at hli
  | cons li0 rest ih =>
    intro m hnd2 li hli k hk
    simp only [List.foldl_cons]
    rcases List.mem_cons.mp hli with rfl | hli2
    · rw [hk]
      have hnok : ∀ li' ∈ rest, hKey li' ≠ some k := by
        intro li' hli' hc
        rw [List.filterMap_cons, hk] at hnd2
        rw [List.nodup_cons] at hnd2
        exact hnd2.1 (List.mem_filterMap.mpr ⟨li', hli', hc⟩)
      rw [existingByIdMap_fold_preserve rest k _ hnok]
      exact objGet_setAssoc_self m k (nid li)
    · have hnd3 : (rest.filterMap hKey).Nodup := by
        rw [List.filterMap_cons] at hnd2
        cases hk0 : hKey li0 with
        | none => rw [hk0] at hnd2; exact hnd2
        | some k0 => rw [hk0] at hnd2; exact (List.nodup_cons.mp hnd2).2
      cases hk0 : hKey li0 with
      | none => exact ih m hnd3 li hli2 k hk
      | some k0 => exact ih (setAssoc m k0 (nid li0)) hnd3 li hli2 k hk

theorem newKeysRaw_fold_append (its : List VDom) :
    ∀ (m : List AttrV),
      its.foldl (fun m vli =>
        match vKeyRaw vli with
        | some kv => m ++ [kv]
        | none => m) m
      = m ++ its.foldl (fun m vli =>
        match vKeyRaw vli with
        | some kv => m ++ [kv]
        | none => m) [] := by
  induction its with
  | nil => intro m; simp
  | cons v0 rest ih =>
    intro m
    rw [List.foldl_cons, List.foldl_cons]
    cases h0 : vKeyRaw v0 with
    | none => exact ih m
    | some k0 =>
      rw [ih (m ++ [k0]), ih ([] ++ [k0])]
      simp

theorem newKeysRaw_cons (v0 : VDom) (rest : List VDom) :
    newKeysRaw (v0 :: rest) =
      (match vKeyRaw v0 with
       | some kv => [kv]
       | none => []) ++ newKeysRaw rest := by
  unfold newKeysRaw
  rw [List.foldl_cons]
  cases h0 : vKeyRaw v0 with
  | none => simp
  | some k0 => simpa using newKeysRaw_fold_append rest [k0]

theorem newKeysRaw_mem (items : List VDom) (vli : VDom) (kv : AttrV)
    (hm : vli ∈ items) (hk : vKeyRaw vli = some kv) : kv ∈ newKeysRaw items := by
  induction items with
  | nil => simp at hm
  | cons v0 rest ih =>
    rw [newKeysRaw_cons]
    rcases List.mem_cons.mp hm with rfl | hm2
    · rw [hk]
      exact List.mem_append_left _ (by simp)
    · exact List.mem_append_right _ (ih hm2)

theorem newKeysRaw_src (items : List VDom) (kv : AttrV) (hm : kv ∈ newKeysRaw items) :
    ∃ vli ∈ items, vKeyRaw vli = some kv := by
  induction items with
  | nil => simp [newKeysRaw] at hm
  | cons v0 rest ih =>
    rw [newKeysRaw_cons] at hm
    rcases List.mem_append.mp hm with h1 | h1
    · cases hk : vKeyRaw v0 with
      | none => rw [hk] at h1; simp at h1
      | some kv0 =>
        rw [hk] at h1
        simp only [List.mem_singleton] at h1
        exact ⟨v0, List.mem_cons_self _ _, h1 ▸ hk⟩
    · obtain ⟨vli, hv, hkv⟩ := ih h1
      exact ⟨vli, List.mem_cons_of_mem _ hv, hkv⟩

/-! ## Membership facts for the child-list surgery primitives -/

theorem removeByIdList_sub (cs : List HNode) (eid : Nat) (c : HNode)
    (h : c ∈ removeByIdList cs eid) : c ∈ cs :=
  List.mem_of_mem_filter h

theorem removeByIdList_keep (cs : List HNode) (eid : Nat) (c : HNode)
    (hc : c ∈ cs) (hne : ¬(c.isElem = true ∧ nid c = eid)) :
    c ∈ removeByIdList cs eid := by
  unfold removeByIdList
  refine List.mem_filter.mpr ⟨hc, ?_⟩
  have hfalse : (c.isElem && (nid c == eid)) = false := by
    cases h1 : c.isElem with
    | false => rfl
    | true =>
      simp only [Bool.true_and]
      exact beq_eq_false_iff_ne.mpr (fun he => hne ⟨h1, he⟩)
  simp only [hfalse, Bool.not_false]

theorem removeByIdList_pred (cs : List HNode) (eid : Nat) (c : HNode)
    (h : c ∈ removeByIdList cs eid) : ¬(c.isElem = true ∧ nid c = eid) := by
  unfold removeByIdList at h
  have hp := (List.mem_filter.mp h).2
  intro hce
  rw [hce.1, hce.2] at hp
  simp at hp

theorem removeByIdList_noop (cs : List HNode) (eid : Nat)
    (h : ∀ c ∈ cs, ¬(c.isElem = true ∧ nid c = eid)) :
    removeByIdList cs eid = cs := by
  unfold removeByIdList
  refine List.filter_eq_self.mpr ?_
  intro c hc
  have hfalse : (c.isElem && (nid c == eid)) = false := by
    cases h1 : c.isElem with
    | false => rfl
    | true =>
      simp only [Bool.true_and]
      exact beq_eq_false_iff_ne.mpr (fun he => h c hc ⟨h1, he⟩)
  simp only [hfalse, Bool.not_false]

theorem insertBeforeId_mem_old (l : List HNode) (n : HNode) (rid : Nat) (c : HNode)
    (hc : c ∈ l) : c ∈ insertBeforeId l n rid := by
  induction l with
  | nil => simp at hc
  | cons c0 rest ih =>
    rw [insertBeforeId]
    split
    · exact List.mem_cons_of_mem _ hc
    · rcases List.mem_cons.mp hc with rfl | h2
      · exact List.mem_cons_self _ _
      · exact List.mem_cons_of_mem _ (ih h2)

theorem insertBeforeId_mem_src (l : List HNode) (n : HNode) (rid : Nat) (c : HNode)
    (hc : c ∈ insertBeforeId l n rid) : c = n ∨ c ∈ l := by
  induction l with
  | nil =>
    rw [insertBeforeId] at hc
    simp at hc
    exact Or.inl hc
  | cons c0 rest ih =>
    rw [insertBeforeId] at hc
    split at hc
    · rcases List.mem_cons.mp hc with rfl | h2
      · exact Or.inl rfl
      · exact Or.inr h2
    · rcases List.mem_cons.mp hc with rfl | h2
      · exact Or.inr (List.mem_cons_self _ _)
      · rcases ih h2 with h | h
        · exact Or.inl h
        · exact Or.inr (List.mem_cons_of_mem _ h)

theorem findElemById_spec (cs : List HNode) (eid : Nat) (cur : HNode)
    (h : findElemById cs eid = some cur) :
    cur ∈ cs ∧ cur.isElem = true ∧ nid cur = eid := by
  unfold findElemById at h
  refine ⟨List.mem_of_find?_eq_some h, ?_⟩
  have hp := List.find?_some h
  simp only [Bool.and_eq_true, beq_iff_eq] at hp
  exact hp

theorem domAppend_mem_old (cs : List HNode) (n : HNode) (c : HNode)
    (hc : c ∈ cs) (hne : ¬(c.isElem = true ∧ nid c = nid n)) : c ∈ domAppend cs n := by
  unfold domAppend
  exact List.mem_append_left _ (removeByIdList_keep _ _ _ hc hne)

theorem domAppend_mem_src (cs : List HNode) (n : HNode) (c : HNode)
    (hc : c ∈ domAppend cs n) : c = n ∨ c ∈ cs := by
  unfold domAppend at hc
  rcases List.mem_append.mp hc with h | h
  · exact Or.inr (removeByIdList_sub _ _ _ h)
  · simp at h
    exact Or.inl h

theorem domInsertBefore_mem_old (cs : List HNode) (n : HNode) (rid : Nat) (c : HNode)
    (hc : c ∈ cs) (hne : ¬(c.isElem = true ∧ nid c = nid n)) :
    c ∈ domInsertBefore cs n rid := by
  unfold domInsertBefore
  exact insertBeforeId_mem_old _ _ _ _ (removeByIdList_keep _ _ _ hc hne)

theorem domInsertBefore_mem_src (cs : List HNode) (n : HNode) (rid : Nat) (c : HNode)
    (hc : c ∈ domInsertBefore cs n rid) : c = n ∨ c ∈ cs := by
  unfold domInsertBefore at hc
  rcases insertBeforeId_mem_src _ _ _ _ hc with h | h
  · exact Or.inl h
  · exact Or.inr (removeByIdList_sub _ _ _ h)

theorem placeChild_mem_old (ulId : Nat) (cs : List HNode) (n : HNode) (idx : Nat) (c : HNode)
    (hc : c ∈ cs) (hne : ¬(c.isElem = true ∧ nid c = nid n)) :
    c ∈ (placeChild ulId cs n idx).1 := by
  unfold placeChild
  split
  · exact domAppend_mem_old _ _ _ hc hne
  · split
    · exact domInsertBefore_mem_old _ _ _ _ hc hne
    · exact domAppend_mem_old _ _ _ hc hne

theorem placeChild_mem_src (ulId : Nat) (cs : List HNode) (n : HNode) (idx : Nat) (c : HNode)
    (hc : c ∈ (placeChild ulId cs n idx).1) : c = n ∨ c ∈ cs := by
  unfold placeChild at hc
  split at hc
  · exact domAppend_mem_src _ _ _ hc
  · split at hc
    · exact domInsertBefore_mem_src _ _ _ _ hc
    · exact domAppend_mem_src _ _ _ hc

theorem map_subst_mem_old (cs : List HNode) (eid : Nat) (n : HNode) (c : HNode)
    (hc : c ∈ cs) (hne : ¬(c.isElem = true ∧ nid c = eid)) :
    c ∈ cs.map (fun c => if c.isElem && nid c == eid then n else c) := by
  have hfix : (fun c => if c.isElem && nid c == eid then n else c) c = c := by
    have hfalse : (c.isElem && (nid c == eid)) = false := by
      cases h1 : c.isElem with
      | false => rfl
      | true =>
        simp only [Bool.true_and]
        exact beq_eq_false_iff_ne.mpr (fun he => hne ⟨h1, he⟩)
    simp [hfalse]
  exact hfix ▸ List.mem_map_of_mem _ hc

theorem map_subst_mem_src (cs : List HNode) (eid : Nat) (n : HNode) (c : HNode)
    (hc : c ∈ cs.map (fun c => if c.isElem && nid c == eid then n else c)) :
    c = n ∨ c ∈ cs := by
  obtain ⟨c0, hc0, heq0⟩ := List.mem_map.mp hc
  have heq : (if c0.isElem && nid c0 == eid then n else c0) = c := heq0
  by_cases h : (c0.isElem && (nid c0 == eid)) = true
  · rw [if_pos h] at heq
    exact Or.inl heq.symm
  · rw [if_neg h] at heq
    exact Or.inr (heq ▸ hc0)

/-! ## Membership facts for the removal pass -/

theorem removalPass_fold_sub (nk : List AttrV) (eb : List (String × Nat)) :
    ∀ (cs : List HNode) (ms : List Mut) (c : HNode),
      c ∈ (eb.foldl (removalStep nk) (cs, ms)).1 → c ∈ cs := by
  induction eb with
  | nil => intro cs ms c h; exact h
  | cons e rest ih =>
    intro cs ms c h
    rw [List.foldl_cons] at h
    by_cases hco : nk.contains (AttrV.str e.1) = true
    · rw [show removalStep nk (cs, ms) e = (cs, ms) from by
        unfold removalStep; rw [if_pos hco]] at h
      exact ih _ _ _ h
    · rw [show removalStep nk (cs, ms) e
          = (removeByIdList cs e.2, ms ++ [Mut.removeChild e.2]) from by
        unfold removalStep; rw [if_neg hco]] at h
      exact removeByIdList_sub _ _ _ (ih _ _ _ h)

theorem removalPass_fold_keep (nk : List AttrV) (eb : List (String × Nat)) :
    ∀ (cs : List HNode) (ms : List Mut) (c : HNode),
      c ∈ cs →
      (∀ e ∈ eb, nk.contains (AttrV.str e.1) = false → ¬(c.isElem = true ∧ nid c = e.2)) →
      c ∈ (eb.foldl (removalStep nk) (cs, ms)).1 := by
  induction eb with
  | nil => intro cs ms c h _; exact h
  | cons e rest ih =>
    intro cs ms c h hall
    rw [List.foldl_cons]
    by_cases hco : nk.contains (AttrV.str e.1) = true
    · rw [show removalStep nk (cs, ms) e = (cs, ms) from by
        unfold removalStep; rw [if_pos hco]]
      exact ih _ _ _ h (fun e2 he2 => hall e2 (List.mem_cons_of_mem _ he2))
    · rw [show removalStep nk (cs, ms) e
          = (removeByIdList cs e.2, ms ++ [Mut.removeChild e.2]) from by
        unfold removalStep; rw [if_neg hco]]
      refine ih _ _ _ (removeByIdList_keep _ _ _ h ?_)
        (fun e2 he2 => hall e2 (List.mem_cons_of_mem _ he2))
      exact hall e (List.mem_cons_self _ _) (Bool.eq_false_iff.mpr hco)

theorem removalPass_fold_removes (nk : List AttrV) (eb : List (String × Nat)) :
    ∀ (cs : List HNode) (ms : List Mut) (k : String) (eid : Nat),
      (k, eid) ∈ eb → nk.contains (AttrV.str k) = false →
      ∀ c ∈ (eb.foldl (removalStep nk) (cs, ms)).1, ¬(c.isElem = true ∧ nid c = eid) := by
  induction eb with
  | nil => intro cs ms k eid hm; simp at hm
  | cons e rest ih =>
    intro cs ms k eid hm hdead c hc
    rw [List.foldl_cons] at hc
    rcases List.mem_cons.mp hm with heq | hm2
    · subst heq
      rw [show removalStep nk (cs, ms) (k, eid)
          = (removeByIdList cs eid, ms ++ [Mut.removeChild eid]) from by
        unfold removalStep
        rw [if_neg (show ¬(nk.contains (AttrV.str k) = true) from by
          rw [hdead]; simp)]] at hc
      exact removeByIdList_pred _ _ _ (removalPass_fold_sub nk rest _ _ _ hc)
    · by_cases hco : nk.contains (AttrV.str e.1) = true
      · rw [show removalStep nk (cs, ms) e = (cs, ms) from by
          unfold removalStep; rw [if_pos hco]] at hc
        exact ih _ _ _ _ hm2 hdead c hc
      · rw [show removalStep nk (cs, ms) e
            = (removeByIdList cs e.2, ms ++ [Mut.removeChild e.2]) from by
          unfold removalStep; rw [if_neg hco]] at hc
        exact ih _ _ _ _ hm2 hdead c hc

theorem removalPass_fold_sublist (nk : List AttrV) (eb : List (String × Nat)) :
    ∀ (cs : List HNode) (ms : List Mut),
      (eb.foldl (removalStep nk) (cs, ms)).1.Sublist cs := by
  induction eb with
  | nil => intro cs ms; exact List.Sublist.refl cs
  | cons e rest ih =>
    intro cs ms
    rw [List.foldl_cons]
    by_cases hco : nk.contains (AttrV.str e.1) = true
    · rw [show removalStep nk (cs, ms) e = (cs, ms) from by
        unfold removalStep; rw [if_pos hco]]
      exact ih cs ms
    · rw [show removalStep nk (cs, ms) e
          = (removeByIdList cs e.2, ms ++ [Mut.removeChild e.2]) from by
        unfold removalStep; rw [if_neg hco]]
      exact (ih _ _).trans (List.filter_sublist cs)

/-! ## Counter monotonicity and key facts of the mount pass -/

theorem createRealNode_ctr_le (v0 : VDom) (ctr0 : Nat) : ctr0 ≤ (createRealNode v0 ctr0).2 := by
  refine createRealNode.induct
    (fun v ctr => ctr ≤ (createRealNode v ctr).2)
    (fun vs ctr => ctr ≤ (createRealNodeList vs ctr).2) ?_ ?_ ?_ ?_ v0 ctr0
  · intro s ctr
    rw [createRealNode_vtext]
  · intro tag attrs kids ctr ih
    rw [createRealNode_velem]
    dsimp only
    exact le_trans (Nat.le_succ ctr) ih
  · intro ctr
    rw [createRealNodeList_nil]
  · intro v vs ctr r h1 h2
    rw [createRealNodeList_cons]
    dsimp only
    exact le_trans h1 h2

theorem createRealNodeList_ctr_le (vs : List VDom) (ctr : Nat) :
    ctr ≤ (createRealNodeList vs ctr).2 := by
  induction vs generalizing ctr with
  | nil => rw [createRealNodeList_nil]
  | cons v rest ih =>
    rw [createRealNodeList_cons]
    dsimp only
    exact le_trans (createRealNode_ctr_le v ctr) (ih _)

theorem createRealNode_velem_ctr_lt (tag : String) (attrs : List (String × AttrV))
    (kids : List VDom) (ctr : Nat) :
    ctr < (createRealNode (.velem tag attrs kids) ctr).2 := by
  rw [createRealNode_velem]
  dsimp only
  exact lt_of_lt_of_le (Nat.lt_succ_self ctr) (createRealNodeList_ctr_le kids (ctr + 1))

theorem createRealNode_velem_nid (tag : String) (attrs : List (String × AttrV))
    (kids : List VDom) (ctr : Nat) :
    nid (createRealNode (.velem tag attrs kids) ctr).1 = ctr := rfl

theorem createRealNode_velem_isElem (tag : String) (attrs : List (String × AttrV))
    (kids : List VDom) (ctr : Nat) :
    ((createRealNode (.velem tag attrs kids) ctr).1).isElem = true := rfl

theorem applyMountAttr_attrs_other (f : ElemFields) (k k' : String) (av : AttrV)
    (hne : k ≠ k') : objGet (applyMountAttr f k av).attrs k' = objGet f.attrs k' := by
  unfold applyMountAttr
  split
  · rfl
  split
  · rfl
  split
  · rfl
  split
  · rfl
  split
  · rfl
  split
  · rfl
  exact objGet_setAssoc_other f.attrs k k' (attrToString av) hne

theorem applyMountAttr_attrs_dataId (f : ElemFields) (av : AttrV) :
    (applyMountAttr f "data-id" av).attrs = setAssoc f.attrs "data-id" (attrToString av) := by
  have h1 : startsWithOn "data-id" = false := by decide
  have h2 : ("data-id" == "className") = false := by decide
  have h3 : ("data-id" == "style") = false := by decide
  have h4 : ("data-id" == "checked") = false := by decide
  have h5 : ("data-id" == "value") = false := by decide
  have h6 : ("data-id" == "autofocus") = false := by decide
  unfold applyMountAttr
  simp [h1, h2, h3, h4, h5, h6]

theorem mountAttrs_fold_preserve (attrs : List (String × AttrV)) (k' : String) :
    ∀ (f : ElemFields), (∀ e ∈ attrs, e.1 ≠ k') →
      objGet ((attrs.foldl (fun f e => applyMountAttr f e.1 e.2) f)).attrs k'
        = objGet f.attrs k' := by
  induction attrs with
  | nil => intro f _; rfl
  | cons e rest ih =>
    intro f hk
    rw [List.foldl_cons,
      ih (applyMountAttr f e.1 e.2) (fun e2 he2 => hk e2 (List.mem_cons_of_mem _ he2))]
    exact applyMountAttr_attrs_other f e.1 k' e.2 (hk e (List.mem_cons_self _ _))

theorem mountAttrs_fold_dataId (attrs : List (String × AttrV)) :
    ∀ (f : ElemFields), (attrs.map Prod.fst).Nodup →
      objGet ((attrs.foldl (fun f e => applyMountAttr f e.1 e.2) f)).attrs "data-id"
        = (match objGet attrs "data-id" with
           | some av => some (attrToString av)
           | none => objGet f.attrs "data-id") := by
  induction attrs with
  | nil => intro f _; rfl
  | cons e rest ih =>
    obtain ⟨ek, ev⟩ := e
    intro f hnd
    rw [List.map_cons, List.nodup_cons] at hnd
    rw [List.foldl_cons]
    by_cases he : ek = "data-id"
    · subst he
      have hrest : ∀ e2 ∈ rest, e2.1 ≠ "data-id" := by
        intro e2 he2 hc
        have hm2 : e2.1 ∈ List.map Prod.fst rest := List.mem_map_of_mem Prod.fst he2
        rw [hc] at hm2
        exact hnd.1 hm2
      rw [mountAttrs_fold_preserve rest "data-id" _ hrest, applyMountAttr_attrs_dataId,
        objGet_setAssoc_self]
      rw [show objGet (("data-id", ev) :: rest) "data-id" = some ev from by
        rw [objGet, if_pos rfl]]
    · rw [ih (applyMountAttr f ek ev) hnd.2]
      rw [show objGet ((ek, ev) :: rest) "data-id" = objGet rest "data-id" from by
        rw [objGet, if_neg he]]
      cases hg : objGet rest "data-id" with
      | some av => rfl
      | none => exact applyMountAttr_attrs_other f ek "data-id" ev he

theorem hKey_elem (i : Nat) (t c : String) (a : List (String × String)) (ch : Bool)
    (vl : String) (kids : List HNode) :
    hKey (.elem i t c a ch vl kids) =
      (match objGet a "data-id" with
       | some s => if s == "" then none else some s
       | none => none) := rfl

theorem createRealNode_velem_hKey (tag : String) (attrs : List (String × AttrV))
    (kids : List VDom) (ctr : Nat) (s : String)
    (hnd : (attrs.map Prod.fst).Nodup)
    (hk : vKeyRaw (.velem tag attrs kids) = some (.str s)) :
    hKey (createRealNode (.velem tag attrs kids) ctr).1 = some s := by
  have hk2 : (match objGet attrs "data-id" with
      | some av => if attrTruthy av = true then some av else none
      | none => none) = some (AttrV.str s) := hk
  rcases hg : objGet attrs "data-id" with _ | av
  · rw [hg] at hk2
    exact absurd hk2 (by simp)
  · rw [hg] at hk2
    have hk3 : (if attrTruthy av = true then some av else none) = some (AttrV.str s) := hk2
    by_cases ht : attrTruthy av = true
    · rw [if_pos ht] at hk3
      have hav : av = .str s := by
        simpa using hk3
      subst hav
      have hs : (s == "") = false := by
        simpa [attrTruthy] using ht
      rw [createRealNode_velem]
      dsimp only
      rw [hKey_elem, mountAttrs_fold_dataId attrs ⟨"", [], false, ""⟩ hnd, hg]
      simp [attrToString, hs]
    · rw [if_neg ht] at hk3
      exact absurd hk3 (by simp)

/-! ## Shape of the item patcher -/

theorem updateTodoItemContent_shape (i : Nat) (t c : String) (a : List (String × String))
    (ch : Bool) (vl : String) (kids : List HNode) (vli : VDom) :
    ∃ kids2 ms, updateTodoItemContent (.elem i t c a ch vl kids) vli
      = (.elem i t c a ch vl kids2, ms) :=
  ⟨_, _, rfl⟩

theorem updateTodoItem_shape (i : Nat) (tagN cls : String) (a : List (String × String))
    (ch : Bool) (vl : String) (kids : List HNode) (vli : VDom) (ctr : Nat) :
    ∃ kids2 ctr2 ms, updateTodoItem (.elem i tagN cls a ch vl kids) vli ctr
        = (.elem i tagN (vClassName vli) a ch vl kids2, ctr2, ms) ∧ ctr ≤ ctr2 := by
  unfold updateTodoItem
  dsimp only
  split
  · refine ⟨_, _, _, rfl, ?_⟩
    exact createRealNodeList_ctr_le _ ctr
  · obtain ⟨kids2, ms, heq⟩ :=
      updateTodoItemContent_shape i tagN (vClassName vli) a ch vl kids vli
    refine ⟨kids2, ctr,
      (if cls == vClassName vli then [] else [Mut.setClassName i (vClassName vli)]) ++ ms,
      ?_, le_rfl⟩
    rw [heq]

/-! ## Case equations of the upsert loop -/

theorem upsertLoop_nil (ulId : Nat) (ebid : List (String × Nat)) (idx : Nat)
    (cs : List HNode) (ctr : Nat) :
    upsertLoop ulId ebid [] idx cs ctr = (cs, ctr, []) := rfl

theorem upsertLoop_cons (ulId : Nat) (ebid : List (String × Nat)) (vli : VDom)
    (rest : List VDom) (idx : Nat) (cs : List HNode) (ctr : Nat) :
    upsertLoop ulId ebid (vli :: rest) idx cs ctr =
      (match vKeyRaw vli with
       | none => upsertLoop ulId ebid rest (idx + 1) cs ctr
       | some kraw =>
          match fetchExisting ebid cs kraw with
          | some (eid, cur) =>
              let r := updateTodoItem cur vli ctr
              let cs1 := cs.map (fun c => if c.isElem && nid c == eid then r.1 else c)
              let moved : List HNode × List Mut :=
                if elemIndexOf cs1 eid == some idx then (cs1, [])
                else placeChild ulId cs1 r.1 idx
              let cont := upsertLoop ulId ebid rest (idx + 1) moved.1 r.2.1
              (cont.1, cont.2.1, r.2.2 ++ moved.2 ++ cont.2.2)
          | none =>
              let m := createRealNode vli ctr
              let placed := placeChild ulId cs m.1 idx
              let cont := upsertLoop ulId ebid rest (idx + 1) placed.1 m.2
              (cont.1, cont.2.1, placed.2 ++ cont.2.2)) := rfl

theorem upsertLoop_cons_none (ulId : Nat) (ebid : List (String × Nat)) (vli : VDom)
    (rest : List VDom) (idx : Nat) (cs : List HNode) (ctr : Nat)
    (hkr : vKeyRaw vli = none) :
    upsertLoop ulId ebid (vli :: rest) idx cs ctr =
      upsertLoop ulId ebid rest (idx + 1) cs ctr := by
  rw [upsertLoop_cons, hkr]

theorem upsertLoop_cons_mount (ulId : Nat) (ebid : List (String × Nat)) (vli : VDom)
    (rest : List VDom) (idx : Nat) (cs : List HNode) (ctr : Nat) (kraw : AttrV)
    (hkr : vKeyRaw vli = some kraw) (hfe : fetchExisting ebid cs kraw = none) :
    upsertLoop ulId ebid (vli :: rest) idx cs ctr =
      (let m := createRealNode vli ctr
       let placed := placeChild ulId cs m.1 idx
       let cont := upsertLoop ulId ebid rest (idx + 1) placed.1 m.2
       (cont.1, cont.2.1, placed.2 ++ cont.2.2)) := by
  rw [upsertLoop_cons, hkr]
  dsimp only
  rw [hfe]

theorem upsertLoop_cons_existing (ulId : Nat) (ebid : List (String × Nat)) (vli : VDom)
    (rest : List VDom) (idx : Nat) (cs : List HNode) (ctr : Nat) (kraw : AttrV)
    (eid : Nat) (cur : HNode) (hkr : vKeyRaw vli = some kraw)
    (hfe : fetchExisting ebid cs kraw = some (eid, cur)) :
    upsertLoop ulId ebid (vli :: rest) idx cs ctr =
      (let r := updateTodoItem cur vli ctr
       let cs1 := cs.map (fun c => if c.isElem && nid c == eid then r.1 else c)
       let moved : List HNode × List Mut :=
         if elemIndexOf cs1 eid == some idx then (cs1, [])
         else placeChild ulId cs1 r.1 idx
       let cont := upsertLoop ulId ebid rest (idx + 1) moved.1 r.2.1
       (cont.1, cont.2.1, r.2.2 ++ moved.2 ++ cont.2.2)) := by
  rw [upsertLoop_cons, hkr]
  dsimp only
  rw [hfe]

theorem fetchExisting_str_spec (ebid : List (String × Nat)) (cs : List HNode) (s : String)
    (eid : Nat) (cur : HNode) (h : fetchExisting ebid cs (.str s) = some (eid, cur)) :
    objGet ebid s = some eid ∧ findElemById cs eid = some cur := by
  have h2 : (match objGet ebid s with
      | some eid =>
          match findElemById cs eid with
          | some cur => some (eid, cur)
          | none => none
      | none => none) = some (eid, cur) := h
  cases hg : objGet ebid s with
  | none =>
    rw [hg] at h2
    exact absurd h2 (by simp)
  | some eid2 =>
    rw [hg] at h2
    have h3 : (match findElemById cs eid2 with
        | some cur => some (eid2, cur)
        | none => none) = some (eid, cur) := h2
    cases hf : findElemById cs eid2 with
    | none =>
      rw [hf] at h3
      exact absurd h3 (by simp)
    | some cur2 =>
      rw [hf] at h3
      have h4 : (some (eid2, cur2) : Option (Nat × HNode)) = some (eid, cur) := h3
      have h5 : eid2 = eid ∧ cur2 = cur := by
        have h6 := Option.some.inj h4
        exact ⟨congrArg Prod.fst h6, congrArg Prod.snd h6⟩
      obtain ⟨he, hc⟩ := h5
      subst he
      subst hc
      exact ⟨rfl, hf⟩

theorem fetchExisting_str_none_of_objGet (ebid : List (String × Nat)) (cs : List HNode)
    (s : String) (hg : objGet ebid s = none) : fetchExisting ebid cs (.str s) = none := by
  show (match objGet ebid s with
      | some eid =>
          match findElemById cs eid with
          | some cur => some (eid, cur)
          | none => none
      | none => none) = (none : Option (Nat × HNode))
  rw [hg]

theorem fetchExisting_str_eq (ebid : List (String × Nat)) (cs : List HNode) (s : String)
    (eid : Nat) (cur : HNode) (hg : objGet ebid s = some eid)
    (hf : findElemById cs eid = some cur) :
    fetchExisting ebid cs (.str s) = some (eid, cur) := by
  show (match objGet ebid s with
      | some eid =>
          match findElemById cs eid with
          | some cur => some (eid, cur)
          | none => none
      | none => none) = some (eid, cur)
  rw [hg]
  show (match findElemById cs eid with
      | some cur => some (eid, cur)
      | none => none) = some (eid, cur)
  rw [hf]

theorem setAssoc_mem_src {α : Type} (m : List (String × α)) (k0 : String) (v0 : α)
    (p : String × α) (h : p ∈ setAssoc m k0 v0) : p ∈ m ∨ p = (k0, v0) := by
  unfold setAssoc at h
  split at h
  · obtain ⟨q, hq, heq⟩ := List.mem_map.mp h
    have heq2 : (if q.1 = k0 then (k0, v0) else q) = p := heq
    by_cases hc : q.1 = k0
    · rw [if_pos hc] at heq2
      exact Or.inr heq2.symm
    · rw [if_neg hc] at heq2
      exact Or.inl (heq2 ▸ hq)
  · rcases List.mem_append.mp h with h1 | h1
    · exact Or.inl h1
    · simp only [List.mem_singleton] at h1
      exact Or.inr h1

theorem existingByIdMap_mem_entry (items : List HNode) (k : String) (eid : Nat)
    (h : (k, eid) ∈ existingByIdMap items) :
    ∃ li ∈ items, hKey li = some k ∧ nid li = eid := by
  unfold existingByIdMap at h
  suffices hgen : ∀ (its : List HNode) (m : List (String × Nat)),
      (k, eid) ∈ its.foldl (fun m li =>
        match hKey li with
        | some k' => setAssoc m k' (nid li)
        | none => m) m →
      (k, eid) ∈ m ∨ ∃ li ∈ its, hKey li = some k ∧ nid li = eid by
    rcases hgen items [] h with hm | hm
    · simp at hm
    · exact hm
  intro its
  induction its with
  | nil => intro m hm; exact Or.inl hm
  | cons li rest ih =>
    intro m hm
    rw [List.foldl_cons] at hm
    cases hk : hKey li with
    | none =>
      rw [hk] at hm
      rcases ih m hm with h1 | ⟨li', h1, h2⟩
      · exact Or.inl h1
      · exact Or.inr ⟨li', List.mem_cons_of_mem _ h1, h2⟩
    | some k' =>
      rw [hk] at hm
      rcases ih (setAssoc m k' (nid li)) hm with h1 | ⟨li', h1, h2⟩
      · rcases setAssoc_mem_src m k' (nid li) (k, eid) h1 with h2 | h2
        · exact Or.inl h2
        · have hkk : k = k' ∧ eid = nid li :=
            ⟨congrArg Prod.fst h2, congrArg Prod.snd h2⟩
          exact Or.inr ⟨li, List.mem_cons_self _ _, by rw [hk, hkk.1], hkk.2.symm⟩
      · exact Or.inr ⟨li', List.mem_cons_of_mem _ h1, h2⟩

/-- A new item's key, when present, is a string value (`getAttribute` returns
strings, so only string `Map` keys can ever match an existing child's key
under strict equality; the spec's keyed lists carry string `data-id`s). -/
def strKeyed (v : VDom) : Bool :=
  match vKeyRaw v with
  | some (.str _) => true
  | some _ => false
  | none => true

theorem strKeyed_spec (v : VDom) (h : strKeyed v = true) (kv : AttrV)
    (hk : vKeyRaw v = some kv) : ∃ s, kv = AttrV.str s := by
  unfold strKeyed at h
  rw [hk] at h
  cases kv with
  | str s => exact ⟨s, rfl⟩
  | num n => simp at h
  | boolV b => simp at h
  | fn f => simp at h
  | styleObj o => simp at h

/-- The string key of a new item: `data-id`, present, truthy and
string-valued (a non-string key never matches an existing child under the
`Map`'s strict equality). -/
def vKeyStr (v : VDom) : Option String :=
  match vKeyRaw v with
  | some (.str s) => some s
  | _ => none

theorem vKeyStr_some (v : VDom) (s : String) (h : vKeyStr v = some s) :
    vKeyRaw v = some (.str s) := by
  unfold vKeyStr at h
  cases hk : vKeyRaw v with
  | none => rw [hk] at h; simp at h
  | some kv =>
    rw [hk] at h
    cases kv with
    | str s2 =>
      have h2 : (some s2 : Option String) = some s := h
      rw [Option.some.inj h2]
    | num n => simp at h
    | boolV b => simp at h
    | fn f => simp at h
    | styleObj o => simp at h

theorem vKeyStr_of_raw (v : VDom) (s : String) (h : vKeyRaw v = some (.str s)) :
    vKeyStr v = some s := by
  unfold vKeyStr
  rw [h]

theorem mem_newKeysRaw_iff_keyStr (items : List VDom)
    (hstr : ∀ w ∈ items, ∀ kv, vKeyRaw w = some kv → ∃ s, kv = AttrV.str s) (k : String) :
    AttrV.str k ∈ newKeysRaw items ↔ k ∈ items.filterMap vKeyStr := by
  constructor
  · intro h
    obtain ⟨w, hw, hkv⟩ := newKeysRaw_src items _ h
    exact List.mem_filterMap.mpr ⟨w, hw, vKeyStr_of_raw w k hkv⟩
  · intro h
    obtain ⟨w, hw, hks⟩ := List.mem_filterMap.mp h
    exact newKeysRaw_mem items w _ hw (vKeyStr_some w k hks)

theorem filterMap_nodup_inj {α β : Type} (f : α → Option β) :
    ∀ (l : List α), (l.filterMap f).Nodup →
      ∀ x ∈ l, ∀ y ∈ l, ∀ v, f x = some v → f y = some v → x = y := by
  intro l
  induction l with
  | nil => intro _ x hx; simp at hx
  | cons a t ih =>
    intro hnd x hx y hy v hfx hfy
    rcases List.mem_cons.mp hx with rfl | hxt
    · rcases List.mem_cons.mp hy with rfl | hyt
      · rfl
      · exfalso
        have hnd2 : (v :: t.filterMap f).Nodup := by
          rw [List.filterMap_cons, hfx] at hnd
          exact hnd
        exact (List.nodup_cons.mp hnd2).1 (List.mem_filterMap.mpr ⟨y, hyt, hfy⟩)
    · rcases List.mem_cons.mp hy with rfl | hyt
      · exfalso
        have hnd2 : (v :: t.filterMap f).Nodup := by
          rw [List.filterMap_cons, hfy] at hnd
          exact hnd
        exact (List.nodup_cons.mp hnd2).1 (List.mem_filterMap.mpr ⟨x, hxt, hfx⟩)
      · have hnd2 : (t.filterMap f).Nodup := by
          rw [List.filterMap_cons] at hnd
          cases hfa : f a with
          | none =>
            rw [hfa] at hnd
            exact hnd
          | some w =>
            rw [hfa] at hnd
            exact (List.nodup_cons.mp (show (w :: t.filterMap f).Nodup from hnd)).2
        exact ih hnd2 x hxt y hyt v hfx hfy

theorem nodup_split_ne (A B : List HNode) (hnodup : ((A ++ B).map nid).Nodup)
    (x : HNode) (hx : x ∈ A) (y : HNode) (hy : y ∈ B) : nid x ≠ nid y := by
  rw [List.map_append, List.nodup_append] at hnodup
  intro h
  exact hnodup.2.2 (List.mem_map_of_mem nid hx) (by rw [h]; exact List.mem_map_of_mem nid hy)

theorem findElemById_unique (cs : List HNode) (eid : Nat) (c : HNode)
    (hnodup : (cs.map nid).Nodup) (hc : c ∈ cs) (hce : c.isElem = true)
    (hn : nid c = eid) : findElemById cs eid = some c := by
  induction cs with
  | nil => simp at hc
  | cons h t ih =>
    rw [List.map_cons, List.nodup_cons] at hnodup
    by_cases hp : (h.isElem && (nid h == eid)) = true
    · have hh : h = c := by
        rcases List.mem_cons.mp hc with rfl | hct
        · rfl
        · exfalso
          simp only [Bool.and_eq_true, beq_iff_eq] at hp
          exact hnodup.1 (by rw [hp.2, ← hn]; exact List.mem_map_of_mem nid hct)
      unfold findElemById
      rw [show List.find? (fun c => c.isElem && nid c == eid) (h :: t) = some h from
        List.find?_cons_of_pos _ hp, hh]
    · have hct : c ∈ t := by
        rcases List.mem_cons.mp hc with rfl | hct
        · exact absurd (by simp [hce, hn]) hp
        · exact hct
      unfold findElemById
      rw [show List.find? (fun c => c.isElem && nid c == eid) (h :: t)
          = List.find? (fun c => c.isElem && nid c == eid) t from
        List.find?_cons_of_neg _ hp]
      exact ih hnodup.2 hct

theorem elemChildren_all (cs : List HNode) (h : ∀ c ∈ cs, c.isElem = true) :
    elemChildren cs = cs :=
  List.filter_eq_self.mpr h

theorem map_subst_id (l : List HNode) (eid : Nat) (n : HNode)
    (h : ∀ x ∈ l, ¬(x.isElem = true ∧ nid x = eid)) :
    l.map (fun c => if c.isElem && nid c == eid then n else c) = l := by
  induction l with
  | nil => rfl
  | cons a t ih =>
    rw [List.map_cons]
    have hfalse : (a.isElem && (nid a == eid)) = false := by
      cases h1 : a.isElem with
      | false => rfl
      | true =>
        simp only [Bool.true_and]
        exact beq_eq_false_iff_ne.mpr (fun he2 => h a (List.mem_cons_self _ _) ⟨h1, he2⟩)
    rw [if_neg (show ¬((a.isElem && nid a == eid) = true) from by rw [hfalse]; simp)]
    rw [ih (fun x hx => h x (List.mem_cons_of_mem _ hx))]

theorem findIdx?_split {α : Type} (p : α → Bool) (A : List α) (c : α) (B : List α)
    (hA : ∀ x ∈ A, p x = false) (hc : p c = true) :
    ∀ i, List.findIdx? p (A ++ c :: B) i = some (i + A.length) := by
  induction A with
  | nil =>
    intro i
    rw [List.nil_append, List.findIdx?_cons, if_pos hc]
    simp
  | cons a t ih =>
    intro i
    rw [List.cons_append, List.findIdx?_cons,
      if_neg (by rw [hA a (List.mem_cons_self _ _)]; simp)]
    rw [ih (fun x hx => hA x (List.mem_cons_of_mem _ hx)) (i + 1)]
    simp
    omega

theorem elemIndexOf_split (A B : List HNode) (c : HNode) (eid : Nat)
    (hall : ∀ x ∈ A ++ c :: B, x.isElem = true)
    (hA : ∀ x ∈ A, nid x ≠ eid) (hc : nid c = eid) :
    elemIndexOf (A ++ c :: B) eid = some A.length := by
  unfold elemIndexOf
  rw [elemChildren_all _ hall]
  have hfi := findIdx?_split (fun x => nid x == eid) A c B
    (fun x hx => beq_eq_false_iff_ne.mpr (hA x hx)) (by simp [hc]) 0
  rw [hfi]
  simp

theorem insertBeforeId_append_none (A B : List HNode) (n : HNode) (rid : Nat)
    (hA : ∀ x ∈ A, ¬(x.isElem = true ∧ nid x = rid)) :
    insertBeforeId (A ++ B) n rid = A ++ insertBeforeId B n rid := by
  induction A with
  | nil => rfl
  | cons a t ih =>
    rw [List.cons_append, insertBeforeId]
    have hfalse : (a.isElem && (nid a == rid)) = false := by
      cases h1 : a.isElem with
      | false => rfl
      | true =>
        simp only [Bool.true_and]
        exact beq_eq_false_iff_ne.mpr (fun he => hA a (List.mem_cons_self _ _) ⟨h1, he⟩)
    rw [if_neg (show ¬((a.isElem && nid a == rid) = true) from by rw [hfalse]; simp)]
    rw [ih (fun x hx => hA x (List.mem_cons_of_mem _ hx))]
    rfl

theorem insertBeforeId_cons_hit (l : List HNode) (h1 n : HNode)
    (he : h1.isElem = true) :
    insertBeforeId (h1 :: l) n (nid h1) = n :: h1 :: l := by
  rw [insertBeforeId, if_pos (by simp [he])]

theorem removeByIdList_append (A B : List HNode) (eid : Nat) :
    removeByIdList (A ++ B) eid = removeByIdList A eid ++ removeByIdList B eid :=
  List.filter_append _ _

theorem removeByIdList_cons_hit (l : List HNode) (c : HNode) (he : c.isElem = true) :
    removeByIdList (c :: l) (nid c) = removeByIdList l (nid c) := by
  unfold removeByIdList
  rw [List.filter_cons, if_neg (by simp [he])]

/-- Placing a node whose identity is fresh for the child list at index
`done.length` of `done ++ pend` inserts it exactly at the boundary. -/
theorem placeChild_fresh_eq (ulId : Nat) (done pend : List HNode) (n : HNode)
    (hall : ∀ c ∈ done ++ pend, c.isElem = true)
    (hnodup : ((done ++ pend).map nid).Nodup)
    (hfresh : ∀ c ∈ done ++ pend, nid c ≠ nid n) :
    (placeChild ulId (done ++ pend) n done.length).1 = done ++ n :: pend := by
  have hnoop : removeByIdList (done ++ pend) (nid n) = done ++ pend :=
    removeByIdList_noop _ _ (fun c hc hcon => hfresh c hc hcon.2)
  unfold placeChild
  rw [elemChildren_all _ hall]
  cases pend with
  | nil =>
    rw [if_pos (by simp)]
    unfold domAppend
    rw [show removeByIdList (done ++ ([] : List HNode)) (nid n) = done ++ [] from hnoop]
    simp
  | cons h1 p' =>
    rw [if_neg (by simp)]
    have hget : (done ++ h1 :: p').get? done.length = some h1 := by
      rw [List.get?_append_right (le_refl done.length), Nat.sub_self]
      rfl
    rw [hget]
    dsimp only
    unfold domInsertBefore
    rw [show removeByIdList (done ++ h1 :: p') (nid n) = done ++ h1 :: p' from hnoop]
    rw [insertBeforeId_append_none done (h1 :: p') n (nid h1)
      (fun x hx hcon => nodup_split_ne done (h1 :: p') hnodup x hx h1 (by simp) hcon.2)]
    rw [insertBeforeId_cons_hit p' h1 n (hall h1 (by simp))]

/-- Moving the patched node (already in the list, behind at least one pending
child) to index `done.length` extracts it and reinserts it at the boundary. -/
theorem placeChild_move_eq (ulId : Nat) (done p1 p2 : List HNode) (nn : HNode)
    (hall : ∀ c ∈ done ++ p1 ++ nn :: p2, c.isElem = true)
    (hnodup : ((done ++ p1 ++ nn :: p2).map nid).Nodup)
    (h1p : p1 ≠ []) :
    (placeChild ulId (done ++ p1 ++ nn :: p2) nn done.length).1
      = done ++ nn :: (p1 ++ p2) := by
  obtain ⟨h1, p1', rfl⟩ : ∃ h1 p1', p1 = h1 :: p1' := by
    cases p1 with
    | nil => exact absurd rfl h1p
    | cons a b => exact ⟨a, b, rfl⟩
  have hnn_elem : nn.isElem = true := hall nn (by simp)
  have hAnodup : ((done ++ h1 :: p1').map nid).Nodup := by
    have h' := hnodup
    rw [List.map_append, List.nodup_append] at h'
    exact h'.1
  have hBnodup : ((nn :: p2).map nid).Nodup := by
    have h' := hnodup
    rw [List.map_append, List.nodup_append] at h'
    exact h'.2.1
  have hnoop1 : removeByIdList done (nid nn) = done :=
    removeByIdList_noop _ _ (fun c hc hcon =>
      nodup_split_ne (done ++ h1 :: p1') (nn :: p2) hnodup c (List.mem_append_left _ hc)
        nn (by simp) hcon.2)
  have hnoop2 : removeByIdList (h1 :: p1') (nid nn) = h1 :: p1' :=
    removeByIdList_noop _ _ (fun c hc hcon =>
      nodup_split_ne (done ++ h1 :: p1') (nn :: p2) hnodup c (List.mem_append_right _ hc)
        nn (by simp) hcon.2)
  have hnoop3 : removeByIdList p2 (nid nn) = p2 :=
    removeByIdList_noop _ _ (fun c hc hcon => by
      rw [List.map_cons, List.nodup_cons] at hBnodup
      exact hBnodup.1 (by rw [← hcon.2]; exact List.mem_map_of_mem nid hc))
  unfold placeChild
  rw [elemChildren_all _ hall]
  rw [if_neg (by simp)]
  have hget : ((done ++ h1 :: p1') ++ nn :: p2).get? done.length = some h1 := by
    rw [List.get?_append (by simp)]
    rw [List.get?_append_right (le_refl done.length), Nat.sub_self]
    rfl
  rw [hget]
  dsimp only
  unfold domInsertBefore
  rw [removeByIdList_append, removeByIdList_append, hnoop1, hnoop2,
    removeByIdList_cons_hit p2 nn hnn_elem, hnoop3]
  rw [List.append_assoc, List.cons_append]
  rw [insertBeforeId_append_none done (h1 :: (p1' ++ p2)) nn (nid h1)
    (fun x hx hcon => nodup_split_ne done (h1 :: p1') hAnodup x hx h1 (by simp) hcon.2)]
  rw [insertBeforeId_cons_hit (p1' ++ p2) h1 nn (hall h1 (by simp))]

/-- The upsert pass on a fully keyed list: processing the remaining new items
against `done ++ pend` (the already-placed prefix and the surviving original
children still awaiting their turn) appends exactly one child per item, in
item order, carrying the item's key; a child for a key that already existed
keeps the original node's identity. -/
theorem upsertLoop_keyed (ulId : Nat) (ebid : List (String × Nat)) (kids0 : List HNode)
    (hk0nodup : (kids0.filterMap hKey).Nodup)
    (hebid_orig : ∀ k eid, objGet ebid k = some eid →
      ∀ c0 ∈ kids0, hKey c0 = some k → nid c0 = eid)
    (hebid_none : ∀ k, objGet ebid k = none → ∀ c0 ∈ kids0, hKey c0 ≠ some k) :
    ∀ (rest : List VDom) (done pend : List HNode) (ctr : Nat),
      (∀ w ∈ rest, ((vAttrs w).map Prod.fst).Nodup) →
      (∀ w ∈ rest, (vKeyStr w).isSome = true) →
      (rest.filterMap vKeyStr).Nodup →
      (∀ c ∈ done ++ pend, c.isElem = true) →
      ((done ++ pend).map nid).Nodup →
      (∀ c ∈ done ++ pend, nid c < ctr) →
      (∀ c ∈ pend, c ∈ kids0) →
      (∀ c ∈ pend, ∃ k, hKey c = some k ∧ k ∈ rest.filterMap vKeyStr) →
      (∀ c ∈ done, ∀ k, hKey c = some k → k ∉ rest.filterMap vKeyStr) →
      (∀ k ∈ rest.filterMap vKeyStr, ∀ eid, objGet ebid k = some eid →
        ∃ c ∈ pend, nid c = eid ∧ hKey c = some k) →
      ∃ done2,
        (upsertLoop ulId ebid rest done.length (done ++ pend) ctr).1 = done ++ done2 ∧
        done2.map hKey = rest.map (fun w => vKeyStr w) ∧
        (∀ c ∈ done2, c.isElem = true) ∧
        (∀ c ∈ done2, ∀ k, hKey c = some k →
          ∀ c0 ∈ kids0, hKey c0 = some k → nid c = nid c0) := by
  intro rest
  induction rest with
  | nil =>
    intro done pend ctr _ _ _ _ _ _ _ Hpk _ _
    have hpe : pend = [] := by
      cases pend with
      | nil => rfl
      | cons c p' =>
        exfalso
        obtain ⟨k, _, hk2⟩ := Hpk c (List.mem_cons_self _ _)
        simp at hk2
    subst hpe
    rw [upsertLoop_nil]
    exact ⟨[], rfl, rfl, by simp, by simp⟩
  | cons vli rest' ih =>
    intro done pend ctr Hnd Hks Hknodup Hall Hnodup Hlt Hpo Hpk Hdk Hep
    obtain ⟨s, hks⟩ : ∃ s, vKeyStr vli = some s := by
      have h1 := Hks vli (List.mem_cons_self _ _)
      cases ho : vKeyStr vli with
      | none => rw [ho] at h1; simp at h1
      | some s => exact ⟨s, rfl⟩
    have hkr : vKeyRaw vli = some (.str s) := vKeyStr_some vli s hks
    have hkeys_cons : (vli :: rest').filterMap vKeyStr = s :: rest'.filterMap vKeyStr := by
      rw [List.filterMap_cons, hks]
    have hkc : (s :: rest'.filterMap vKeyStr).Nodup := by
      rw [← hkeys_cons]
      exact Hknodup
    have hsnotin : s ∉ rest'.filterMap vKeyStr := (List.nodup_cons.mp hkc).1
    have hknodup' : (rest'.filterMap vKeyStr).Nodup := (List.nodup_cons.mp hkc).2
    have Hnd' : ∀ w ∈ rest', ((vAttrs w).map Prod.fst).Nodup :=
      fun w hw => Hnd w (List.mem_cons_of_mem _ hw)
    have Hks' : ∀ w ∈ rest', (vKeyStr w).isSome = true :=
      fun w hw => Hks w (List.mem_cons_of_mem _ hw)
    cases hg : objGet ebid s with
    | some eid =>
      have hsmem : s ∈ (vli :: rest').filterMap vKeyStr := by
        rw [hkeys_cons]
        exact List.mem_cons_self _ _
      obtain ⟨cur, hcur_pend, hcur_nid, hcur_key⟩ := Hep s hsmem eid hg
      have hcur_mem : cur ∈ done ++ pend := List.mem_append_right _ hcur_pend
      have hcur_elem : cur.isElem = true := Hall cur hcur_mem
      have hfind : findElemById (done ++ pend) eid = some cur :=
        findElemById_unique _ _ _ Hnodup hcur_mem hcur_elem hcur_nid
      have hfe : fetchExisting ebid (done ++ pend) (.str s) = some (eid, cur) :=
        fetchExisting_str_eq ebid _ s eid cur hg hfind
      rw [upsertLoop_cons_existing ulId ebid vli rest' done.length (done ++ pend) ctr _
        eid cur hkr hfe]
      obtain ⟨p1, p2, hpend⟩ := List.append_of_mem hcur_pend
      subst hpend
      cases cur with
      | text s0 => simp [HNode.isElem] at hcur_elem
      | elem i0 t1 c1 a1 ch1 vl1 kids1 =>
        obtain ⟨kids2, ctr2, ms2, hr, hle⟩ :=
          updateTodoItem_shape i0 t1 c1 a1 ch1 vl1 kids1 vli ctr
        have hcur_lt : nid (HNode.elem i0 t1 c1 a1 ch1 vl1 kids1) < ctr := Hlt _ hcur_mem
        dsimp only
        rw [hr]
        dsimp only
        set nn := HNode.elem i0 t1 (vClassName vli) a1 ch1 vl1 kids2 with hnn
        have hnn_key : hKey nn = some s := by
          rw [hnn]
          exact hcur_key
        have hnn_elem : nn.isElem = true := by rw [hnn]; rfl
        have hnn_nid : nid nn = eid := by rw [hnn]; exact hcur_nid
        -- no other node of the current list carries the patched identity
        have hdone_ne : ∀ x ∈ done, ¬(x.isElem = true ∧ nid x = eid) := by
          intro x hx hcon
          exact nodup_split_ne done (p1 ++ HNode.elem i0 t1 c1 a1 ch1 vl1 kids1 :: p2)
            Hnodup x hx (HNode.elem i0 t1 c1 a1 ch1 vl1 kids1) (by simp)
            (by rw [hcon.2, ← hcur_nid])
        have hpendnodup : ((p1 ++ HNode.elem i0 t1 c1 a1 ch1 vl1 kids1 :: p2).map nid).Nodup := by
          have h' := Hnodup
          rw [List.map_append, List.nodup_append] at h'
          exact h'.2.1
        have hp1ne : ∀ x ∈ p1, ¬(x.isElem = true ∧ nid x = eid) := by
          intro x hx hcon
          exact nodup_split_ne p1 (HNode.elem i0 t1 c1 a1 ch1 vl1 kids1 :: p2) hpendnodup
            x hx _ (List.mem_cons_self _ _) (by rw [hcon.2, ← hcur_nid])
        have hp2ne : ∀ x ∈ p2, ¬(x.isElem = true ∧ nid x = eid) := by
          intro x hx hcon
          have h2 : ((HNode.elem i0 t1 c1 a1 ch1 vl1 kids1 :: p2).map nid).Nodup := by
            have h' := hpendnodup
            rw [List.map_append, List.nodup_append] at h'
            exact h'.2.1
          rw [List.map_cons, List.nodup_cons] at h2
          refine h2.1 ?_
          rw [hcur_nid, ← hcon.2]
          exact List.mem_map_of_mem nid hx
        -- the substitution pass rewrites exactly the patched child
        have hcs1 : (done ++ (p1 ++ HNode.elem i0 t1 c1 a1 ch1 vl1 kids1 :: p2)).map
            (fun c => if c.isElem && nid c == eid then nn else c)
            = done ++ (p1 ++ nn :: p2) := by
          rw [List.map_append, List.map_append, List.map_cons,
            if_pos (show ((HNode.elem i0 t1 c1 a1 ch1 vl1 kids1).isElem &&
              nid (HNode.elem i0 t1 c1 a1 ch1 vl1 kids1) == eid) = true from by
              simp [HNode.isElem, hcur_nid]),
            map_subst_id done eid nn hdone_ne, map_subst_id p1 eid nn hp1ne,
            map_subst_id p2 eid nn hp2ne]
        rw [hcs1]
        -- the index test and placement always land the patched child at the boundary
        have hmoved : (if elemIndexOf (done ++ (p1 ++ nn :: p2)) eid == some done.length
              then ((done ++ (p1 ++ nn :: p2)), ([] : List Mut))
              else placeChild ulId (done ++ (p1 ++ nn :: p2)) nn done.length).1
            = done ++ nn :: (p1 ++ p2) := by
          have hA2 : ∀ x ∈ done, nid x ≠ eid :=
            fun x hx h => hdone_ne x hx ⟨Hall x (List.mem_append_left _ hx), h⟩
          cases p1 with
          | nil =>
            simp only [List.nil_append]
            have hall2 : ∀ x ∈ done ++ nn :: p2, x.isElem = true := by
              intro x hx
              rcases List.mem_append.mp hx with h1 | h1
              · exact Hall x (List.mem_append_left _ h1)
              · rcases List.mem_cons.mp h1 with rfl | h2
                · exact hnn_elem
                · exact Hall x (List.mem_append_right _ (by simp [h2]))
            rw [elemIndexOf_split done p2 nn eid hall2 hA2 hnn_nid]
            rw [if_pos (by simp)]
          | cons h1 p1' =>
            have hsh : done ++ ((h1 :: p1') ++ nn :: p2) = (done ++ h1 :: p1') ++ nn :: p2 := by
              simp
            rw [hsh]
            have hAX : ∀ x ∈ done ++ h1 :: p1', nid x ≠ eid := by
              intro x hx h
              rcases List.mem_append.mp hx with h1' | h1'
              · exact hA2 x h1' h
              · exact hp1ne x h1'
                  ⟨Hall x (List.mem_append_right _ (List.mem_append_left _ h1')), h⟩
            have hallX : ∀ x ∈ (done ++ h1 :: p1') ++ nn :: p2, x.isElem = true := by
              intro x hx
              rw [show (done ++ h1 :: p1') ++ nn :: p2
                  = done ++ ((h1 :: p1') ++ nn :: p2) from by simp] at hx
              rcases List.mem_append.mp hx with h1' | h1'
              · exact Hall x (List.mem_append_left _ h1')
              · rcases List.mem_append.mp h1' with h2 | h2
                · exact Hall x (List.mem_append_right _ (List.mem_append_left _ h2))
                · rcases List.mem_cons.mp h2 with rfl | h3
                  · exact hnn_elem
                  · exact Hall x (List.mem_append_right _
                      (List.mem_append_right _ (List.mem_cons_of_mem _ h3)))
            rw [elemIndexOf_split (done ++ h1 :: p1') p2 nn eid hallX hAX hnn_nid]
            rw [if_neg (by simp)]
            have hnodupM : (((done ++ h1 :: p1') ++ nn :: p2).map nid).Nodup := by
              have heq : ((done ++ h1 :: p1') ++ nn :: p2).map nid
                  = (done ++ ((h1 :: p1') ++ HNode.elem i0 t1 c1 a1 ch1 vl1 kids1 :: p2)).map
                      nid := by
                simp only [List.map_append, List.map_cons, List.append_assoc]
                rw [hnn_nid, hcur_nid]
              rw [heq]
              exact Hnodup
            rw [placeChild_move_eq ulId done (h1 :: p1') p2 nn hallX hnodupM (by simp)]
        rw [hmoved]
        -- re-establish the invariants for the tail
        have hallN : ∀ c ∈ (done ++ [nn]) ++ (p1 ++ p2), c.isElem = true := by
          intro c hc
          rw [show (done ++ [nn]) ++ (p1 ++ p2) = done ++ nn :: (p1 ++ p2) from by simp] at hc
          rcases List.mem_append.mp hc with h1 | h1
          · exact Hall c (List.mem_append_left _ h1)
          · rcases List.mem_cons.mp h1 with rfl | h2
            · exact hnn_elem
            · rcases List.mem_append.mp h2 with h3 | h3
              · exact Hall c (List.mem_append_right _ (List.mem_append_left _ h3))
              · exact Hall c (List.mem_append_right _
                  (List.mem_append_right _ (List.mem_cons_of_mem _ h3)))
        have hnodupN : (((done ++ [nn]) ++ (p1 ++ p2)).map nid).Nodup := by
          have hperm : List.Perm (((done ++ [nn]) ++ (p1 ++ p2)).map nid)
              ((done ++ (p1 ++ HNode.elem i0 t1 c1 a1 ch1 vl1 kids1 :: p2)).map nid) := by
            rw [show (done ++ [nn]) ++ (p1 ++ p2) = done ++ (nn :: (p1 ++ p2)) from by simp]
            rw [List.map_append, List.map_append]
            refine List.Perm.append_left _ ?_
            rw [List.map_cons, hnn_nid]
            have h2 : (p1 ++ HNode.elem i0 t1 c1 a1 ch1 vl1 kids1 :: p2).map nid
                = p1.map nid ++ eid :: p2.map nid := by
              rw [List.map_append, List.map_cons, hcur_nid]
            rw [h2, List.map_append]
            exact List.perm_middle.symm
          exact hperm.symm.nodup Hnodup
        have hltN : ∀ c ∈ (done ++ [nn]) ++ (p1 ++ p2), nid c < ctr2 := by
          intro c hc
          rw [show (done ++ [nn]) ++ (p1 ++ p2) = done ++ nn :: (p1 ++ p2) from by simp] at hc
          rcases List.mem_append.mp hc with h1 | h1
          · exact lt_of_lt_of_le (Hlt c (List.mem_append_left _ h1)) hle
          · rcases List.mem_cons.mp h1 with rfl | h2
            · rw [hnn_nid, ← hcur_nid]
              exact lt_of_lt_of_le hcur_lt hle
            · rcases List.mem_append.mp h2 with h3 | h3
              · exact lt_of_lt_of_le
                  (Hlt c (List.mem_append_right _ (List.mem_append_left _ h3))) hle
              · exact lt_of_lt_of_le (Hlt c (List.mem_append_right _
                  (List.mem_append_right _ (List.mem_cons_of_mem _ h3)))) hle
        have hpoN : ∀ c ∈ p1 ++ p2, c ∈ kids0 := by
          intro c hc
          rcases List.mem_append.mp hc with h1 | h1
          · exact Hpo c (List.mem_append_left _ h1)
          · exact Hpo c (List.mem_append_right _ (List.mem_cons_of_mem _ h1))
        have hpkN : ∀ c ∈ p1 ++ p2, ∃ k, hKey c = some k ∧ k ∈ rest'.filterMap vKeyStr := by
          intro c hc
          have hcpend : c ∈ p1 ++ HNode.elem i0 t1 c1 a1 ch1 vl1 kids1 :: p2 := by
            rcases List.mem_append.mp hc with h1 | h1
            · exact List.mem_append_left _ h1
            · exact List.mem_append_right _ (List.mem_cons_of_mem _ h1)
          obtain ⟨k, hk1, hk2⟩ := Hpk c hcpend
          rw [hkeys_cons] at hk2
          rcases List.mem_cons.mp hk2 with rfl | h2
          · exfalso
            have hceq : c = HNode.elem i0 t1 c1 a1 ch1 vl1 kids1 :=
              filterMap_nodup_inj hKey kids0 hk0nodup c (Hpo c hcpend) _
                (Hpo _ (by simp)) k hk1 hcur_key
            subst hceq
            rcases List.mem_append.mp hc with h1 | h1
            · exact nodup_split_ne p1 (HNode.elem i0 t1 c1 a1 ch1 vl1 kids1 :: p2)
                hpendnodup _ h1 _ (List.mem_cons_self _ _) rfl
            · have h2' : ((HNode.elem i0 t1 c1 a1 ch1 vl1 kids1 :: p2).map nid).Nodup := by
                have h'' := hpendnodup
                rw [List.map_append, List.nodup_append] at h''
                exact h''.2.1
              rw [List.map_cons, List.nodup_cons] at h2'
              exact h2'.1 (List.mem_map_of_mem nid h1)
          · exact ⟨k, hk1, h2⟩
        have hdkN : ∀ c ∈ done ++ [nn], ∀ k, hKey c = some k →
            k ∉ rest'.filterMap vKeyStr := by
          intro c hc k hkc
          rcases List.mem_append.mp hc with h1 | h1
          · have h2 := Hdk c h1 k hkc
            rw [hkeys_cons] at h2
            exact fun hmem => h2 (List.mem_cons_of_mem _ hmem)
          · simp only [List.mem_singleton] at h1
            subst h1
            rw [hnn_key] at hkc
            rw [← Option.some.inj hkc]
            exact hsnotin
        have hepN : ∀ k ∈ rest'.filterMap vKeyStr, ∀ eid2, objGet ebid k = some eid2 →
            ∃ c ∈ p1 ++ p2, nid c = eid2 ∧ hKey c = some k := by
          intro k hk eid2 hg2
          obtain ⟨c, hcp, hcn, hck⟩ := Hep k
            (by rw [hkeys_cons]; exact List.mem_cons_of_mem _ hk) eid2 hg2
          have hkneq : k ≠ s := fun h => hsnotin (h ▸ hk)
          have hcne : c ≠ HNode.elem i0 t1 c1 a1 ch1 vl1 kids1 := by
            intro h
            rw [h, hcur_key] at hck
            exact hkneq (Option.some.inj hck).symm
          have hcp2 : c ∈ p1 ++ p2 := by
            rcases List.mem_append.mp hcp with h1 | h1
            · exact List.mem_append_left _ h1
            · rcases List.mem_cons.mp h1 with h3 | h3
              · exact absurd h3 hcne
              · exact List.mem_append_right _ h3
          exact ⟨c, hcp2, hcn, hck⟩
        obtain ⟨done2, hres, hmap, helems, hB⟩ :=
          ih (done ++ [nn]) (p1 ++ p2) ctr2 Hnd' Hks' hknodup' hallN hnodupN hltN hpoN
            hpkN hdkN hepN
        rw [show (done ++ [nn]).length = done.length + 1 from by simp] at hres
        rw [show (done ++ [nn]) ++ (p1 ++ p2) = done ++ nn :: (p1 ++ p2) from by simp] at hres
        refine ⟨nn :: done2, ?_, ?_, ?_, ?_⟩
        · rw [hres]
          simp
        · simp only [List.map_cons]
          rw [hmap, hnn_key, hks]
        · intro c hc
          rcases List.mem_cons.mp hc with rfl | h2
          · exact hnn_elem
          · exact helems c h2
        · intro c hc k hkc c0 hc0 hkc0
          rcases List.mem_cons.mp hc with rfl | h2
          · rw [hnn_key] at hkc
            have hks2 : s = k := Option.some.inj hkc
            subst hks2
            rw [hnn_nid]
            exact (hebid_orig s eid hg c0 hc0 hkc0).symm
          · exact hB c h2 k hkc c0 hc0 hkc0
    | none =>
      have hfe : fetchExisting ebid (done ++ pend) (.str s) = none :=
        fetchExisting_str_none_of_objGet ebid _ s hg
      rw [upsertLoop_cons_mount ulId ebid vli rest' done.length (done ++ pend) ctr _ hkr hfe]
      cases vli with
      | vtext s0 => simp [vKeyRaw] at hkr
      | velem t0 a0 k0 =>
        dsimp only
        have hmn : nid (createRealNode (.velem t0 a0 k0) ctr).1 = ctr :=
          createRealNode_velem_nid t0 a0 k0 ctr
        have hmelem : ((createRealNode (.velem t0 a0 k0) ctr).1).isElem = true :=
          createRealNode_velem_isElem t0 a0 k0 ctr
        have hmkey : hKey (createRealNode (.velem t0 a0 k0) ctr).1 = some s :=
          createRealNode_velem_hKey t0 a0 k0 ctr s (Hnd _ (List.mem_cons_self _ _)) hkr
        have hmlt : ctr < (createRealNode (.velem t0 a0 k0) ctr).2 :=
          createRealNode_velem_ctr_lt t0 a0 k0 ctr
        have hplaced : (placeChild ulId (done ++ pend)
              (createRealNode (.velem t0 a0 k0) ctr).1 done.length).1
            = done ++ (createRealNode (.velem t0 a0 k0) ctr).1 :: pend :=
          placeChild_fresh_eq ulId done pend _ Hall Hnodup
            (fun c hc h => Nat.ne_of_lt (Hlt c hc) (h.trans hmn))
        rw [hplaced]
        have hallN : ∀ c ∈ (done ++ [(createRealNode (.velem t0 a0 k0) ctr).1]) ++ pend,
            c.isElem = true := by
          intro c hc
          rw [show (done ++ [(createRealNode (.velem t0 a0 k0) ctr).1]) ++ pend
              = done ++ (createRealNode (.velem t0 a0 k0) ctr).1 :: pend from by simp] at hc
          rcases List.mem_append.mp hc with h1 | h1
          · exact Hall c (List.mem_append_left _ h1)
          · rcases List.mem_cons.mp h1 with rfl | h2
            · exact hmelem
            · exact Hall c (List.mem_append_right _ h2)
        have hnodupN : (((done ++ [(createRealNode (.velem t0 a0 k0) ctr).1]) ++ pend).map
            nid).Nodup := by
          have heq : ((done ++ [(createRealNode (.velem t0 a0 k0) ctr).1]) ++ pend).map nid
              = List.map nid done ++ nid (createRealNode (.velem t0 a0 k0) ctr).1
                  :: List.map nid pend := by
            simp
          rw [heq]
          have hperm : List.Perm (List.map nid done
                ++ nid (createRealNode (.velem t0 a0 k0) ctr).1 :: List.map nid pend)
              (nid (createRealNode (.velem t0 a0 k0) ctr).1
                :: (List.map nid done ++ List.map nid pend)) :=
            @List.perm_middle _ _ (List.map nid done) (List.map nid pend)
          refine hperm.symm.nodup ?_
          rw [List.nodup_cons]
          constructor
          · rw [hmn]
            intro hctr
            rw [← List.map_append] at hctr
            obtain ⟨c, hc, hcn⟩ := List.mem_map.mp hctr
            exact Nat.ne_of_lt (Hlt c hc) hcn
          · rw [← List.map_append]
            exact Hnodup
        have hltN : ∀ c ∈ (done ++ [(createRealNode (.velem t0 a0 k0) ctr).1]) ++ pend,
            nid c < (createRealNode (.velem t0 a0 k0) ctr).2 := by
          intro c hc
          rw [show (done ++ [(createRealNode (.velem t0 a0 k0) ctr).1]) ++ pend
              = done ++ (createRealNode (.velem t0 a0 k0) ctr).1 :: pend from by simp] at hc
          rcases List.mem_append.mp hc with h1 | h1
          · exact lt_trans (Hlt c (List.mem_append_left _ h1)) hmlt
          · rcases List.mem_cons.mp h1 with rfl | h2
            · rw [hmn]
              exact hmlt
            · exact lt_trans (Hlt c (List.mem_append_right _ h2)) hmlt
        have hpkN : ∀ c ∈ pend, ∃ k, hKey c = some k ∧ k ∈ rest'.filterMap vKeyStr := by
          intro c hc
          obtain ⟨k, hk1, hk2⟩ := Hpk c hc
          rw [hkeys_cons] at hk2
          rcases List.mem_cons.mp hk2 with rfl | h2
          · exact absurd hk1 (hebid_none _ hg c (Hpo c hc))
          · exact ⟨k, hk1, h2⟩
        have hdkN : ∀ c ∈ done ++ [(createRealNode (.velem t0 a0 k0) ctr).1], ∀ k,
            hKey c = some k → k ∉ rest'.filterMap vKeyStr := by
          intro c hc k hkc
          rcases List.mem_append.mp hc with h1 | h1
          · have h2 := Hdk c h1 k hkc
            rw [hkeys_cons] at h2
            exact fun hmem => h2 (List.mem_cons_of_mem _ hmem)
          · simp only [List.mem_singleton] at h1
            subst h1
            rw [hmkey] at hkc
            rw [← Option.some.inj hkc]
            exact hsnotin
        have hepN : ∀ k ∈ rest'.filterMap vKeyStr, ∀ eid2, objGet ebid k = some eid2 →
            ∃ c ∈ pend, nid c = eid2 ∧ hKey c = some k :=
          fun k hk eid2 hg2 =>
            Hep k (by rw [hkeys_cons]; exact List.mem_cons_of_mem _ hk) eid2 hg2
        obtain ⟨done2, hres, hmap, helems, hB⟩ :=
          ih (done ++ [(createRealNode (.velem t0 a0 k0) ctr).1]) pend
            (createRealNode (.velem t0 a0 k0) ctr).2 Hnd' Hks' hknodup' hallN hnodupN
            hltN Hpo hpkN hdkN hepN
        rw [show (done ++ [(createRealNode (.velem t0 a0 k0) ctr).1]).length
            = done.length + 1 from by simp] at hres
        rw [show (done ++ [(createRealNode (.velem t0 a0 k0) ctr).1]) ++ pend
            = done ++ (createRealNode (.velem t0 a0 k0) ctr).1 :: pend from by simp] at hres
        refine ⟨(createRealNode (.velem t0 a0 k0) ctr).1 :: done2, ?_, ?_, ?_, ?_⟩
        · rw [hres]
          simp
        · simp only [List.map_cons]
          rw [hmap, hmkey, hks]
        · intro c hc
          rcases List.mem_cons.mp hc with rfl | h2
          · exact hmelem
          · exact helems c h2
        · intro c hc k hkc c0 hc0 hkc0
          rcases List.mem_cons.mp hc with rfl | h2
          · rw [hmkey] at hkc
            have hks2 : s = k := Option.some.inj hkc
            subst hks2
            exact absurd hkc0 (hebid_none s hg c0 hc0)
          · exact hB c h2 k hkc c0 hc0 hkc0

/-- The upsert pass leaves the unkeyed children exactly in place: an unkeyed
child of the running child list survives to the final list (it is never
patched, moved or removed), and every unkeyed child of the final list was
already present (no unkeyed node is ever mounted, all fresh mounts carrying
the new item's key). -/
theorem upsertLoop_unkeyed (ulId : Nat) (ebid : List (String × Nat)) (items : List VDom) :
    ∀ (idx : Nat) (cs : List HNode) (ctr : Nat),
      (∀ vli ∈ items, ((vAttrs vli).map Prod.fst).Nodup) →
      (∀ vli ∈ items, ∀ kv, vKeyRaw vli = some kv → ∃ s, kv = AttrV.str s) →
      (∀ c ∈ cs, c.isElem = true → nid c < ctr) →
      (∀ c ∈ cs, c.isElem = true → hKey c = none →
        ∀ k eid, objGet ebid k = some eid → nid c ≠ eid) →
      (∀ c ∈ cs, hKey c = none → c ∈ (upsertLoop ulId ebid items idx cs ctr).1) ∧
      (∀ c ∈ (upsertLoop ulId ebid items idx cs ctr).1, hKey c = none → c ∈ cs) := by
  induction items with
  | nil =>
    intro idx cs ctr _ _ _ _
    rw [upsertLoop_nil]
    exact ⟨fun c hc _ => hc, fun c hc _ => hc⟩
  | cons vli rest ih =>
    intro idx cs ctr Hnd Hstr H1 H2
    have Hnd' : ∀ w ∈ rest, ((vAttrs w).map Prod.fst).Nodup :=
      fun w hw => Hnd w (List.mem_cons_of_mem _ hw)
    have Hstr' : ∀ w ∈ rest, ∀ kv, vKeyRaw w = some kv → ∃ s, kv = AttrV.str s :=
      fun w hw => Hstr w (List.mem_cons_of_mem _ hw)
    cases hkr : vKeyRaw vli with
    | none =>
      rw [upsertLoop_cons_none ulId ebid vli rest idx cs ctr hkr]
      exact ih (idx + 1) cs ctr Hnd' Hstr' H1 H2
    | some kraw =>
      obtain ⟨s, rfl⟩ := Hstr vli (List.mem_cons_self _ _) kraw hkr
      cases hfe : fetchExisting ebid cs (.str s) with
      | none =>
        rw [upsertLoop_cons_mount ulId ebid vli rest idx cs ctr _ hkr hfe]
        cases vli with
        | vtext s0 => simp [vKeyRaw] at hkr
        | velem t0 a0 k0 =>
          dsimp only
          have hnid : nid (createRealNode (.velem t0 a0 k0) ctr).1 = ctr :=
            createRealNode_velem_nid t0 a0 k0 ctr
          have hkeym : hKey (createRealNode (.velem t0 a0 k0) ctr).1 = some s :=
            createRealNode_velem_hKey t0 a0 k0 ctr s
              (Hnd _ (List.mem_cons_self _ _)) hkr
          have hlt : ctr < (createRealNode (.velem t0 a0 k0) ctr).2 :=
            createRealNode_velem_ctr_lt t0 a0 k0 ctr
          have hinv1 : ∀ c ∈ (placeChild ulId cs
                (createRealNode (.velem t0 a0 k0) ctr).1 idx).1,
              c.isElem = true → nid c < (createRealNode (.velem t0 a0 k0) ctr).2 := by
            intro c hc he
            rcases placeChild_mem_src ulId cs _ idx c hc with rfl | hcs
            · rw [hnid]; exact hlt
            · exact lt_trans (H1 c hcs he) hlt
          have hinv2 : ∀ c ∈ (placeChild ulId cs
                (createRealNode (.velem t0 a0 k0) ctr).1 idx).1,
              c.isElem = true → hKey c = none →
              ∀ k eid, objGet ebid k = some eid → nid c ≠ eid := by
            intro c hc he hk
            rcases placeChild_mem_src ulId cs _ idx c hc with rfl | hcs
            · rw [hkeym] at hk
              exact absurd hk (by simp)
            · exact H2 c hcs he hk
          have hmain := ih (idx + 1) _ _ Hnd' Hstr' hinv1 hinv2
          constructor
          · intro c hc hk
            refine hmain.1 c ?_ hk
            refine placeChild_mem_old ulId cs _ idx c hc ?_
            rintro ⟨he, hni⟩
            rw [hnid] at hni
            exact absurd hni (Nat.ne_of_lt (H1 c hc he))
          · intro c hc hk
            rcases placeChild_mem_src ulId cs _ idx c (hmain.2 c hc hk) with rfl | hcs
            · rw [hkeym] at hk
              exact absurd hk (by simp)
            · exact hcs
      | some pr =>
        obtain ⟨eid, cur⟩ := pr
        obtain ⟨hg, hfind⟩ := fetchExisting_str_spec ebid cs s eid cur hfe
        obtain ⟨hcurmem, hcurelem, hcurnid⟩ := findElemById_spec cs eid cur hfind
        have hcurkey : hKey cur ≠ none := by
          intro hkn
          exact H2 cur hcurmem hcurelem hkn s eid hg hcurnid
        rw [upsertLoop_cons_existing ulId ebid vli rest idx cs ctr _ eid cur hkr hfe]
        cases cur with
        | text s0 => simp [HNode.isElem] at hcurelem
        | elem i0 t1 c1 a1 ch1 vl1 kids1 =>
          obtain ⟨kids2, ctr2, ms2, hr, hle⟩ :=
            updateTodoItem_shape i0 t1 c1 a1 ch1 vl1 kids1 vli ctr
          have hi0 : i0 = eid := hcurnid
          have hcurlt : i0 < ctr := H1 _ hcurmem rfl
          dsimp only
          rw [hr]
          dsimp only
          set nn := HNode.elem i0 t1 (vClassName vli) a1 ch1 vl1 kids2 with hnn
          set cs1 := cs.map (fun c => if c.isElem && nid c == eid then nn else c) with hcs1
          set mov := (if elemIndexOf cs1 eid == some idx then (cs1, ([] : List Mut))
              else placeChild ulId cs1 nn idx) with hmov
          have hnkey : hKey nn ≠ none := fun h => hcurkey (by rw [hnn] at h; exact h)
          have hnidnn : nid nn = eid := by rw [hnn]; exact hi0
          have hm_src : ∀ c, c ∈ mov.1 → c = nn ∨ c ∈ cs1 := by
            intro c hc
            rw [hmov] at hc
            split at hc
            · exact Or.inr hc
            · exact placeChild_mem_src ulId cs1 nn idx c hc
          have hm_old : ∀ c ∈ cs1, ¬(c.isElem = true ∧ nid c = eid) → c ∈ mov.1 := by
            intro c hc hne
            rw [hmov]
            split
            · exact hc
            · refine placeChild_mem_old ulId cs1 nn idx c hc ?_
              rintro ⟨hce, hni⟩
              rw [hnidnn] at hni
              exact hne ⟨hce, hni⟩
          have hinv1 : ∀ c ∈ mov.1, c.isElem = true → nid c < ctr2 := by
            intro c hc he
            rcases hm_src c hc with rfl | hc1
            · rw [hnidnn]
              exact lt_of_lt_of_le (hi0 ▸ hcurlt) hle
            · rw [hcs1] at hc1
              rcases map_subst_mem_src cs eid nn c hc1 with rfl | hcs
              · rw [hnidnn]
                exact lt_of_lt_of_le (hi0 ▸ hcurlt) hle
              · exact lt_of_lt_of_le (H1 c hcs he) hle
          have hinv2 : ∀ c ∈ mov.1, c.isElem = true → hKey c = none →
              ∀ k eid2, objGet ebid k = some eid2 → nid c ≠ eid2 := by
            intro c hc he hk
            rcases hm_src c hc with rfl | hc1
            · exact absurd hk hnkey
            · rw [hcs1] at hc1
              rcases map_subst_mem_src cs eid nn c hc1 with rfl | hcs
              · exact absurd hk hnkey
              · exact H2 c hcs he hk
          have hmain := ih (idx + 1) mov.1 ctr2 Hnd' Hstr' hinv1 hinv2
          constructor
          · intro c hc hk
            have hne : ¬(c.isElem = true ∧ nid c = eid) := by
              rintro ⟨he, hni⟩
              exact H2 c hc he hk s eid hg hni
            refine hmain.1 c (hm_old c ?_ hne) hk
            rw [hcs1]
            exact map_subst_mem_old cs eid nn c hc hne
          · intro c hc hk
            rcases hm_src c (hmain.2 c hc hk) with rfl | hc1
            · exact absurd hk hnkey
            · rw [hcs1] at hc1
              rcases map_subst_mem_src cs eid nn c hc1 with rfl | hcs
              · exact absurd hk hnkey
              · exact hcs

/-! ## The raw JS decision logic (with its throwing behaviour)

The compatibility loop of `updateDom` reads `vnode.tag.toLowerCase()` without
a guard; a truthy forest entry with no `tag` (a malformed object, or a bare
non-empty string) makes that read throw a `TypeError`.  `JEntry` models the
raw JS values a forest entry can be, and the decision is computed in
`Except`, where `error` is the uncaught exception. -/

/-- A raw JS forest entry: a falsy value, a bare string, or an object with an
optional `tag` and optional `className` attribute. -/
inductive JEntry where
  | jabsent
  | jstrE (s : String)
  | jelemE (tag : Option String) (className : Option AttrV)
  deriving DecidableEq

def jTruthy : JEntry → Bool
  | .jabsent => false
  | .jstrE s => !(s == "")
  | .jelemE _ _ => true

/-- The never-throwing `existing.className !== (vnode.attrs?.className || '')`
comparison (true means equal). -/
def jClassNameOk (hostCls : String) : JEntry → Bool
  | .jabsent => hostCls == ""
  | .jstrE _ => hostCls == ""
  | .jelemE _ cn =>
      match cn with
      | some (.str s) => hostCls == s
      | some av => if attrTruthy av then false else hostCls == ""
      | none => hostCls == ""

inductive RDecision where
  | patchInPlace
  | fullRebuild
  deriving DecidableEq

/-- The `canUpdateInPlace` loop over raw entries: a falsy entry breaks with
`false`; a truthy entry without a `tag` string throws. -/
def canUpdateInPlaceJS : List HNode → List JEntry → Except Unit Bool
  | _, [] => .ok true
  | [], _ :: _ => .ok false
  | e :: es, j :: js =>
      if !(jTruthy j) then .ok false
      else
        match j with
        | .jabsent => .ok false
        | .jstrE _ => .error ()
        | .jelemE none _ => .error ()
        | .jelemE (some t) cn =>
            if !(lowStr (tagNameOf e) == lowStr t) || !(jClassNameOk (classNameOf e) (.jelemE (some t) cn)) then
              .ok false
            else canUpdateInPlaceJS es js

/-- The decision logic of `updateDom` on raw entries: differing lengths go
straight to the full rebuild; equal lengths run the compatibility loop, whose
`TypeError` propagates. -/
def updateDomDecision (ex : List HNode) (forest : List JEntry) : Except Unit RDecision :=
  if ex.length == forest.length then
    match canUpdateInPlaceJS ex forest with
    | .ok true => .ok .patchInPlace
    | .ok false => .ok .fullRebuild
    | .error e => .error e
  else .ok .fullRebuild

/-! ## C6: failure semantics of the decision step -/

/-- C6 counterexample: with one existing element child and a one-entry forest
whose entry is an object with no `tag`, the counts match and the decision
logic itself throws a `TypeError` (reading `.toLowerCase` of `undefined`)
instead of completing and degrading to a full rebuild. -/
theorem updateDom_decision_throws_on_missing_tag :
    updateDomDecision [.elem 5 "DIV" "" [] false "" []] [.jelemE none none] = .error () := rfl

/-- C6 as amended: the decision step never raises when the child counts
differ (the malformed entry is passed on to the rebuild path), and never
raises when every truthy forest entry carries a tag; but when the counts
match, a truthy entry with no tag string reached by the loop makes the
compatibility test itself throw. -/
theorem updateDom_decision_no_throw (ex : List HNode) (forest : List JEntry) :
    (ex.length ≠ forest.length → updateDomDecision ex forest = .ok .fullRebuild) ∧
    ((∀ j ∈ forest, jTruthy j = true → ∃ t cn, j = .jelemE (some t) cn) →
      ∃ d, updateDomDecision ex forest = .ok d) := by
  constructor
  · intro hne
    unfold updateDomDecision
    rw [if_neg (by simpa using hne)]
  · intro hok
    unfold updateDomDecision
    have key : ∀ (fs : List JEntry) (exl : List HNode),
        (∀ j ∈ fs, jTruthy j = true → ∃ t cn, j = .jelemE (some t) cn) →
        ∀ b, canUpdateInPlaceJS exl fs ≠ .error b := by
      intro fs
      induction fs with
      | nil => intro exl _ b; cases exl <;> simp [canUpdateInPlaceJS]
      | cons j js ih =>
        intro exl hok2 b
        cases exl with
        | nil => simp [canUpdateInPlaceJS]
        | cons e es =>
          by_cases ht : jTruthy j = true
          · obtain ⟨t, cn, rfl⟩ := hok2 j (List.mem_cons_self _ _) ht
            simp only [canUpdateInPlaceJS, jTruthy, Bool.not_true]
            by_cases hcond : (!(lowStr (tagNameOf e) == lowStr t) ||
                !(jClassNameOk (classNameOf e) (JEntry.jelemE (some t) cn))) = true
            · rw [if_pos hcond]; simp
            · rw [if_neg hcond]
              exact ih es (fun j' hj' => hok2 j' (List.mem_cons_of_mem _ hj')) b
          · simp [canUpdateInPlaceJS, ht]
    by_cases hl : ex.length == forest.length
    · rw [if_pos hl]
      cases hc : canUpdateInPlaceJS ex forest with
      | ok b => cases b <;> exact ⟨_, rfl⟩
      | error b => exact absurd hc (key forest ex hok b)
    · rw [if_neg hl]
      exact ⟨_, rfl⟩

/-! ## C1: the patch-vs-rebuild decision of `updateDom` -/

/-- Index `idx` fails the structural-compatibility test: the entry is absent,
or both sides are present and either the tags differ case-insensitively or
the class strings differ. -/
def pairFails (ex : List HNode) (forest : List (Option VDom)) (idx : Nat) : Prop :=
  forest.get? idx = some none ∨
    ∃ v e, forest.get? idx = some (some v) ∧ ex.get? idx = some e ∧ compatPair e v = false

theorem canUpdateInPlace_iff (ex : List HNode) (forest : List (Option VDom))
    (hl : ex.length = forest.length) :
    canUpdateInPlace ex forest = true ↔ ∀ idx < forest.length, ¬ pairFails ex forest idx := by
  induction forest generalizing ex with
  | nil =>
    cases ex with
    | nil => simp [canUpdateInPlace]
    | cons e es => simp at hl
  | cons ov ovs ih =>
    cases ex with
    | nil => simp at hl
    | cons e es =>
      simp only [List.length_cons, Nat.succ.injEq] at hl
      cases ov with
      | none =>
        simp only [canUpdateInPlace]
        constructor
        · intro h; cases h
        · intro h
          exact absurd (Or.inl rfl) (h 0 (Nat.succ_pos _))
      | some v =>
        simp only [canUpdateInPlace, Bool.and_eq_true]
        constructor
        · rintro ⟨hc, hrest⟩ idx hidx hf
          cases idx with
          | zero =>
            rcases hf with h | ⟨v', e', hv', he', hcf⟩
            · simp at h
            · simp only [List.get?_cons_zero, Option.some.injEq] at hv' he'
              rw [← hv'] at hcf
              rw [← he'] at hcf
              rw [hc] at hcf
              cases hcf
          | succ n =>
            exact (ih es hl).mp hrest n (Nat.lt_of_succ_lt_succ hidx) hf
        · intro h
          refine ⟨?_, (ih es hl).mpr fun idx hidx hf => h (idx + 1) (Nat.succ_lt_succ hidx) ?_⟩
          · by_cases hc : compatPair e v = true
            · exact hc
            · exact absurd (Or.inr ⟨v, e, rfl, rfl, by simpa using hc⟩)
                (h 0 (Nat.succ_pos _))
          · rcases hf with hf | ⟨v', e', hv', he', hcf⟩
            · exact Or.inl (by simpa using hf)
            · exact Or.inr ⟨v', e', by simpa using hv', by simpa using he', hcf⟩

/-- `updateElementInPlace` mutates the element in place: identity, tag and
node kind are untouched on every branch. -/
theorem updateElementInPlace_preserves (el : HNode) (v : VDom) (ctr : Nat) :
    nid (updateElementInPlace el v ctr).1 = nid el ∧
      (updateElementInPlace el v ctr).1.isElem = el.isElem ∧
      tagNameOf (updateElementInPlace el v ctr).1 = tagNameOf el := by
  cases el with
  | text s =>
    cases v with
    | vtext s' => simp [updateElementInPlace_text_vtext]
    | velem t vattrs vkids => simp [updateElementInPlace_text_velem]
  | elem i tagN cls a ch vl kids =>
    have hfields : ∀ (w : VDom) (c2 : Nat),
        nid (updateTodoList (.elem i tagN cls a ch vl kids) w c2).1 = i ∧
        (updateTodoList (.elem i tagN cls a ch vl kids) w c2).1.isElem = true ∧
        tagNameOf (updateTodoList (.elem i tagN cls a ch vl kids) w c2).1 = tagN := by
      intro w c2
      simp [updateTodoList, nid, HNode.isElem, tagNameOf]
    cases v with
    | vtext s =>
      rw [updateElementInPlace_elem_vtext]
      split
      · simpa [nid, HNode.isElem, tagNameOf] using hfields (.vtext s) ctr
      · simp [nid, HNode.isElem, tagNameOf]
    | velem t vattrs vkids =>
      match vkids with
      | [] =>
        rw [updateElementInPlace_elem_nil]
        split
        · simpa [nid, HNode.isElem, tagNameOf] using hfields (.velem t vattrs []) ctr
        · simp [nid, HNode.isElem, tagNameOf]
      | [.vtext s] =>
        rw [updateElementInPlace_elem_text_child]
        split
        · simpa [nid, HNode.isElem, tagNameOf] using hfields (.velem t vattrs [.vtext s]) ctr
        · split <;> simp [nid, HNode.isElem, tagNameOf]
      | [.velem t0 a0 k0] =>
        rw [updateElementInPlace_elem_one_elem_child]
        split
        · simpa [nid, HNode.isElem, tagNameOf] using
            hfields (.velem t vattrs [.velem t0 a0 k0]) ctr
        · split <;> simp [nid, HNode.isElem, tagNameOf]
      | v0 :: v1 :: vrest =>
        rw [updateElementInPlace_elem_many_children]
        split
        · simpa [nid, HNode.isElem, tagNameOf] using
            hfields (.velem t vattrs (v0 :: v1 :: vrest)) ctr
        · split <;> simp [nid, HNode.isElem, tagNameOf]

theorem udPatchPairs_map_nid (ex : List HNode) (forest : List (Option VDom)) (ctr : Nat)
    (hl : ex.length = forest.length) :
    (udPatchPairs ex forest ctr).1.map nid = ex.map nid ∧
      ((∀ c ∈ ex, c.isElem = true) → ∀ c ∈ (udPatchPairs ex forest ctr).1, c.isElem = true) := by
  induction forest generalizing ex ctr with
  | nil =>
    cases ex with
    | nil => simp [udPatchPairs]
    | cons e es => simp at hl
  | cons ov ovs ih =>
    cases ex with
    | nil => simp at hl
    | cons e es =>
      simp only [List.length_cons, Nat.succ.injEq] at hl
      cases ov with
      | none =>
        simp only [udPatchPairs, List.map_cons]
        have := ih es ctr hl
        constructor
        · rw [this.1]
        · intro hall c hc
          rcases List.mem_cons.mp hc with rfl | hc
          · exact hall c (List.mem_cons_self _ _)
          · exact this.2 (fun c' hc' => hall c' (List.mem_cons_of_mem _ hc')) c hc
      | some v =>
        simp only [udPatchPairs, List.map_cons]
        have hp := updateElementInPlace_preserves e v ctr
        have := ih es (updateElementInPlace e v ctr).2.1 hl
        constructor
        · rw [this.1, hp.1]
        · intro hall c hc
          rcases List.mem_cons.mp hc with rfl | hc
          · rw [hp.2.1]
            exact hall e (List.mem_cons_self _ _)
          · exact this.2 (fun c' hc' => hall c' (List.mem_cons_of_mem _ hc')) c hc

theorem replaceElems_map_nid (cs repl : List HNode)
    (h : repl.map nid = (elemChildren cs).map nid) :
    (replaceElems cs repl).map nid = cs.map nid := by
  induction cs generalizing repl with
  | nil =>
    have : repl = [] := by
      simpa [elemChildren, List.map_eq_nil_iff] using h
    simp [this, replaceElems]
  | cons c cs ih =>
    by_cases hc : c.isElem = true
    · rw [elemChildren, List.filter_cons_of_pos hc] at h
      cases repl with
      | nil => simp at h
      | cons r rrest =>
        simp only [List.map_cons, List.cons.injEq] at h
        simp only [replaceElems, hc, if_true, List.map_cons, h.1, List.cons.injEq, true_and]
        exact ih rrest (by rw [h.2]; rfl)
    · rw [elemChildren, List.filter_cons_of_neg (by simpa using hc)] at h
      have hc' : c.isElem = false := by simpa using hc
      simp only [replaceElems, hc', Bool.false_eq_true, if_false, List.map_cons,
        List.cons.injEq, true_and]
      exact ih repl h

theorem replaceElems_length (cs repl : List HNode) :
    (replaceElems cs repl).length = cs.length := by
  induction cs generalizing repl with
  | nil => simp [replaceElems]
  | cons c cs ih =>
    by_cases hc : c.isElem = true
    · cases repl with
      | nil => simp [replaceElems, hc, ih]
      | cons r rrest => simp [replaceElems, hc, ih]
    · simp [replaceElems, hc, ih]

theorem rebuildChildren_children (cid : Nat) (forest : List (Option VDom)) (ctr : Nat) :
    (rebuildChildren cid forest ctr).1 =
      (createRealNodeList (forest.filterMap (fun x => x)) ctr).1 ∧
    (rebuildChildren cid forest ctr).2.1 =
      (createRealNodeList (forest.filterMap (fun x => x)) ctr).2 := by
  induction forest generalizing ctr with
  | nil => simp [rebuildChildren, createRealNodeList_nil]
  | cons ov rest ih =>
    cases ov with
    | none => simpa [rebuildChildren] using ih ctr
    | some v =>
      have hfm : List.filterMap (fun x => x) (some v :: rest) =
          v :: List.filterMap (fun x => x) rest := by
        simp [List.filterMap_cons]
      simp only [rebuildChildren, hfm, createRealNodeList_cons]
      exact ⟨by rw [(ih _).1], by rw [(ih _).2]⟩

/-- A present forest entry is a proper element VNode (bare strings in a forest
make the JS compatibility test throw; see the `JEntry` model). -/
def optIsElem : Option VDom → Bool
  | none => true
  | some v => v.isVElem

/-- C1: `updateDom` takes the full-rebuild path exactly when the element-child
count differs from the forest length or some index fails the
structural-compatibility test (entry present, tags equal case-insensitively,
class strings equal); when every index passes, each pair is patched in place —
the container keeps exactly its existing children, by identity and in order —
and when the test fails the container's children are replaced by fresh mounts
of the forest entries in order, after a `clearChildren` (`innerHTML = ''`). -/
theorem updateDom_rebuild_iff (i : Nat) (tagN cls : String) (a : List (String × String))
    (ch : Bool) (vl : String) (kids : List HNode) (forest : List (Option VDom)) (ctr : Nat)
    (hwf : ∀ ov ∈ forest, optIsElem ov = true) :
    (¬ ((elemChildren kids).length = forest.length ∧
          canUpdateInPlace (elemChildren kids) forest = true) ↔
        (elemChildren kids).length ≠ forest.length ∨
          ∃ idx, idx < forest.length ∧ pairFails (elemChildren kids) forest idx) ∧
    ((elemChildren kids).length = forest.length ∧
        canUpdateInPlace (elemChildren kids) forest = true →
      (childrenOf (updateDom (.elem i tagN cls a ch vl kids) forest ctr).1).map nid
          = kids.map nid ∧
      (childrenOf (updateDom (.elem i tagN cls a ch vl kids) forest ctr).1).length
          = kids.length) ∧
    (¬ ((elemChildren kids).length = forest.length ∧
        canUpdateInPlace (elemChildren kids) forest = true) →
      childrenOf (updateDom (.elem i tagN cls a ch vl kids) forest ctr).1 =
        (createRealNodeList (forest.filterMap (fun x => x)) ctr).1 ∧
      ∃ rest, (updateDom (.elem i tagN cls a ch vl kids) forest ctr).2.2 =
        Mut.clearChildren i :: rest) := by
  refine ⟨?_, ?_, ?_⟩
  · by_cases hA : (elemChildren kids).length = forest.length
    · have hiff := canUpdateInPlace_iff (elemChildren kids) forest hA
      constructor
      · intro h
        right
        by_contra hne
        push_neg at hne
        exact h ⟨hA, hiff.mpr fun idx hidx => hne idx hidx⟩
      · rintro (hne | ⟨idx, hidx, hf⟩) ⟨hA', hB⟩
        · exact hne hA'
        · exact (hiff.mp hB) idx hidx hf
    · exact ⟨fun _ => Or.inl hA, fun _ h => hA h.1⟩
  · rintro ⟨hA, hB⟩
    have hcond : ((elemChildren kids).length == forest.length &&
        canUpdateInPlace (elemChildren kids) forest) = true := by
      simp [hA, hB]
    simp only [updateDom, hcond, if_true, childrenOf]
    have hmap := (udPatchPairs_map_nid (elemChildren kids) forest ctr hA).1
    have h1 := replaceElems_map_nid kids (udPatchPairs (elemChildren kids) forest ctr).1 hmap
    refine ⟨h1, ?_⟩
    rw [replaceElems_length]
  · intro h
    have hcond : ((elemChildren kids).length == forest.length &&
        canUpdateInPlace (elemChildren kids) forest) = false := by
      by_cases h1 : (elemChildren kids).length = forest.length
      · cases hca : canUpdateInPlace (elemChildren kids) forest with
        | true => exact absurd ⟨h1, hca⟩ h
        | false => simp [h1, hca]
      · have : ((elemChildren kids).length == forest.length) = false :=
          beq_eq_false_iff_ne.mpr h1
        simp [this]
    simp only [updateDom, hcond, Bool.false_eq_true, if_false, childrenOf]
    exact ⟨(rebuildChildren_children i forest ctr).1, _, rfl⟩

/-! ## C8: the patch-path attribute policy -/

/-- The only writes the patch attribute loop can emit. -/
def attrLoopWrite (id : Nat) (m : Mut) : Prop :=
  (∃ x, m = Mut.setClassName id x) ∨ (∃ s, m = Mut.setAttr id "style" s)

theorem patchAttrStep_attrs (id : Nat) (acc : String × List (String × String) × List Mut)
    (e : String × AttrV) :
    (patchAttrStep id acc e).2.1 = acc.2.1 ∨
      (e.1 = "style" ∧ ∃ s, e.2 = .str s ∧
        (patchAttrStep id acc e).2.1 = setAssoc acc.2.1 "style" s) := by
  obtain ⟨k, av⟩ := e
  unfold patchAttrStep
  by_cases h1 : startsWithOn k = true
  · rw [if_pos h1]; exact Or.inl rfl
  · rw [if_neg h1]
    by_cases h2 : (k == "className") = true
    · rw [if_pos h2]
      refine Or.inl ?_
      cases av <;> dsimp only <;> first
        | rfl
        | (rename_i s; by_cases h4 : (acc.1 == s) = true
           · rw [if_pos h4]
           · rw [if_neg h4])
    · rw [if_neg h2]
      by_cases h3 : (k == "style") = true
      · rw [if_pos h3]
        cases av with
        | str s => exact Or.inr ⟨by simpa using h3, s, rfl, rfl⟩
        | num n => exact Or.inl rfl
        | boolV b => exact Or.inl rfl
        | fn f => exact Or.inl rfl
        | styleObj es => exact Or.inl rfl
      · rw [if_neg h3]; exact Or.inl rfl

theorem patchAttrStep_cls (id : Nat) (acc : String × List (String × String) × List Mut)
    (e : String × AttrV) :
    (patchAttrStep id acc e).1 = acc.1 ∨
      (e.1 = "className" ∧ (patchAttrStep id acc e).1 = attrToString e.2) := by
  obtain ⟨k, av⟩ := e
  unfold patchAttrStep
  by_cases h1 : startsWithOn k = true
  · rw [if_pos h1]; exact Or.inl rfl
  · rw [if_neg h1]
    by_cases h2 : (k == "className") = true
    · rw [if_pos h2]
      cases av with
      | str s =>
        dsimp only
        by_cases h4 : (acc.1 == s) = true
        · rw [if_pos h4]; exact Or.inl rfl
        · rw [if_neg h4]; exact Or.inr ⟨by simpa using h2, rfl⟩
      | num n => exact Or.inr ⟨by simpa using h2, rfl⟩
      | boolV b => exact Or.inr ⟨by simpa using h2, rfl⟩
      | fn f => exact Or.inr ⟨by simpa using h2, rfl⟩
      | styleObj es => exact Or.inr ⟨by simpa using h2, rfl⟩
    · rw [if_neg h2]
      by_cases h3 : (k == "style") = true
      · rw [if_pos h3]
        refine Or.inl ?_
        cases av <;> rfl
      · rw [if_neg h3]; exact Or.inl rfl

theorem patchAttrStep_muts (id : Nat) (acc : String × List (String × String) × List Mut)
    (e : String × AttrV) :
    ∃ d, (patchAttrStep id acc e).2.2 = acc.2.2 ++ d ∧
      (∀ m ∈ d, attrLoopWrite id m) ∧
      (∀ x, Mut.setClassName id x ∈ d → e.1 = "className") := by
  obtain ⟨k, av⟩ := e
  unfold patchAttrStep
  by_cases h1 : startsWithOn k = true
  · rw [if_pos h1]; exact ⟨[], by simp⟩
  · rw [if_neg h1]
    by_cases h2 : (k == "className") = true
    · rw [if_pos h2]
      have hwrite : ∃ d,
          (attrToString av, acc.2.1, acc.2.2 ++ [Mut.setClassName id (attrToString av)]).2.2
            = acc.2.2 ++ d ∧ (∀ m ∈ d, attrLoopWrite id m) ∧
          (∀ x, Mut.setClassName id x ∈ d → (k, av).1 = "className") := by
        refine ⟨[Mut.setClassName id (attrToString av)], rfl, ?_, ?_⟩
        · intro m hm
          rw [List.mem_singleton] at hm
          exact Or.inl ⟨_, hm⟩
        · intro x _
          simpa using h2
      cases av with
      | str s =>
        dsimp only
        by_cases h4 : (acc.1 == s) = true
        · rw [if_pos h4]; exact ⟨[], by simp⟩
        · rw [if_neg h4]; exact hwrite
      | num n => exact hwrite
      | boolV b => exact hwrite
      | fn f => exact hwrite
      | styleObj es => exact hwrite
    · rw [if_neg h2]
      by_cases h3 : (k == "style") = true
      · rw [if_pos h3]
        cases av with
        | str s =>
          refine ⟨[Mut.setAttr id "style" s], rfl, ?_, ?_⟩
          · intro m hm
            rw [List.mem_singleton] at hm
            exact Or.inr ⟨s, hm⟩
          · intro x hx
            rw [List.mem_singleton] at hx
            cases hx
        | num n => exact ⟨[], by simp⟩
        | boolV b => exact ⟨[], by simp⟩
        | fn f => exact ⟨[], by simp⟩
        | styleObj es => exact ⟨[], by simp⟩
      · rw [if_neg h3]; exact ⟨[], by simp⟩

theorem patchAttrs_fold_muts_mem (id : Nat) (l : List (String × AttrV)) :
    ∀ (cls : String) (a : List (String × String)) (ms : List Mut) (m : Mut), m ∈ ms →
      m ∈ (l.foldl (patchAttrStep id) (cls, a, ms)).2.2 := by
  induction l with
  | nil => intro cls a ms m hm; simpa using hm
  | cons e rest ih =>
    intro cls a ms m hm
    rw [List.foldl_cons]
    obtain ⟨d, hd, _, _⟩ := patchAttrStep_muts id (cls, a, ms) e
    have h2 : m ∈ (patchAttrStep id (cls, a, ms) e).2.2 := by
      rw [hd]; exact List.mem_append_left _ hm
    exact ih (patchAttrStep id (cls, a, ms) e).1
      (patchAttrStep id (cls, a, ms) e).2.1 (patchAttrStep id (cls, a, ms) e).2.2 m h2

theorem patchAttrs_fold_muts_shape (id : Nat) (l : List (String × AttrV)) :
    ∀ (cls : String) (a : List (String × String)) (ms : List Mut),
      (∀ m ∈ ms, attrLoopWrite id m) →
      ∀ m ∈ (l.foldl (patchAttrStep id) (cls, a, ms)).2.2, attrLoopWrite id m := by
  induction l with
  | nil => intro cls a ms hms m hm; exact hms m (by simpa using hm)
  | cons e rest ih =>
    intro cls a ms hms m hm
    rw [List.foldl_cons] at hm
    obtain ⟨d, hd, hshape, _⟩ := patchAttrStep_muts id (cls, a, ms) e
    refine ih (patchAttrStep id (cls, a, ms) e).1 (patchAttrStep id (cls, a, ms) e).2.1
      (patchAttrStep id (cls, a, ms) e).2.2 ?_ m hm
    intro m' hm'
    rw [hd] at hm'
    rcases List.mem_append.mp hm' with h | h
    · exact hms m' h
    · exact hshape m' h

theorem patchAttrs_fold_attrs_absent (id : Nat) (l : List (String × AttrV)) :
    ∀ (cls : String) (a : List (String × String)) (ms : List Mut) (k' : String),
      k' ∉ l.map Prod.fst →
      objGet (l.foldl (patchAttrStep id) (cls, a, ms)).2.1 k' = objGet a k' := by
  induction l with
  | nil => intro cls a ms k' _; rfl
  | cons e rest ih =>
    intro cls a ms k' hk
    simp only [List.map_cons, List.mem_cons, not_or] at hk
    rw [List.foldl_cons]
    have step := ih (patchAttrStep id (cls, a, ms) e).1 (patchAttrStep id (cls, a, ms) e).2.1
      (patchAttrStep id (cls, a, ms) e).2.2 k' hk.2
    have hmid : objGet (patchAttrStep id (cls, a, ms) e).2.1 k' = objGet a k' := by
      rcases patchAttrStep_attrs id (cls, a, ms) e with h | ⟨hsty, s, _, hset⟩
      · rw [h]
      · rw [hset]
        exact objGet_setAssoc_other a "style" k' s (fun hcon => hk.1 (hcon ▸ hsty).symm)
    exact step.trans hmid

theorem patchAttrs_fold_attrs_isSome (id : Nat) (l : List (String × AttrV)) :
    ∀ (cls : String) (a : List (String × String)) (ms : List Mut) (k' : String),
      (objGet a k').isSome →
      (objGet (l.foldl (patchAttrStep id) (cls, a, ms)).2.1 k').isSome := by
  induction l with
  | nil => intro cls a ms k' h; simpa using h
  | cons e rest ih =>
    intro cls a ms k' h
    rw [List.foldl_cons]
    have hmid : (objGet (patchAttrStep id (cls, a, ms) e).2.1 k').isSome := by
      rcases patchAttrStep_attrs id (cls, a, ms) e with heq | ⟨_, s, _, hset⟩
      · rw [heq]; exact h
      · rw [hset]
        by_cases hk : k' = "style"
        · subst hk; rw [objGet_setAssoc_self]; rfl
        · rw [objGet_setAssoc_other a "style" k' s (fun hcon => hk hcon.symm)]
          exact h
    exact ih (patchAttrStep id (cls, a, ms) e).1 (patchAttrStep id (cls, a, ms) e).2.1
      (patchAttrStep id (cls, a, ms) e).2.2 k' hmid

theorem patchAttrs_fold_cls_absent (id : Nat) (l : List (String × AttrV)) :
    ∀ (cls : String) (a : List (String × String)) (ms : List Mut),
      "className" ∉ l.map Prod.fst →
      (l.foldl (patchAttrStep id) (cls, a, ms)).1 = cls := by
  induction l with
  | nil => intro cls a ms _; rfl
  | cons e rest ih =>
    intro cls a ms hk
    simp only [List.map_cons, List.mem_cons, not_or] at hk
    rw [List.foldl_cons]
    have hmid : (patchAttrStep id (cls, a, ms) e).1 = cls := by
      rcases patchAttrStep_cls id (cls, a, ms) e with h | ⟨hcn, _⟩
      · exact h
      · exact absurd hcn.symm hk.1
    exact (ih (patchAttrStep id (cls, a, ms) e).1 (patchAttrStep id (cls, a, ms) e).2.1
      (patchAttrStep id (cls, a, ms) e).2.2 hk.2).trans hmid

theorem patchAttrs_fold_no_cls_event (id : Nat) (l : List (String × AttrV)) :
    ∀ (cls : String) (a : List (String × String)) (ms : List Mut),
      "className" ∉ l.map Prod.fst →
      (∀ x, Mut.setClassName id x ∉ ms) →
      ∀ x, Mut.setClassName id x ∉ (l.foldl (patchAttrStep id) (cls, a, ms)).2.2 := by
  induction l with
  | nil => intro cls a ms _ hms x; simpa using hms x
  | cons e rest ih =>
    intro cls a ms hk hms x
    simp only [List.map_cons, List.mem_cons, not_or] at hk
    rw [List.foldl_cons]
    obtain ⟨d, hd, _, hdc⟩ := patchAttrStep_muts id (cls, a, ms) e
    have hmid : ∀ y, Mut.setClassName id y ∉ (patchAttrStep id (cls, a, ms) e).2.2 := by
      intro y hy
      rw [hd] at hy
      rcases List.mem_append.mp hy with h | h
      · exact hms y h
      · exact hk.1 (hdc y h).symm
    exact ih (patchAttrStep id (cls, a, ms) e).1 (patchAttrStep id (cls, a, ms) e).2.1
      (patchAttrStep id (cls, a, ms) e).2.2 hk.2 hmid x

theorem patchAttrs_fold_cls_eq (id : Nat) (l : List (String × AttrV)) :
    ∀ (cls : String) (a : List (String × String)) (ms : List Mut),
      (l.map Prod.fst).Nodup → objGet l "className" = some (.str cls) →
      (l.foldl (patchAttrStep id) (cls, a, ms)).1 = cls ∧
      ((∀ x, Mut.setClassName id x ∉ ms) →
        ∀ x, Mut.setClassName id x ∉ (l.foldl (patchAttrStep id) (cls, a, ms)).2.2) := by
  induction l with
  | nil => intro cls a ms _ hg; simp [objGet] at hg
  | cons e rest ih =>
    intro cls a ms hnd hg
    simp only [List.map_cons, List.nodup_cons] at hnd
    rw [List.foldl_cons]
    by_cases he : e.1 = "className"
    · have hav : e.2 = .str cls := by
        rw [objGet, if_pos he] at hg
        exact Option.some.inj hg
      have hstep : patchAttrStep id (cls, a, ms) e = (cls, a, ms) := by
        unfold patchAttrStep
        rw [if_neg (by rw [he]; decide), if_pos (by rw [he]; rfl), hav]
        simp
      rw [hstep]
      have hrest : "className" ∉ rest.map Prod.fst := by
        rw [← he]; exact hnd.1
      exact ⟨patchAttrs_fold_cls_absent id rest cls a ms hrest,
        fun hms => patchAttrs_fold_no_cls_event id rest cls a ms hrest hms⟩
    · have hg' : objGet rest "className" = some (.str cls) := by
        rw [objGet, if_neg he] at hg
        exact hg
      obtain ⟨d, hd, _, hdc⟩ := patchAttrStep_muts id (cls, a, ms) e
      have hcstep := patchAttrStep_cls id (cls, a, ms) e
      rcases hX : patchAttrStep id (cls, a, ms) e with ⟨c1, a1, m1⟩
      rw [hX] at hcstep hd
      simp only at hcstep hd
      have hc1 : c1 = cls := by
        rcases hcstep with h | ⟨hcn, _⟩
        · exact h
        · exact absurd hcn he
      rw [hc1]
      have := ih cls a1 m1 hnd.2 hg'
      refine ⟨this.1, fun hms x => this.2 (fun y hy => ?_) x⟩
      rw [hd] at hy
      rcases List.mem_append.mp hy with h | h
      · exact hms y h
      · exact he (hdc y h)

theorem patchAttrs_fold_cls_ne (id : Nat) (l : List (String × AttrV)) :
    ∀ (cls : String) (a : List (String × String)) (ms : List Mut) (s : String),
      (l.map Prod.fst).Nodup → objGet l "className" = some (.str s) → s ≠ cls →
      (l.foldl (patchAttrStep id) (cls, a, ms)).1 = s ∧
        Mut.setClassName id s ∈ (l.foldl (patchAttrStep id) (cls, a, ms)).2.2 := by
  induction l with
  | nil => intro cls a ms s _ hg; simp [objGet] at hg
  | cons e rest ih =>
    intro cls a ms s hnd hg hne
    simp only [List.map_cons, List.nodup_cons] at hnd
    rw [List.foldl_cons]
    by_cases he : e.1 = "className"
    · have hav : e.2 = .str s := by
        rw [objGet, if_pos he] at hg
        exact Option.some.inj hg
      have hstep : patchAttrStep id (cls, a, ms) e =
          (s, a, ms ++ [Mut.setClassName id s]) := by
        unfold patchAttrStep
        rw [if_neg (by rw [he]; decide), if_pos (by rw [he]; rfl), hav]
        have hbe : ((cls : String) == s) = false :=
          beq_eq_false_iff_ne.mpr (fun hcon => hne hcon.symm)
        simp [hbe, attrToString]
      rw [hstep]
      have hrest : "className" ∉ rest.map Prod.fst := by
        rw [← he]; exact hnd.1
      refine ⟨patchAttrs_fold_cls_absent id rest s a _ hrest, ?_⟩
      exact patchAttrs_fold_muts_mem id rest s a _ _ (List.mem_append_right _ (by simp))
    · have hg' : objGet rest "className" = some (.str s) := by
        rw [objGet, if_neg he] at hg
        exact hg
      have hcstep := patchAttrStep_cls id (cls, a, ms) e
      rcases hX : patchAttrStep id (cls, a, ms) e with ⟨c1, a1, m1⟩
      rw [hX] at hcstep
      simp only at hcstep
      have hc1 : c1 = cls := by
        rcases hcstep with h | ⟨hcn, _⟩
        · exact h
        · exact absurd hcn he
      rw [hc1]
      exact ih cls a1 m1 s hnd.2 hg' hne

theorem patchAttrs_fold_style (id : Nat) (l : List (String × AttrV)) :
    ∀ (cls : String) (a : List (String × String)) (ms : List Mut) (s : String),
      (l.map Prod.fst).Nodup → objGet l "style" = some (.str s) →
      objGet (l.foldl (patchAttrStep id) (cls, a, ms)).2.1 "style" = some s ∧
        Mut.setAttr id "style" s ∈ (l.foldl (patchAttrStep id) (cls, a, ms)).2.2 := by
  induction l with
  | nil => intro cls a ms s _ hg; simp [objGet] at hg
  | cons e rest ih =>
    intro cls a ms s hnd hg
    simp only [List.map_cons, List.nodup_cons] at hnd
    rw [List.foldl_cons]
    by_cases he : e.1 = "style"
    · have hav : e.2 = .str s := by
        rw [objGet, if_pos he] at hg
        exact Option.some.inj hg
      have hstep : patchAttrStep id (cls, a, ms) e =
          (cls, setAssoc a "style" s, ms ++ [Mut.setAttr id "style" s]) := by
        unfold patchAttrStep
        rw [if_neg (by rw [he]; decide), if_neg (by rw [he]; decide),
          if_pos (by rw [he]; rfl), hav]
      rw [hstep]
      have hrest : "style" ∉ rest.map Prod.fst := by
        rw [← he]; exact hnd.1
      refine ⟨?_, ?_⟩
      · rw [patchAttrs_fold_attrs_absent id rest cls _ _ "style" hrest]
        exact objGet_setAssoc_self a "style" s
      · exact patchAttrs_fold_muts_mem id rest cls _ _ _ (List.mem_append_right _ (by simp))
    · have hg' : objGet rest "style" = some (.str s) := by
        rw [objGet, if_neg he] at hg
        exact hg
      rcases hX : patchAttrStep id (cls, a, ms) e with ⟨c1, a1, m1⟩
      exact ih c1 a1 m1 s hnd.2 hg'

/-- The patch attribute loop skips every key with the reserved `on` prefix
entirely: the iteration is the identity. -/
theorem patchAttrs_skips_event_keys (id : Nat) (cls : String) (a : List (String × String))
    (k : String) (av : AttrV) (rest : List (String × AttrV)) (hk : startsWithOn k = true) :
    patchAttrs id cls a ((k, av) :: rest) = patchAttrs id cls a rest := by
  unfold patchAttrs
  rw [List.foldl_cons]
  have : patchAttrStep id (cls, a, []) (k, av) = (cls, a, []) := by
    unfold patchAttrStep
    rw [if_pos hk]
  rw [this]

/-- C8: on the patch path (outside the keyed-list delegation) the element's
`className` property and attribute map evolve exactly as the attribute loop
dictates, and that loop: skips every `on`-prefixed key entirely; leaves every
host attribute whose key is absent from the new VNode's mapping unchanged and
removes no attribute; writes the class only when it differs from the current
value; writes a string-valued `style` through `setAttribute`; and performs no
other write. -/
theorem patch_in_place_attr_policy (i : Nat) (tagN cls : String)
    (a : List (String × String)) (ch : Bool) (vl : String) (kids : List HNode)
    (t : String) (vattrs : List (String × AttrV)) (vkids : List VDom) (ctr : Nat)
    (hTodo : isTodoListHost (.elem i tagN cls a ch vl kids) = false)
    (hnd : (vattrs.map Prod.fst).Nodup) :
    (classNameOf (updateElementInPlace (.elem i tagN cls a ch vl kids)
          (.velem t vattrs vkids) ctr).1 = (patchAttrs i cls a vattrs).1 ∧
      attrsOf (updateElementInPlace (.elem i tagN cls a ch vl kids)
          (.velem t vattrs vkids) ctr).1 = (patchAttrs i cls a vattrs).2.1) ∧
    (∀ (k : String) (av : AttrV) (rest : List (String × AttrV)) (cls' : String)
        (a' : List (String × String)), startsWithOn k = true →
      patchAttrs i cls' a' ((k, av) :: rest) = patchAttrs i cls' a' rest) ∧
    (∀ k, k ∉ vattrs.map Prod.fst →
      objGet (patchAttrs i cls a vattrs).2.1 k = objGet a k) ∧
    (∀ k, (objGet a k).isSome → (objGet (patchAttrs i cls a vattrs).2.1 k).isSome) ∧
    (objGet vattrs "className" = some (.str cls) →
      (patchAttrs i cls a vattrs).1 = cls ∧
      ∀ x, Mut.setClassName i x ∉ (patchAttrs i cls a vattrs).2.2) ∧
    (∀ s, objGet vattrs "className" = some (.str s) → s ≠ cls →
      (patchAttrs i cls a vattrs).1 = s ∧
        Mut.setClassName i s ∈ (patchAttrs i cls a vattrs).2.2) ∧
    (∀ s, objGet vattrs "style" = some (.str s) →
      objGet (patchAttrs i cls a vattrs).2.1 "style" = some s ∧
        Mut.setAttr i "style" s ∈ (patchAttrs i cls a vattrs).2.2) ∧
    (∀ m ∈ (patchAttrs i cls a vattrs).2.2, attrLoopWrite i m) := by
  refine ⟨?_, ?_, ?_, ?_, ?_, ?_, ?_, ?_⟩
  · match vkids with
    | [] =>
      rw [updateElementInPlace_elem_nil, if_neg (by simp [hTodo])]
      exact ⟨rfl, rfl⟩
    | [.vtext s] =>
      rw [updateElementInPlace_elem_text_child, if_neg (by simp [hTodo])]
      split <;> exact ⟨rfl, rfl⟩
    | [.velem t0 a0 k0] =>
      rw [updateElementInPlace_elem_one_elem_child, if_neg (by simp [hTodo])]
      split <;> exact ⟨rfl, rfl⟩
    | v0 :: v1 :: vrest =>
      rw [updateElementInPlace_elem_many_children, if_neg (by simp [hTodo])]
      split <;> exact ⟨rfl, rfl⟩
  · intro k av rest cls' a' hk
    exact patchAttrs_skips_event_keys i cls' a' k av rest hk
  · intro k hk
    exact patchAttrs_fold_attrs_absent i vattrs cls a [] k hk
  · intro k hk
    exact patchAttrs_fold_attrs_isSome i vattrs cls a [] k hk
  · intro hg
    have := patchAttrs_fold_cls_eq i vattrs cls a [] hnd hg
    exact ⟨this.1, this.2 (fun x hx => by simp at hx)⟩
  · intro s hg hne
    exact patchAttrs_fold_cls_ne i vattrs cls a [] s hnd hg hne
  · intro s hg
    exact patchAttrs_fold_style i vattrs cls a [] s hnd hg
  · intro m hm
    exact patchAttrs_fold_muts_shape i vattrs cls a [] (fun m' hm' => by simp at hm') m hm

/-- Witness for C8 at a concrete host/VNode pair: `onclick` skipped, equal
class not rewritten, string style written, unrelated old attribute kept. -/
theorem patch_in_place_attr_policy_witness :
    isTodoListHost (.elem 3 "DIV" "box" [("data-x", "1")] false ""
        [.text "hi"]) = false ∧
    ((["onclick", "className", "style"] : List String).Nodup ∧
      (objGet ([("onclick", AttrV.fn 9), ("className", AttrV.str "box"),
          ("style", AttrV.str "color:red")]) "className" = some (.str "box") →
        (patchAttrs 3 "box" [("data-x", "1")]
            [("onclick", AttrV.fn 9), ("className", AttrV.str "box"),
              ("style", AttrV.str "color:red")]).1 = "box" ∧
        ∀ x, Mut.setClassName 3 x ∉ (patchAttrs 3 "box" [("data-x", "1")]
            [("onclick", AttrV.fn 9), ("className", AttrV.str "box"),
              ("style", AttrV.str "color:red")]).2.2) ∧
      (("data-x" : String) ∉ (["onclick", "className", "style"] : List String) →
        objGet (patchAttrs 3 "box" [("data-x", "1")]
            [("onclick", AttrV.fn 9), ("className", AttrV.str "box"),
              ("style", AttrV.str "color:red")]).2.1 "data-x"
          = objGet [("data-x", "1")] "data-x")) :=
  ⟨by decide,
    by decide,
    (patch_in_place_attr_policy 3 "DIV" "box" [("data-x", "1")] false "" [.text "hi"]
      "div" [("onclick", AttrV.fn 9), ("className", AttrV.str "box"),
        ("style", AttrV.str "color:red")] [] 0 (by decide) (by decide)).2.2.2.2.1,
    fun hk => (patch_in_place_attr_policy 3 "DIV" "box" [("data-x", "1")] false ""
      [.text "hi"] "div" [("onclick", AttrV.fn 9), ("className", AttrV.str "box"),
        ("style", AttrV.str "color:red")] [] 0 (by decide) (by decide)).2.2.1 "data-x"
      (by simpa using hk)⟩

/-- Witness for C1 at a concrete compatible container/forest pair: the
in-place prong keeps the single existing child by identity. -/
theorem updateDom_rebuild_iff_witness :
    (∀ ov ∈ [some (VDom.velem "div" [] [])], optIsElem ov = true) ∧
    ((elemChildren [HNode.elem 1 "DIV" "" [] false "" []]).length
        = [some (VDom.velem "div" [] [])].length ∧
      canUpdateInPlace (elemChildren [HNode.elem 1 "DIV" "" [] false "" []])
        [some (VDom.velem "div" [] [])] = true) ∧
    ((childrenOf (updateDom (.elem 0 "BODY" "" [] false "" [.elem 1 "DIV" "" [] false "" []])
          [some (.velem "div" [] [])] 50).1).map nid
        = [HNode.elem 1 "DIV" "" [] false "" []].map nid ∧
      (childrenOf (updateDom (.elem 0 "BODY" "" [] false "" [.elem 1 "DIV" "" [] false "" []])
          [some (.velem "div" [] [])] 50).1).length
        = [HNode.elem 1 "DIV" "" [] false "" []].length) :=
  ⟨by decide, ⟨by decide, by decide⟩,
    (updateDom_rebuild_iff 0 "BODY" "" [] false "" [.elem 1 "DIV" "" [] false "" []]
      [some (.velem "div" [] [])] 50 (by decide)).2.1 ⟨by decide, by decide⟩⟩

/-- Witness for C6's amended theorem: the count-mismatch prong at a concrete
malformed forest, and the all-tagged prong at a concrete well-formed one. -/
theorem updateDom_decision_no_throw_witness :
    ((0 : Nat) ≠ 1 → updateDomDecision [] [.jelemE none none] = .ok .fullRebuild) ∧
      ((∀ j ∈ [JEntry.jelemE (some "div") none], jTruthy j = true →
          ∃ t cn, j = .jelemE (some t) cn) →
        ∃ d, updateDomDecision [HNode.elem 5 "DIV" "" [] false "" []]
          [.jelemE (some "div") none] = .ok d) :=
  ⟨(updateDom_decision_no_throw [] [.jelemE none none]).1,
    (updateDom_decision_no_throw [HNode.elem 5 "DIV" "" [] false "" []]
      [.jelemE (some "div") none]).2⟩

/-- C9: the keyed-list patcher ignores every item without a key attribute.
For a host container with fresh ids and unique element-child ids, and a new
forest of items with unique attribute keys and string-valued keys where
present: every existing child without a `data-id` survives the patch as the
very same node (never updated, moved to a different identity, or removed),
and every child of the patched container that lacks a `data-id` was already
a child before the patch (an unkeyed new VNode is never mounted — every
fresh mount carries the mounted item's key). -/
theorem updateTodoList_unkeyed_untouched (i : Nat) (tagN cls : String)
    (a : List (String × String)) (ch : Bool) (vl : String) (kids : List HNode)
    (v : VDom) (ctr : Nat)
    (hfresh : ∀ c ∈ kids, c.isElem = true → nid c < ctr)
    (hids : ((elemChildren kids).map nid).Nodup)
    (hnd : ∀ vli ∈ vChildren v, ((vAttrs vli).map Prod.fst).Nodup)
    (hsk : ∀ vli ∈ vChildren v, strKeyed vli = true) :
    (∀ c ∈ kids, hKey c = none →
        c ∈ childrenOf (updateTodoList (.elem i tagN cls a ch vl kids) v ctr).1) ∧
    (∀ c ∈ childrenOf (updateTodoList (.elem i tagN cls a ch vl kids) v ctr).1,
        hKey c = none → c ∈ kids) := by
  have Hstr : ∀ vli ∈ vChildren v, ∀ kv, vKeyRaw vli = some kv → ∃ s, kv = AttrV.str s :=
    fun vli hv kv hk => strKeyed_spec vli (hsk vli hv) kv hk
  have hEb : ∀ c ∈ kids, c.isElem = true → hKey c = none →
      ∀ k eid, objGet (existingByIdMap (elemChildren kids)) k = some eid → nid c ≠ eid := by
    intro c hc hce hck k eid hg hni
    obtain ⟨li, hli, hlik, hlin⟩ := existingByIdMap_src (elemChildren kids) k eid hg
    have hcm : c ∈ elemChildren kids := List.mem_filter.mpr ⟨hc, hce⟩
    have hlieq : c = li := List.inj_on_of_nodup_map hids hcm hli (by rw [hni, hlin])
    rw [hlieq, hlik] at hck
    exact absurd hck (by simp)
  have hrem1 : ∀ c ∈ (removalPass kids (existingByIdMap (elemChildren kids))
      (newKeysRaw (vChildren v))).1, c ∈ kids :=
    fun c hc => removalPass_fold_sub _ _ _ _ _ hc
  have hremkeep : ∀ c ∈ kids, hKey c = none →
      c ∈ (removalPass kids (existingByIdMap (elemChildren kids))
        (newKeysRaw (vChildren v))).1 := by
    intro c hc hck
    refine removalPass_fold_keep _ _ _ _ _ hc ?_
    intro e he _ hcon
    obtain ⟨li, hli, hlik, hlin⟩ :=
      existingByIdMap_mem_entry (elemChildren kids) e.1 e.2 he
    have hcm : c ∈ elemChildren kids := List.mem_filter.mpr ⟨hc, hcon.1⟩
    have hlieq : c = li := List.inj_on_of_nodup_map hids hcm hli (by rw [hcon.2, hlin])
    rw [hlieq, hlik] at hck
    exact absurd hck (by simp)
  have hfresh' : ∀ c ∈ (removalPass kids (existingByIdMap (elemChildren kids))
      (newKeysRaw (vChildren v))).1, c.isElem = true → nid c < ctr :=
    fun c hc he => hfresh c (hrem1 c hc) he
  have hEb' : ∀ c ∈ (removalPass kids (existingByIdMap (elemChildren kids))
      (newKeysRaw (vChildren v))).1, c.isElem = true → hKey c = none →
      ∀ k eid, objGet (existingByIdMap (elemChildren kids)) k = some eid → nid c ≠ eid :=
    fun c hc he hk => hEb c (hrem1 c hc) he hk
  have hup := upsertLoop_unkeyed i (existingByIdMap (elemChildren kids)) (vChildren v) 0
    ((removalPass kids (existingByIdMap (elemChildren kids)) (newKeysRaw (vChildren v))).1)
    ctr hnd Hstr hfresh' hEb'
  constructor
  · intro c hc hck
    exact hup.1 c (hremkeep c hc hck) hck
  · intro c hc hck
    exact hrem1 c (hup.2 c hc hck)

/-! ## Idempotence of the reconciler (C7)

The second reconciliation pass is silent only on a restricted class of
forests: the counterexample below shows a mixed text/element child list
breaks idempotence (the `element.children` count never matches the virtual
child count, so every pass rebuilds).  `stableB` captures the restriction;
`repB` is the alignment between a host node and the VNode it was mounted
from, which the silent pass preserves. -/

mutual
/-- Size measure for mutual induction over the nested `VDom` type. -/
def vsize : VDom → Nat
  | .vtext _ => 1
  | .velem _ _ kids => 1 + vsizeList kids
/-- Size of a child list. -/
def vsizeList : List VDom → Nat
  | [] => 0
  | v :: vs => vsize v + vsizeList vs
end

theorem vdom_mutual_ind (P : VDom → Prop) (Q : List VDom → Prop)
    (h1 : ∀ s, P (.vtext s))
    (h2 : ∀ t a kids, Q kids → P (.velem t a kids))
    (h3 : Q [])
    (h4 : ∀ v vs, P v → Q vs → Q (v :: vs)) :
    (∀ v, P v) ∧ (∀ vs, Q vs) := by
  have hv1 : ∀ v, 1 ≤ vsize v := by
    intro v
    cases v with
    | vtext s => exact le_refl 1
    | velem t a kids => exact Nat.le_add_right 1 _
  have key : ∀ n, (∀ v, vsize v ≤ n → P v) ∧ (∀ vs, vsizeList vs ≤ n → Q vs) := by
    intro n
    induction n with
    | zero =>
      constructor
      · intro v hv
        exact absurd hv (by have := hv1 v; omega)
      · intro vs hvs
        cases vs with
        | nil => exact h3
        | cons v vs' =>
          exfalso
          rw [show vsizeList (v :: vs') = vsize v + vsizeList vs' from rfl] at hvs
          have := hv1 v
          omega
    | succ n ih =>
      have hP : ∀ v, vsize v ≤ n + 1 → P v := by
        intro v hv
        cases v with
        | vtext s => exact h1 s
        | velem t a kids =>
          apply h2
          apply ih.2
          rw [show vsize (.velem t a kids) = 1 + vsizeList kids from rfl] at hv
          omega
      constructor
      · exact hP
      · intro vs hvs
        cases vs with
        | nil => exact h3
        | cons v vs' =>
          rw [show vsizeList (v :: vs') = vsize v + vsizeList vs' from rfl] at hvs
          have := hv1 v
          exact h4 _ _ (hP v (by omega)) (ih.2 vs' (by omega))
  constructor
  · intro v
    exact (key (vsize v)).1 v le_rfl
  · intro vs
    exact (key (vsizeList vs)).2 vs le_rfl

/-- The `className` property value `createRealNode`'s attribute loop leaves
on a fresh element. -/
def mountClassName (vattrs : List (String × AttrV)) : String :=
  match objGet vattrs "className" with
  | some av => attrToString av
  | none => ""

/-- The attribute-level restrictions under which a patch pass is silent:
unique attribute keys, a `className` that is absent or a string not flagging
the keyed-list delegation, and no string-valued `style` (whose `setAttribute`
write is unguarded). -/
def attrsOk (t : String) (attrs : List (String × AttrV)) : Bool :=
  decide ((attrs.map Prod.fst).Nodup)
  && (match objGet attrs "className" with
      | some (.str s) => !(upStr t == "UL" && (classTokens s).contains "todo-list")
      | some _ => false
      | none => true)
  && (match objGet attrs "style" with
      | some (.str _) => false
      | _ => true)

mutual
/-- A VNode whose reconciliation is idempotent: an element with stable
attributes whose child list is empty, a single text, or all elements
(a mixed text/element list makes `element.children.length` differ from the
virtual child count on every pass). -/
def stableB : VDom → Bool
  | .vtext _ => false
  | .velem t attrs kids =>
      attrsOk t attrs &&
      (match kids with
       | [] => true
       | [.vtext _] => true
       | vs => stableElemsB vs)
/-- All entries are stable element VNodes. -/
def stableElemsB : List VDom → Bool
  | [] => true
  | v :: rest => stableB v && stableElemsB rest
end

mutual
/-- Host/VNode alignment as left by a mount (and preserved by a silent
patch): the stored `tagName` is the upper-cased tag, the `className`
property is the mount value, and the children align shape-wise. -/
def repB : HNode → VDom → Bool
  | .elem _ t c _ _ _ hkids, .velem vt vattrs vkids =>
      (t == upStr vt)
      && (c == mountClassName vattrs)
      && (match vkids with
          | [] => true
          | [.vtext s] => hTextContentList hkids == s
          | vs => repElemsB (elemChildren hkids) vs)
  | _, _ => false
/-- Positional alignment of an element-children snapshot with the virtual
children (equal lengths included). -/
def repElemsB : List HNode → List VDom → Bool
  | [], [] => true
  | c :: cs, vc :: vrest => repB c vc && repElemsB cs vrest
  | _, _ => false
end

/-- Alignment of a child list with a forest of optional entries. -/
def pairsRep : List HNode → List (Option VDom) → Bool
  | [], [] => true
  | c :: cs, some v :: rest => repB c v && pairsRep cs rest
  | _, _ => false

/-- A forest entry the amended idempotence statement accepts: a present,
stable element VNode. -/
def optStable : Option VDom → Bool
  | some v => stableB v
  | none => false

/-! ### Unfolding equations for the stability and alignment predicates -/

theorem stableB_vtext (s : String) : stableB (.vtext s) = false := rfl

theorem stableB_velem_nil (t : String) (a : List (String × AttrV)) :
    stableB (.velem t a []) = (attrsOk t a && true) := rfl

theorem stableB_velem_text (t : String) (a : List (String × AttrV)) (s : String) :
    stableB (.velem t a [.vtext s]) = (attrsOk t a && true) := rfl

theorem stableB_velem_selem (t : String) (a : List (String × AttrV)) (t0 : String)
    (a0 : List (String × AttrV)) (k0 : List VDom) :
    stableB (.velem t a [.velem t0 a0 k0])
      = (attrsOk t a && stableElemsB [.velem t0 a0 k0]) := rfl

theorem stableB_velem_many (t : String) (a : List (String × AttrV)) (v0 v1 : VDom)
    (vrest : List VDom) :
    stableB (.velem t a (v0 :: v1 :: vrest))
      = (attrsOk t a && stableElemsB (v0 :: v1 :: vrest)) := by
  cases v0 <;> rfl

theorem stableElemsB_nil : stableElemsB [] = true := rfl

theorem stableElemsB_cons (v : VDom) (vs : List VDom) :
    stableElemsB (v :: vs) = (stableB v && stableElemsB vs) := rfl

theorem repB_text (s : String) (v : VDom) : repB (.text s) v = false := by
  cases v <;> rfl

theorem repB_elem_vtext (i : Nat) (tagN cls : String) (a : List (String × String))
    (ch : Bool) (vl : String) (hkids : List HNode) (s : String) :
    repB (.elem i tagN cls a ch vl hkids) (.vtext s) = false := rfl

theorem repB_elem_velem_nil (i : Nat) (tagN cls : String) (a : List (String × String))
    (ch : Bool) (vl : String) (hkids : List HNode) (t : String)
    (vattrs : List (String × AttrV)) :
    repB (.elem i tagN cls a ch vl hkids) (.velem t vattrs [])
      = ((tagN == upStr t) && (cls == mountClassName vattrs) && true) := rfl

theorem repB_elem_velem_text (i : Nat) (tagN cls : String) (a : List (String × String))
    (ch : Bool) (vl : String) (hkids : List HNode) (t : String)
    (vattrs : List (String × AttrV)) (s : String) :
    repB (.elem i tagN cls a ch vl hkids) (.velem t vattrs [.vtext s])
      = ((tagN == upStr t) && (cls == mountClassName vattrs)
        && (hTextContentList hkids == s)) := rfl

theorem repB_elem_velem_selem (i : Nat) (tagN cls : String) (a : List (String × String))
    (ch : Bool) (vl : String) (hkids : List HNode) (t : String)
    (vattrs : List (String × AttrV)) (t0 : String) (a0 : List (String × AttrV))
    (k0 : List VDom) :
    repB (.elem i tagN cls a ch vl hkids) (.velem t vattrs [.velem t0 a0 k0])
      = ((tagN == upStr t) && (cls == mountClassName vattrs)
        && repElemsB (elemChildren hkids) [.velem t0 a0 k0]) := rfl

theorem repB_elem_velem_many (i : Nat) (tagN cls : String) (a : List (String × String))
    (ch : Bool) (vl : String) (hkids : List HNode) (t : String)
    (vattrs : List (String × AttrV)) (v0 v1 : VDom) (vrest : List VDom) :
    repB (.elem i tagN cls a ch vl hkids) (.velem t vattrs (v0 :: v1 :: vrest))
      = ((tagN == upStr t) && (cls == mountClassName vattrs)
        && repElemsB (elemChildren hkids) (v0 :: v1 :: vrest)) := by
  cases v0 <;> rfl

theorem repElemsB_nil_nil : repElemsB [] [] = true := rfl

theorem repElemsB_cons_cons (c : HNode) (cs : List HNode) (vc : VDom) (vrest : List VDom) :
    repElemsB (c :: cs) (vc :: vrest) = (repB c vc && repElemsB cs vrest) := rfl

theorem repElemsB_nil_cons (vc : VDom) (vrest : List VDom) :
    repElemsB [] (vc :: vrest) = false := rfl

theorem repElemsB_cons_nil (c : HNode) (cs : List HNode) :
    repElemsB (c :: cs) [] = false := rfl

theorem repElemsB_length : ∀ (cs : List HNode) (vs : List VDom),
    repElemsB cs vs = true → cs.length = vs.length := by
  intro cs
  induction cs with
  | nil =>
    intro vs h
    cases vs with
    | nil => rfl
    | cons vc vrest => rw [repElemsB_nil_cons] at h; exact absurd h (by simp)
  | cons c cs' ih =>
    intro vs h
    cases vs with
    | nil => rw [repElemsB_cons_nil] at h; exact absurd h (by simp)
    | cons vc vrest =>
      rw [repElemsB_cons_cons, Bool.and_eq_true] at h
      simp only [List.length_cons, ih vrest h.2]

theorem mountClassName_eq (vattrs : List (String × AttrV)) :
    mountClassName vattrs = (match objGet vattrs "className" with
      | some av => attrToString av
      | none => "") := rfl

theorem stableB_attrsOk (t : String) (a : List (String × AttrV)) (kids : List VDom)
    (h : stableB (.velem t a kids) = true) : attrsOk t a = true := by
  cases kids with
  | nil => rw [stableB_velem_nil, Bool.and_eq_true] at h; exact h.1
  | cons v0 krest =>
    cases krest with
    | nil =>
      cases v0 with
      | vtext s => rw [stableB_velem_text, Bool.and_eq_true] at h; exact h.1
      | velem t0 a0 k0 => rw [stableB_velem_selem, Bool.and_eq_true] at h; exact h.1
    | cons v1 krest2 => rw [stableB_velem_many, Bool.and_eq_true] at h; exact h.1

theorem repB_tag (i : Nat) (tagN cls : String) (a0 : List (String × String)) (ch : Bool)
    (vl : String) (hkids : List HNode) (t : String) (vattrs : List (String × AttrV))
    (kids : List VDom)
    (h : repB (.elem i tagN cls a0 ch vl hkids) (.velem t vattrs kids) = true) :
    tagN = upStr t := by
  cases kids with
  | nil =>
    rw [repB_elem_velem_nil] at h
    simp only [Bool.and_eq_true, beq_iff_eq] at h
    exact h.1.1
  | cons v0 krest =>
    cases krest with
    | nil =>
      cases v0 with
      | vtext s =>
        rw [repB_elem_velem_text] at h
        simp only [Bool.and_eq_true, beq_iff_eq] at h
        exact h.1.1
      | velem t0 a0' k0 =>
        rw [repB_elem_velem_selem] at h
        simp only [Bool.and_eq_true, beq_iff_eq] at h
        exact h.1.1
    | cons v1 krest2 =>
      rw [repB_elem_velem_many] at h
      simp only [Bool.and_eq_true, beq_iff_eq] at h
      exact h.1.1

theorem repB_cls (i : Nat) (tagN cls : String) (a0 : List (String × String)) (ch : Bool)
    (vl : String) (hkids : List HNode) (t : String) (vattrs : List (String × AttrV))
    (kids : List VDom)
    (h : repB (.elem i tagN cls a0 ch vl hkids) (.velem t vattrs kids) = true) :
    cls = mountClassName vattrs := by
  cases kids with
  | nil =>
    rw [repB_elem_velem_nil] at h
    simp only [Bool.and_eq_true, beq_iff_eq] at h
    exact h.1.2
  | cons v0 krest =>
    cases krest with
    | nil =>
      cases v0 with
      | vtext s =>
        rw [repB_elem_velem_text] at h
        simp only [Bool.and_eq_true, beq_iff_eq] at h
        exact h.1.2
      | velem t0 a0' k0 =>
        rw [repB_elem_velem_selem] at h
        simp only [Bool.and_eq_true, beq_iff_eq] at h
        exact h.1.2
    | cons v1 krest2 =>
      rw [repB_elem_velem_many] at h
      simp only [Bool.and_eq_true, beq_iff_eq] at h
      exact h.1.2

theorem stableB_kids_selem (t : String) (a : List (String × AttrV)) (t0 : String)
    (a0 : List (String × AttrV)) (k0 : List VDom)
    (h : stableB (.velem t a [.velem t0 a0 k0]) = true) :
    stableElemsB [VDom.velem t0 a0 k0] = true := by
  rw [stableB_velem_selem, Bool.and_eq_true] at h
  exact h.2

theorem stableB_kids_many (t : String) (a : List (String × AttrV)) (v0 v1 : VDom)
    (vrest : List VDom) (h : stableB (.velem t a (v0 :: v1 :: vrest)) = true) :
    stableElemsB (v0 :: v1 :: vrest) = true := by
  rw [stableB_velem_many, Bool.and_eq_true] at h
  exact h.2

theorem repB_text_content (i : Nat) (tagN cls : String) (a0 : List (String × String))
    (ch : Bool) (vl : String) (hkids : List HNode) (t : String)
    (vattrs : List (String × AttrV)) (s : String)
    (h : repB (.elem i tagN cls a0 ch vl hkids) (.velem t vattrs [.vtext s]) = true) :
    hTextContentList hkids = s := by
  rw [repB_elem_velem_text] at h
  simp only [Bool.and_eq_true, beq_iff_eq] at h
  exact h.2

theorem repB_rep_selem (i : Nat) (tagN cls : String) (a0 : List (String × String))
    (ch : Bool) (vl : String) (hkids : List HNode) (t : String)
    (vattrs : List (String × AttrV)) (t0 : String) (a0' : List (String × AttrV))
    (k0 : List VDom)
    (h : repB (.elem i tagN cls a0 ch vl hkids) (.velem t vattrs [.velem t0 a0' k0]) = true) :
    repElemsB (elemChildren hkids) [VDom.velem t0 a0' k0] = true := by
  rw [repB_elem_velem_selem, Bool.and_eq_true] at h
  exact h.2

theorem repB_rep_many (i : Nat) (tagN cls : String) (a0 : List (String × String))
    (ch : Bool) (vl : String) (hkids : List HNode) (t : String)
    (vattrs : List (String × AttrV)) (v0 v1 : VDom) (vrest : List VDom)
    (h : repB (.elem i tagN cls a0 ch vl hkids) (.velem t vattrs (v0 :: v1 :: vrest)) = true) :
    repElemsB (elemChildren hkids) (v0 :: v1 :: vrest) = true := by
  rw [repB_elem_velem_many, Bool.and_eq_true] at h
  exact h.2

theorem objGet_of_mem_nodup {α : Type} (l : List (String × α)) (k : String) (v : α)
    (hnd : (l.map Prod.fst).Nodup) (hm : (k, v) ∈ l) : objGet l k = some v := by
  induction l with
  | nil => simp at hm
  | cons e es ih =>
    rw [List.map_cons, List.nodup_cons] at hnd
    rcases List.mem_cons.mp hm with rfl | hm2
    · rw [objGet, if_pos rfl]
    · rw [objGet]
      by_cases he : e.1 = k
      · exfalso
        refine hnd.1 ?_
        rw [he]
        exact List.mem_map_of_mem Prod.fst hm2
      · rw [if_neg he]
        exact ih hnd.2 hm2

theorem applyMountAttr_className_other (f : ElemFields) (k : String) (av : AttrV)
    (hne : k ≠ "className") :
    (applyMountAttr f k av).className = f.className := by
  unfold applyMountAttr
  split
  · rfl
  rw [if_neg (show ¬((k == "className") = true) from by simpa using hne)]
  split
  · rfl
  split
  · rfl
  split
  · rfl
  split
  · rfl
  rfl

theorem applyMountAttr_className_self (f : ElemFields) (av : AttrV) :
    (applyMountAttr f "className" av).className = attrToString av := by
  unfold applyMountAttr
  split
  · rename_i hcond
    rw [Bool.and_eq_true] at hcond
    exact absurd hcond.1 (by decide)
  rw [if_pos (show (("className" : String) == "className") = true from by decide)]

theorem mountAttrs_fold_className_preserve (attrs : List (String × AttrV)) :
    ∀ (f : ElemFields), (∀ e ∈ attrs, e.1 ≠ "className") →
      ((attrs.foldl (fun f e => applyMountAttr f e.1 e.2) f)).className = f.className := by
  induction attrs with
  | nil => intro f _; rfl
  | cons e rest ih =>
    intro f hk
    rw [List.foldl_cons,
      ih (applyMountAttr f e.1 e.2) (fun e2 he2 => hk e2 (List.mem_cons_of_mem _ he2))]
    exact applyMountAttr_className_other f e.1 e.2 (hk e (List.mem_cons_self _ _))

theorem mountAttrs_fold_className (attrs : List (String × AttrV)) :
    ∀ (f : ElemFields), (attrs.map Prod.fst).Nodup →
      ((attrs.foldl (fun f e => applyMountAttr f e.1 e.2) f)).className
        = (match objGet attrs "className" with
           | some av => attrToString av
           | none => f.className) := by
  induction attrs with
  | nil => intro f _; rfl
  | cons e rest ih =>
    obtain ⟨ek, ev⟩ := e
    intro f hnd
    rw [List.map_cons, List.nodup_cons] at hnd
    rw [List.foldl_cons]
    by_cases he : ek = "className"
    · subst he
      have hrest : ∀ e2 ∈ rest, e2.1 ≠ "className" := by
        intro e2 he2 hc
        have hm2 : e2.1 ∈ List.map Prod.fst rest := List.mem_map_of_mem Prod.fst he2
        rw [hc] at hm2
        exact hnd.1 hm2
      rw [mountAttrs_fold_className_preserve rest _ hrest, applyMountAttr_className_self]
      rw [show objGet (("className", ev) :: rest) "className" = some ev from by
        rw [objGet, if_pos rfl]]
    · rw [ih (applyMountAttr f ek ev) hnd.2]
      rw [show objGet ((ek, ev) :: rest) "className" = objGet rest "className" from by
        rw [objGet, if_neg he]]
      cases hg : objGet rest "className" with
      | some av => rfl
      | none => exact applyMountAttr_className_other f ek ev he

theorem patchAttrStep_silent (id : Nat) (cls : String) (a : List (String × String))
    (ms : List Mut) (e : String × AttrV)
    (h1 : e.1 = "className" → ∃ s, e.2 = AttrV.str s ∧ cls = s)
    (h2 : ¬(e.1 = "style" ∧ ∃ s, e.2 = AttrV.str s)) :
    patchAttrStep id (cls, a, ms) e = (cls, a, ms) := by
  unfold patchAttrStep
  by_cases hon : startsWithOn e.1 = true
  · rw [if_pos hon]
  · rw [if_neg hon]
    by_cases hcn : (e.1 == "className") = true
    · rw [if_pos hcn]
      obtain ⟨s, hs, hcl⟩ := h1 (by simpa using hcn)
      rw [hs]
      dsimp only
      rw [if_pos (show (cls == s) = true from by rw [hcl]; simp)]
    · rw [if_neg hcn]
      by_cases hstk : (e.1 == "style") = true
      · rw [if_pos hstk]
        cases hv : e.2 with
        | str s => exact absurd ⟨by simpa using hstk, s, hv⟩ h2
        | num n => rfl
        | boolV b => rfl
        | fn f => rfl
        | styleObj o => rfl
      · rw [if_neg hstk]

theorem patchAttrs_silent (id : Nat) (t : String) (vattrs : List (String × AttrV))
    (cls : String) (a : List (String × String))
    (hok : attrsOk t vattrs = true) (hcls : cls = mountClassName vattrs) :
    patchAttrs id cls a vattrs = (cls, a, []) := by
  unfold attrsOk at hok
  simp only [Bool.and_eq_true] at hok
  obtain ⟨⟨hnd0, hcn⟩, hst⟩ := hok
  have hnd := of_decide_eq_true hnd0
  have hcond : ∀ e ∈ vattrs, (e.1 = "className" → ∃ s, e.2 = AttrV.str s ∧ cls = s) ∧
      ¬(e.1 = "style" ∧ ∃ s, e.2 = AttrV.str s) := by
    intro e he
    constructor
    · intro hcname
      have hg : objGet vattrs "className" = some e.2 := by
        rw [← hcname]
        exact objGet_of_mem_nodup vattrs e.1 e.2 hnd he
      rw [hg] at hcn
      cases hv : e.2 with
      | str s =>
        refine ⟨s, rfl, ?_⟩
        rw [hcls, mountClassName_eq, hg, hv]
        rfl
      | num n => rw [hv] at hcn; exact absurd hcn (by simp)
      | boolV b => rw [hv] at hcn; exact absurd hcn (by simp)
      | fn f => rw [hv] at hcn; exact absurd hcn (by simp)
      | styleObj o => rw [hv] at hcn; exact absurd hcn (by simp)
    · rintro ⟨hstyle, s, hs⟩
      have hg : objGet vattrs "style" = some e.2 := by
        rw [← hstyle]
        exact objGet_of_mem_nodup vattrs e.1 e.2 hnd he
      rw [hg, hs] at hst
      exact absurd hst (by simp)
  unfold patchAttrs
  suffices hgen : ∀ (l : List (String × AttrV)),
      (∀ e ∈ l, (e.1 = "className" → ∃ s, e.2 = AttrV.str s ∧ cls = s) ∧
        ¬(e.1 = "style" ∧ ∃ s, e.2 = AttrV.str s)) →
      ∀ ms, l.foldl (patchAttrStep id) (cls, a, ms) = (cls, a, ms) by
    exact hgen vattrs hcond []
  intro l
  induction l with
  | nil => intro _ ms; rfl
  | cons e rest ih =>
    intro hc ms
    rw [List.foldl_cons,
      patchAttrStep_silent id cls a ms e (hc e (List.mem_cons_self _ _)).1
        (hc e (List.mem_cons_self _ _)).2]
    exact ih (fun e2 he2 => hc e2 (List.mem_cons_of_mem _ he2)) ms

theorem classTokens_empty : classTokens "" = [] := by
  unfold classTokens
  rw [show "".splitOn " " = [""] from by
    unfold String.splitOn
    rw [if_neg (by decide), String.splitOnAux, if_pos (by decide)]
    rfl]
  rfl

theorem replaceElems_cons_elem (c : HNode) (cs : List HNode) (r : HNode)
    (rrest : List HNode) (hce : c.isElem = true) :
    replaceElems (c :: cs) (r :: rrest) = r :: replaceElems cs rrest := by
  rw [replaceElems.eq_def]
  dsimp only
  rw [if_pos hce]

theorem replaceElems_cons_nonelem (c : HNode) (cs : List HNode) (repl : List HNode)
    (hce : ¬(c.isElem = true)) :
    replaceElems (c :: cs) repl = c :: replaceElems cs repl := by
  rw [replaceElems.eq_def]
  dsimp only
  rw [if_neg hce]

theorem replaceElems_self (cs : List HNode) : replaceElems cs (elemChildren cs) = cs := by
  induction cs with
  | nil => rfl
  | cons c rest ih =>
    unfold elemChildren
    rw [List.filter_cons]
    by_cases hce : c.isElem = true
    · rw [if_pos hce, replaceElems_cons_elem c rest c _ hce]
      exact congrArg (fun l => c :: l) ih
    · rw [if_neg hce, replaceElems_cons_nonelem c rest _ hce]
      exact congrArg (fun l => c :: l) ih

theorem isTodoListHost_false (i : Nat) (tagN cls : String) (a0 : List (String × String))
    (ch : Bool) (vl : String) (hkids : List HNode) (t : String)
    (vattrs : List (String × AttrV))
    (hok : attrsOk t vattrs = true) (htag : tagN = upStr t)
    (hcls : cls = mountClassName vattrs) :
    isTodoListHost (.elem i tagN cls a0 ch vl hkids) = false := by
  unfold attrsOk at hok
  simp only [Bool.and_eq_true] at hok
  obtain ⟨⟨_, hcn⟩, _⟩ := hok
  unfold isTodoListHost
  rw [show tagNameOf (.elem i tagN cls a0 ch vl hkids) = tagN from rfl,
    show classNameOf (.elem i tagN cls a0 ch vl hkids) = cls from rfl,
    htag, hcls, mountClassName_eq]
  cases hcg : objGet vattrs "className" with
  | none =>
    dsimp only
    rw [classTokens_empty]
    simp
  | some av =>
    rw [hcg] at hcn
    cases av with
    | str s =>
      have hcn2 : (!(upStr t == "UL" && (classTokens s).contains "todo-list")) = true := hcn
      dsimp only
      rw [show attrToString (AttrV.str s) = s from rfl]
      cases hb : (upStr t == "UL" && (classTokens s).contains "todo-list") with
      | false => rfl
      | true => rw [hb] at hcn2; exact absurd hcn2 (by decide)
    | num n => exact absurd hcn (by simp)
    | boolV b => exact absurd hcn (by simp)
    | fn f => exact absurd hcn (by simp)
    | styleObj o => exact absurd hcn (by simp)

/-- Mounting a stable VNode produces a host node that represents it; mounting
a stable element list produces a list of element nodes representing it
pairwise. -/
theorem mount_rep_all :
    (∀ v, stableB v = true → ∀ ctr, repB (createRealNode v ctr).1 v = true) ∧
    (∀ vs, stableElemsB vs = true → ∀ ctr,
      (∀ x ∈ (createRealNodeList vs ctr).1, x.isElem = true) ∧
      repElemsB (createRealNodeList vs ctr).1 vs = true) := by
  refine vdom_mutual_ind _ _ ?_ ?_ ?_ ?_
  · intro s hst
    rw [stableB_vtext] at hst
    exact absurd hst (by simp)
  · intro t a kids hQ hst ctr
    have hok : attrsOk t a = true := stableB_attrsOk t a kids hst
    have hnd : (a.map Prod.fst).Nodup := by
      unfold attrsOk at hok
      simp only [Bool.and_eq_true] at hok
      exact of_decide_eq_true hok.1.1
    rw [createRealNode_velem]
    dsimp only
    have hcn : ((a.foldl (fun f e => applyMountAttr f e.1 e.2)
        ⟨"", [], false, ""⟩)).className = mountClassName a := by
      rw [mountAttrs_fold_className a ⟨"", [], false, ""⟩ hnd, mountClassName_eq]
    cases kids with
    | nil =>
      rw [repB_elem_velem_nil, hcn]
      simp
    | cons v0 krest =>
      cases krest with
      | nil =>
        cases v0 with
        | vtext s =>
          rw [repB_elem_velem_text, hcn]
          rw [show (createRealNodeList [VDom.vtext s] (ctr + 1)).1
              = [HNode.text s] from rfl]
          rw [hTextContentList_cons, hTextContent_text, hTextContentList_nil,
            String.append_empty]
          simp
        | velem t0 a0 k0 =>
          have hq := hQ (stableB_kids_selem t a t0 a0 k0 hst) (ctr + 1)
          rw [repB_elem_velem_selem, hcn]
          rw [elemChildren_all _ hq.1]
          simp [hq.2]
      | cons v1 krest2 =>
        have hq := hQ (stableB_kids_many t a v0 v1 krest2 hst) (ctr + 1)
        rw [repB_elem_velem_many, hcn]
        rw [elemChildren_all _ hq.1]
        simp [hq.2]
  · intro _ ctr
    rw [createRealNodeList_nil]
    exact ⟨by simp, rfl⟩
  · intro v vs hP hQ hst ctr
    rw [stableElemsB_cons, Bool.and_eq_true] at hst
    cases v with
    | vtext s => rw [stableB_vtext] at hst; exact absurd hst.1 (by simp)
    | velem t a kids =>
      rw [createRealNodeList_cons]
      dsimp only
      have hq := hQ hst.2 ((createRealNode (.velem t a kids) ctr).2)
      constructor
      · intro x hx
        rcases List.mem_cons.mp hx with rfl | h2
        · exact createRealNode_velem_isElem t a kids ctr
        · exact hq.1 x h2
      · rw [repElemsB_cons_cons, Bool.and_eq_true]
        exact ⟨hP hst.1 ctr, hq.2⟩

/-- Patching a host node that already represents a stable VNode is silent: the
node, the id counter and the mutation list all come back unchanged. -/
theorem patch_silent_all :
    (∀ v, ∀ el ctr, stableB v = true → repB el v = true →
      updateElementInPlace el v ctr = (el, ctr, [])) ∧
    (∀ vs, ∀ cs pid ctr, stableElemsB vs = true → repElemsB cs vs = true →
      uipPairs pid cs vs ctr = (cs, ctr, [])) := by
  refine vdom_mutual_ind _ _ ?_ ?_ ?_ ?_
  · intro s el ctr hst _
    rw [stableB_vtext] at hst
    exact absurd hst (by simp)
  · intro t a kids hQ el ctr hst hrep
    cases el with
    | text s0 =>
      rw [repB_text] at hrep
      exact absurd hrep (by simp)
    | elem i tagN cls a0 ch vl hkids =>
      have hok : attrsOk t a = true := stableB_attrsOk t a kids hst
      have htag := repB_tag i tagN cls a0 ch vl hkids t a kids hrep
      have hcls := repB_cls i tagN cls a0 ch vl hkids t a kids hrep
      have htl := isTodoListHost_false i tagN cls a0 ch vl hkids t a hok htag hcls
      cases kids with
      | nil =>
        rw [updateElementInPlace_elem_nil]
        rw [if_neg (show ¬(isTodoListHost (HNode.elem i tagN cls a0 ch vl hkids) = true)
          from by rw [htl]; simp)]
        rw [patchAttrs_silent i t a cls a0 hok hcls]
      | cons v0 krest =>
        cases krest with
        | nil =>
          cases v0 with
          | vtext s =>
            have htxt := repB_text_content i tagN cls a0 ch vl hkids t a s hrep
            rw [updateElementInPlace_elem_text_child]
            rw [if_neg (show ¬(isTodoListHost (HNode.elem i tagN cls a0 ch vl hkids) = true)
              from by rw [htl]; simp)]
            rw [if_pos (show (hTextContentList hkids == s) = true from by
              rw [htxt]; simp)]
            rw [patchAttrs_silent i t a cls a0 hok hcls]
          | velem t0 a0' k0 =>
            have hre := repB_rep_selem i tagN cls a0 ch vl hkids t a t0 a0' k0 hrep
            have hlen : (elemChildren hkids).length = 1 := repElemsB_length _ _ hre
            have hse := stableB_kids_selem t a t0 a0' k0 hst
            rw [updateElementInPlace_elem_one_elem_child]
            rw [if_neg (show ¬(isTodoListHost (HNode.elem i tagN cls a0 ch vl hkids) = true)
              from by rw [htl]; simp)]
            rw [if_pos (show ((elemChildren hkids).length == 1) = true from by
              rw [hlen]; simp)]
            rw [hQ (elemChildren hkids) i ctr hse hre]
            dsimp only
            rw [replaceElems_self hkids]
            rw [patchAttrs_silent i t a cls a0 hok hcls]
            rfl
        | cons v1 krest2 =>
          have hre := repB_rep_many i tagN cls a0 ch vl hkids t a v0 v1 krest2 hrep
          have hlen : (elemChildren hkids).length = (v0 :: v1 :: krest2).length :=
            repElemsB_length _ _ hre
          have hse := stableB_kids_many t a v0 v1 krest2 hst
          rw [updateElementInPlace_elem_many_children]
          rw [if_neg (show ¬(isTodoListHost (HNode.elem i tagN cls a0 ch vl hkids) = true)
            from by rw [htl]; simp)]
          rw [if_pos (show ((elemChildren hkids).length == (v0 :: v1 :: krest2).length) = true
            from by rw [hlen]; simp)]
          rw [hQ (elemChildren hkids) i ctr hse hre]
          dsimp only
          rw [replaceElems_self hkids]
          rw [patchAttrs_silent i t a cls a0 hok hcls]
          rfl
  · intro cs pid ctr _ hrep
    cases cs with
    | nil => rw [uipPairs_nil_nil]
    | cons c cs' =>
      rw [repElemsB_cons_nil] at hrep
      exact absurd hrep (by simp)
  · intro v vs hP hQ cs pid ctr hst hrep
    cases cs with
    | nil =>
      rw [repElemsB_nil_cons] at hrep
      exact absurd hrep (by simp)
    | cons c cs' =>
      rw [stableElemsB_cons, Bool.and_eq_true] at hst
      rw [repElemsB_cons_cons, Bool.and_eq_true] at hrep
      cases v with
      | vtext s => rw [stableB_vtext] at hst; exact absurd hst.1 (by simp)
      | velem t a kids =>
        cases c with
        | text s0 => rw [repB_text] at hrep; exact absurd hrep.1 (by simp)
        | elem i tagN cls a0 ch vl hkids =>
          have htag := repB_tag i tagN cls a0 ch vl hkids t a kids hrep.1
          rw [uipPairs_cons_cons]
          dsimp only
          rw [show (lowStr (tagNameOf (HNode.elem i tagN cls a0 ch vl hkids))
              == lowStr t) = true from by
            rw [show tagNameOf (HNode.elem i tagN cls a0 ch vl hkids) = tagN from rfl,
              htag, lowStr_upStr]
            simp]
          rw [if_pos rfl]
          rw [hP (HNode.elem i tagN cls a0 ch vl hkids) ctr hst.1 hrep.1]
          dsimp only
          rw [hQ cs' pid ctr hst.2 hrep.2]
          rfl

theorem pairsRep_nil_cons (ov : Option VDom) (rest : List (Option VDom)) :
    pairsRep [] (ov :: rest) = false := by cases ov <;> rfl

theorem pairsRep_cons_nil (c : HNode) (cs : List HNode) :
    pairsRep (c :: cs) [] = false := rfl

theorem pairsRep_cons_none (c : HNode) (cs : List HNode) (rest : List (Option VDom)) :
    pairsRep (c :: cs) (none :: rest) = false := rfl

theorem pairsRep_cons_some (c : HNode) (cs : List HNode) (v : VDom)
    (rest : List (Option VDom)) :
    pairsRep (c :: cs) (some v :: rest) = (repB c v && pairsRep cs rest) := rfl

theorem pairsRep_length : ∀ (cs : List HNode) (forest : List (Option VDom)),
    pairsRep cs forest = true → cs.length = forest.length := by
  intro cs
  induction cs with
  | nil =>
    intro forest h
    cases forest with
    | nil => rfl
    | cons f rest => rw [pairsRep_nil_cons] at h; exact absurd h (by simp)
  | cons c cs' ih =>
    intro forest h
    cases forest with
    | nil => rw [pairsRep_cons_nil] at h; exact absurd h (by simp)
    | cons f rest =>
      cases f with
      | none => rw [pairsRep_cons_none] at h; exact absurd h (by simp)
      | some v =>
        rw [pairsRep_cons_some, Bool.and_eq_true] at h
        simp only [List.length_cons, ih rest h.2]

theorem rebuildChildren_nil (cid : Nat) (ctr : Nat) :
    rebuildChildren cid [] ctr = ([], ctr, []) := rfl

theorem rebuildChildren_cons_some (cid : Nat) (v : VDom) (rest : List (Option VDom))
    (ctr : Nat) :
    rebuildChildren cid (some v :: rest) ctr =
      (let m := createRealNode v ctr
       let cont := rebuildChildren cid rest m.2
       (m.1 :: cont.1, cont.2.1, Mut.appendChild cid (nid m.1) :: cont.2.2)) := rfl

theorem rebuildChildren_rep (cid : Nat) : ∀ (forest : List (Option VDom)) (ctr : Nat),
    (∀ e ∈ forest, optStable e = true) →
    (∀ x ∈ (rebuildChildren cid forest ctr).1, x.isElem = true) ∧
    pairsRep (rebuildChildren cid forest ctr).1 forest = true := by
  intro forest
  induction forest with
  | nil =>
    intro ctr _
    rw [rebuildChildren_nil]
    exact ⟨by simp, rfl⟩
  | cons f rest ih =>
    intro ctr hst
    cases f with
    | none =>
      have hfalse : optStable none = true := hst none (List.mem_cons_self _ _)
      exact absurd hfalse (by simp [optStable])
    | some v =>
      have hsv : stableB v = true := hst (some v) (List.mem_cons_self _ _)
      rw [rebuildChildren_cons_some]
      dsimp only
      have hrest := ih ((createRealNode v ctr).2)
        (fun e he => hst e (List.mem_cons_of_mem _ he))
      cases v with
      | vtext s => rw [stableB_vtext] at hsv; exact absurd hsv (by simp)
      | velem t a kids =>
        constructor
        · intro x hx
          rcases List.mem_cons.mp hx with rfl | h2
          · exact createRealNode_velem_isElem t a kids ctr
          · exact hrest.1 x h2
        · rw [pairsRep_cons_some, Bool.and_eq_true]
          exact ⟨mount_rep_all.1 (VDom.velem t a kids) hsv ctr, hrest.2⟩

theorem compatPair_of_rep (c : HNode) (t : String) (vattrs : List (String × AttrV))
    (vkids : List VDom) (hok : attrsOk t vattrs = true)
    (h : repB c (.velem t vattrs vkids) = true) :
    compatPair c (.velem t vattrs vkids) = true := by
  cases c with
  | text s0 => rw [repB_text] at h; exact absurd h (by simp)
  | elem i tagN cls a0 ch vl hkids =>
    have htag := repB_tag i tagN cls a0 ch vl hkids t vattrs vkids h
    have hcls := repB_cls i tagN cls a0 ch vl hkids t vattrs vkids h
    unfold compatPair
    dsimp only
    rw [show tagNameOf (HNode.elem i tagN cls a0 ch vl hkids) = tagN from rfl,
      show classNameOf (HNode.elem i tagN cls a0 ch vl hkids) = cls from rfl,
      htag, hcls, lowStr_upStr]
    unfold attrsOk at hok
    simp only [Bool.and_eq_true] at hok
    have hcn := hok.1.2
    unfold classNameCompat
    rw [mountClassName_eq]
    cases hcg : objGet vattrs "className" with
    | none =>
      dsimp only
      simp
    | some av =>
      rw [hcg] at hcn
      cases av with
      | str s =>
        dsimp only
        rw [show attrToString (AttrV.str s) = s from rfl]
        simp
      | num n => exact absurd hcn (by simp)
      | boolV b => exact absurd hcn (by simp)
      | fn f => exact absurd hcn (by simp)
      | styleObj o => exact absurd hcn (by simp)

theorem canUpdateInPlace_x_nil (cs : List HNode) : canUpdateInPlace cs [] = true := by
  cases cs <;> rfl

theorem canUpdateInPlace_nil_cons (ov : Option VDom) (rest : List (Option VDom)) :
    canUpdateInPlace [] (ov :: rest) = false := rfl

theorem canUpdateInPlace_cons_some (c : HNode) (cs : List HNode) (v : VDom)
    (rest : List (Option VDom)) :
    canUpdateInPlace (c :: cs) (some v :: rest)
      = (compatPair c v && canUpdateInPlace cs rest) := rfl

theorem canUpdateInPlace_of_rep : ∀ (forest : List (Option VDom)) (cs : List HNode),
    (∀ e ∈ forest, optStable e = true) → pairsRep cs forest = true →
    canUpdateInPlace cs forest = true := by
  intro forest
  induction forest with
  | nil => intro cs _ _; exact canUpdateInPlace_x_nil cs
  | cons f rest ih =>
    intro cs hst hrep
    cases cs with
    | nil => rw [pairsRep_nil_cons] at hrep; exact absurd hrep (by simp)
    | cons c cs' =>
      cases f with
      | none => rw [pairsRep_cons_none] at hrep; exact absurd hrep (by simp)
      | some v =>
        rw [pairsRep_cons_some, Bool.and_eq_true] at hrep
        have hsv : stableB v = true := hst (some v) (List.mem_cons_self _ _)
        cases v with
        | vtext s => rw [stableB_vtext] at hsv; exact absurd hsv (by simp)
        | velem t a kids =>
          rw [canUpdateInPlace_cons_some, Bool.and_eq_true]
          exact ⟨compatPair_of_rep c t a kids (stableB_attrsOk t a kids hsv) hrep.1,
            ih cs' (fun e he => hst e (List.mem_cons_of_mem _ he)) hrep.2⟩

theorem udPatchPairs_nil_nil (ctr : Nat) : udPatchPairs [] [] ctr = ([], ctr, []) := rfl

theorem udPatchPairs_cons_some (c : HNode) (cs : List HNode) (v : VDom)
    (rest : List (Option VDom)) (ctr : Nat) :
    udPatchPairs (c :: cs) (some v :: rest) ctr =
      (let r := updateElementInPlace c v ctr
       let cont := udPatchPairs cs rest r.2.1
       (r.1 :: cont.1, cont.2.1, r.2.2 ++ cont.2.2)) := rfl

theorem udPatchPairs_silent : ∀ (forest : List (Option VDom)) (cs : List HNode) (ctr : Nat),
    (∀ e ∈ forest, optStable e = true) → pairsRep cs forest = true →
    udPatchPairs cs forest ctr = (cs, ctr, []) := by
  intro forest
  induction forest with
  | nil =>
    intro cs ctr _ hrep
    cases cs with
    | nil => rfl
    | cons c cs' => rw [pairsRep_cons_nil] at hrep; exact absurd hrep (by simp)
  | cons f rest ih =>
    intro cs ctr hst hrep
    cases cs with
    | nil => rw [pairsRep_nil_cons] at hrep; exact absurd hrep (by simp)
    | cons c cs' =>
      cases f with
      | none => rw [pairsRep_cons_none] at hrep; exact absurd hrep (by simp)
      | some v =>
        rw [pairsRep_cons_some, Bool.and_eq_true] at hrep
        have hsv : stableB v = true := hst (some v) (List.mem_cons_self _ _)
        rw [udPatchPairs_cons_some]
        dsimp only
        rw [patch_silent_all.1 v c ctr hsv hrep.1]
        dsimp only
        rw [ih cs' ctr (fun e he => hst e (List.mem_cons_of_mem _ he)) hrep.2]
        rfl

/-- C2: on a fully keyed list patch (every existing child and every new item
carries a string `data-id`, unique on each side, with the DOM invariants of
unique and fresh child ids and unique attribute keys), the patched container's
children carry exactly the new forest's keys in the new forest's order, and
every final child whose key already existed before the patch is the original
host node for that key (same identity — never destroyed and recreated). -/
theorem updateTodoList_keyed_order_identity (i : Nat) (tagN cls : String)
    (a : List (String × String)) (ch : Bool) (vl : String) (kids : List HNode)
    (v : VDom) (ctr : Nat)
    (hallk : ∀ c ∈ kids, c.isElem = true)
    (hkeyed : ∀ c ∈ kids, (hKey c).isSome = true)
    (hids : (kids.map nid).Nodup)
    (hkeys : (kids.filterMap hKey).Nodup)
    (hfresh : ∀ c ∈ kids, nid c < ctr)
    (hnd : ∀ w ∈ vChildren v, ((vAttrs w).map Prod.fst).Nodup)
    (hvk : ∀ w ∈ vChildren v, (vKeyStr w).isSome = true)
    (hvknodup : ((vChildren v).filterMap vKeyStr).Nodup) :
    (childrenOf (updateTodoList (.elem i tagN cls a ch vl kids) v ctr).1).map hKey
      = (vChildren v).map (fun w => vKeyStr w) ∧
    (∀ c ∈ childrenOf (updateTodoList (.elem i tagN cls a ch vl kids) v ctr).1,
      ∀ k, hKey c = some k → ∀ c0 ∈ kids, hKey c0 = some k → nid c = nid c0) := by
  have hec : elemChildren kids = kids := elemChildren_all kids hallk
  have hstr : ∀ w ∈ vChildren v, ∀ kv, vKeyRaw w = some kv → ∃ s, kv = AttrV.str s := by
    intro w hw kv hkv
    have h1 := hvk w hw
    cases ho : vKeyStr w with
    | none => rw [ho] at h1; simp at h1
    | some s =>
      have h2 := vKeyStr_some w s ho
      rw [h2] at hkv
      exact ⟨s, (Option.some.inj hkv).symm⟩
  have hlook : ∀ c0 ∈ kids, ∀ k, hKey c0 = some k →
      objGet (existingByIdMap kids) k = some (nid c0) :=
    fun c0 hc0 k hk => existingByIdMap_lookup kids hkeys c0 hc0 k hk
  have hebid_orig : ∀ k eid, objGet (existingByIdMap kids) k = some eid →
      ∀ c0 ∈ kids, hKey c0 = some k → nid c0 = eid := by
    intro k eid hg c0 hc0 hk
    have h1 := hlook c0 hc0 k hk
    rw [hg] at h1
    exact (Option.some.inj h1).symm
  have hebid_none : ∀ k, objGet (existingByIdMap kids) k = none →
      ∀ c0 ∈ kids, hKey c0 ≠ some k := by
    intro k hg c0 hc0 hk
    have h1 := hlook c0 hc0 k hk
    rw [hg] at h1
    exact absurd h1 (by simp)
  have hremsub : ∀ c ∈ (removalPass kids (existingByIdMap kids)
      (newKeysRaw (vChildren v))).1, c ∈ kids :=
    fun c hc => removalPass_fold_sub _ _ _ _ _ hc
  have hremsublist : ((removalPass kids (existingByIdMap kids)
      (newKeysRaw (vChildren v))).1).Sublist kids :=
    removalPass_fold_sublist _ _ _ _
  have hremnodup : (((removalPass kids (existingByIdMap kids)
      (newKeysRaw (vChildren v))).1).map nid).Nodup :=
    List.Nodup.sublist (List.Sublist.map nid hremsublist) hids
  have hremlive : ∀ c ∈ (removalPass kids (existingByIdMap kids)
      (newKeysRaw (vChildren v))).1, ∀ k, hKey c = some k →
      k ∈ (vChildren v).filterMap vKeyStr := by
    intro c hc k hk
    by_contra hnm
    have hnm2 : AttrV.str k ∉ newKeysRaw (vChildren v) :=
      fun hmem => hnm ((mem_newKeysRaw_iff_keyStr (vChildren v) hstr k).mp hmem)
    have hcontains : (newKeysRaw (vChildren v)).contains (AttrV.str k) = false := by
      simp [hnm2]
    have hmem : (k, nid c) ∈ existingByIdMap kids :=
      objGet_mem _ _ _ (hlook c (hremsub c hc) k hk)
    exact removalPass_fold_removes _ _ _ _ k (nid c) hmem hcontains c hc
      ⟨hallk c (hremsub c hc), rfl⟩
  have hremkeep : ∀ c ∈ kids, ∀ k, hKey c = some k →
      k ∈ (vChildren v).filterMap vKeyStr →
      c ∈ (removalPass kids (existingByIdMap kids) (newKeysRaw (vChildren v))).1 := by
    intro c hc k hk hkm
    refine removalPass_fold_keep _ _ _ _ _ hc ?_
    intro e he hdead hcon
    obtain ⟨li, hli, hlik, hlin⟩ := existingByIdMap_mem_entry kids e.1 e.2 he
    have hlieq : c = li := List.inj_on_of_nodup_map hids hc hli (by rw [hcon.2, hlin])
    rw [← hlieq] at hlik
    rw [hk] at hlik
    have he1 : k = e.1 := Option.some.inj hlik
    have hmem : AttrV.str e.1 ∈ newKeysRaw (vChildren v) :=
      (mem_newKeysRaw_iff_keyStr (vChildren v) hstr e.1).mpr (he1 ▸ hkm)
    have hcont : (newKeysRaw (vChildren v)).contains (AttrV.str e.1) = true := by
      simp [hmem]
    rw [hcont] at hdead
    exact absurd hdead (by simp)
  have hep0 : ∀ k ∈ (vChildren v).filterMap vKeyStr, ∀ eid,
      objGet (existingByIdMap kids) k = some eid →
      ∃ c ∈ (removalPass kids (existingByIdMap kids) (newKeysRaw (vChildren v))).1,
        nid c = eid ∧ hKey c = some k := by
    intro k hkm eid hg
    obtain ⟨li, hli, hlik, hlin⟩ := existingByIdMap_src kids k eid hg
    exact ⟨li, hremkeep li hli k hlik hkm, hlin, hlik⟩
  have hpk0 : ∀ c ∈ (removalPass kids (existingByIdMap kids)
      (newKeysRaw (vChildren v))).1, ∃ k, hKey c = some k ∧
      k ∈ (vChildren v).filterMap vKeyStr := by
    intro c hc
    have h1 := hkeyed c (hremsub c hc)
    cases ho : hKey c with
    | none => rw [ho] at h1; simp at h1
    | some k => exact ⟨k, rfl, hremlive c hc k ho⟩
  have hall0 : ∀ c ∈ ([] : List HNode) ++ (removalPass kids (existingByIdMap kids)
      (newKeysRaw (vChildren v))).1, c.isElem = true := by
    intro c hc
    rw [List.nil_append] at hc
    exact hallk c (hremsub c hc)
  have hnodup0 : ((([] : List HNode) ++ (removalPass kids (existingByIdMap kids)
      (newKeysRaw (vChildren v))).1).map nid).Nodup := by
    rw [List.nil_append]
    exact hremnodup
  have hlt0 : ∀ c ∈ ([] : List HNode) ++ (removalPass kids (existingByIdMap kids)
      (newKeysRaw (vChildren v))).1, nid c < ctr := by
    intro c hc
    rw [List.nil_append] at hc
    exact hfresh c (hremsub c hc)
  obtain ⟨done2, hres, hmap, helems, hB⟩ := upsertLoop_keyed i (existingByIdMap kids) kids
    hkeys hebid_orig hebid_none (vChildren v) []
    ((removalPass kids (existingByIdMap kids) (newKeysRaw (vChildren v))).1) ctr
    hnd hvk hvknodup hall0 hnodup0 hlt0 hremsub hpk0 (by simp) hep0
  simp only [List.length_nil, List.nil_append] at hres
  have hchild : childrenOf (updateTodoList (.elem i tagN cls a ch vl kids) v ctr).1
      = (upsertLoop i (existingByIdMap kids) (vChildren v) 0
          ((removalPass kids (existingByIdMap kids) (newKeysRaw (vChildren v))).1) ctr).1 := by
    show (upsertLoop i (existingByIdMap (elemChildren kids)) (vChildren v) 0
          ((removalPass kids (existingByIdMap (elemChildren kids))
            (newKeysRaw (vChildren v))).1) ctr).1
        = _
    rw [hec]
  constructor
  · rw [hchild, hres, hmap]
  · intro c hc k hk c0 hc0 hk0
    rw [hchild, hres] at hc
    exact hB c hc k hk c0 hc0 hk0

/-- Witness for C2 at the claim's own example: existing keys `[a,b,c]`
reordered to `[c,a,b]`; the theorem applies, and the final child identities
are exactly the three original nodes in the new order. -/
theorem updateTodoList_keyed_order_identity_witness :
    ((childrenOf (updateTodoList
        (.elem 0 "UL" "todo-list" [] false ""
          [HNode.elem 1 "LI" "" [("data-id", "a")] false "" [],
           HNode.elem 2 "LI" "" [("data-id", "b")] false "" [],
           HNode.elem 3 "LI" "" [("data-id", "c")] false "" []])
        (VDom.velem "ul" []
          [VDom.velem "li" [("data-id", AttrV.str "c")] [],
           VDom.velem "li" [("data-id", AttrV.str "a")] [],
           VDom.velem "li" [("data-id", AttrV.str "b")] []]) 10).1).map hKey
      = (vChildren (VDom.velem "ul" []
          [VDom.velem "li" [("data-id", AttrV.str "c")] [],
           VDom.velem "li" [("data-id", AttrV.str "a")] [],
           VDom.velem "li" [("data-id", AttrV.str "b")] []])).map (fun w => vKeyStr w) ∧
     (∀ c ∈ childrenOf (updateTodoList
        (.elem 0 "UL" "todo-list" [] false ""
          [HNode.elem 1 "LI" "" [("data-id", "a")] false "" [],
           HNode.elem 2 "LI" "" [("data-id", "b")] false "" [],
           HNode.elem 3 "LI" "" [("data-id", "c")] false "" []])
        (VDom.velem "ul" []
          [VDom.velem "li" [("data-id", AttrV.str "c")] [],
           VDom.velem "li" [("data-id", AttrV.str "a")] [],
           VDom.velem "li" [("data-id", AttrV.str "b")] []]) 10).1,
      ∀ k, hKey c = some k →
        ∀ c0 ∈ [HNode.elem 1 "LI" "" [("data-id", "a")] false "" [],
                HNode.elem 2 "LI" "" [("data-id", "b")] false "" [],
                HNode.elem 3 "LI" "" [("data-id", "c")] false "" []],
          hKey c0 = some k → nid c = nid c0)) ∧
    (childrenOf (updateTodoList
        (.elem 0 "UL" "todo-list" [] false ""
          [HNode.elem 1 "LI" "" [("data-id", "a")] false "" [],
           HNode.elem 2 "LI" "" [("data-id", "b")] false "" [],
           HNode.elem 3 "LI" "" [("data-id", "c")] false "" []])
        (VDom.velem "ul" []
          [VDom.velem "li" [("data-id", AttrV.str "c")] [],
           VDom.velem "li" [("data-id", AttrV.str "a")] [],
           VDom.velem "li" [("data-id", AttrV.str "b")] []]) 10).1).map nid = [3, 1, 2] :=
  ⟨updateTodoList_keyed_order_identity 0 "UL" "todo-list" [] false ""
    [HNode.elem 1 "LI" "" [("data-id", "a")] false "" [],
     HNode.elem 2 "LI" "" [("data-id", "b")] false "" [],
     HNode.elem 3 "LI" "" [("data-id", "c")] false "" []]
    (VDom.velem "ul" []
      [VDom.velem "li" [("data-id", AttrV.str "c")] [],
       VDom.velem "li" [("data-id", AttrV.str "a")] [],
       VDom.velem "li" [("data-id", AttrV.str "b")] []]) 10
    (by decide) (by decide) (by decide) (by decide) (by decide) (by decide)
    (by decide) (by decide),
   by decide⟩

/-- Witness for C9 at a concrete container (one unkeyed and one keyed
existing child, one keyed and one unkeyed new item). -/
theorem updateTodoList_unkeyed_untouched_witness :
    (∀ c ∈ [HNode.elem 1 "LI" "" [] false "" [],
            HNode.elem 2 "LI" "done" [("data-id", "a")] false "" []], hKey c = none →
        c ∈ childrenOf (updateTodoList
          (.elem 0 "UL" "todo-list" [] false ""
            [HNode.elem 1 "LI" "" [] false "" [],
             HNode.elem 2 "LI" "done" [("data-id", "a")] false "" []])
          (VDom.velem "ul" []
            [VDom.velem "li" [("data-id", AttrV.str "a")] [],
             VDom.velem "li" [] []]) 10).1) ∧
    (∀ c ∈ childrenOf (updateTodoList
          (.elem 0 "UL" "todo-list" [] false ""
            [HNode.elem 1 "LI" "" [] false "" [],
             HNode.elem 2 "LI" "done" [("data-id", "a")] false "" []])
          (VDom.velem "ul" []
            [VDom.velem "li" [("data-id", AttrV.str "a")] [],
             VDom.velem "li" [] []]) 10).1,
        hKey c = none →
        c ∈ [HNode.elem 1 "LI" "" [] false "" [],
             HNode.elem 2 "LI" "done" [("data-id", "a")] false "" []]) :=
  updateTodoList_unkeyed_untouched 0 "UL" "todo-list" [] false ""
    [HNode.elem 1 "LI" "" [] false "" [],
     HNode.elem 2 "LI" "done" [("data-id", "a")] false "" []]
    (VDom.velem "ul" []
      [VDom.velem "li" [("data-id", AttrV.str "a")] [], VDom.velem "li" [] []])
    10 (by decide) (by decide) (by decide) (by decide)

/-- C7 counterexample: reconciliation is not idempotent in general.  A forest
entry whose element mixes text and element children is rebuilt on every pass:
`updateElementInPlace` counts only element children against all virtual
children, so the counts never match and the second, identical pass still
clears the child and remounts its subtree (emitting mutations). -/
theorem updateDom_second_pass_mutates :
    (updateDom (updateDom (HNode.elem 10 "DIV" "" [] false "" [])
        [some (VDom.velem "div" [] [VDom.vtext "a", VDom.velem "span" [] []])] 11).1
      [some (VDom.velem "div" [] [VDom.vtext "a", VDom.velem "span" [] []])]
      (updateDom (HNode.elem 10 "DIV" "" [] false "" [])
        [some (VDom.velem "div" [] [VDom.vtext "a", VDom.velem "span" [] []])] 11).2.1).2.2
      ≠ [] := by decide

/-- C7 (amended): reconciliation is idempotent at the host level for stable
forests.  Starting from a container with no children, after one `updateDom`
pass over a forest of present element VNodes that are stable (unique attribute
keys; `className` absent or a string, and not one that turns the host into a
todo-list container; no string-valued `style`; child lists that are empty, a
single text, or element-only), a second `updateDom` pass over the identical
forest performs zero host mutations. -/
theorem updateDom_stable_idempotent (i : Nat) (t c : String)
    (a : List (String × String)) (ch : Bool) (vl : String)
    (forest : List (Option VDom)) (ctr0 : Nat)
    (hstable : ∀ e ∈ forest, optStable e = true) :
    (updateDom (updateDom (.elem i t c a ch vl []) forest ctr0).1 forest
      (updateDom (.elem i t c a ch vl []) forest ctr0).2.1).2.2 = [] := by
  cases forest with
  | nil => rfl
  | cons f0 frest =>
    have hfst : updateDom (.elem i t c a ch vl []) (f0 :: frest) ctr0
        = (.elem i t c a ch vl (rebuildChildren i (f0 :: frest) ctr0).1,
           (rebuildChildren i (f0 :: frest) ctr0).2.1,
           Mut.clearChildren i :: (rebuildChildren i (f0 :: frest) ctr0).2.2) := by
      unfold updateDom
      dsimp only
      rw [if_neg (by simp [elemChildren])]
    rw [hfst]
    dsimp only
    have hreb := rebuildChildren_rep i (f0 :: frest) ctr0 hstable
    have hchil : elemChildren (rebuildChildren i (f0 :: frest) ctr0).1
        = (rebuildChildren i (f0 :: frest) ctr0).1 := elemChildren_all _ hreb.1
    have hlen : ((rebuildChildren i (f0 :: frest) ctr0).1).length = (f0 :: frest).length :=
      pairsRep_length _ _ hreb.2
    have hcan : canUpdateInPlace (rebuildChildren i (f0 :: frest) ctr0).1 (f0 :: frest)
        = true := canUpdateInPlace_of_rep (f0 :: frest) _ hstable hreb.2
    unfold updateDom
    dsimp only
    rw [hchil]
    rw [if_pos (show ((((rebuildChildren i (f0 :: frest) ctr0).1).length
          == (f0 :: frest).length)
          && canUpdateInPlace (rebuildChildren i (f0 :: frest) ctr0).1 (f0 :: frest)) = true
      from by rw [hlen, hcan]; simp)]
    rw [udPatchPairs_silent (f0 :: frest) _ _ hstable hreb.2]

/-- Witness for the amended C7 at a concrete stable forest (one div with a
className and two element children), mounted from an empty container. -/
theorem updateDom_stable_idempotent_witness :
    (∀ e ∈ [some (VDom.velem "div" [("className", AttrV.str "box")]
        [VDom.velem "span" [] [], VDom.velem "b" [] []])], optStable e = true) ∧
    (updateDom (updateDom (HNode.elem 0 "DIV" "" [] false "" [])
        [some (VDom.velem "div" [("className", AttrV.str "box")]
          [VDom.velem "span" [] [], VDom.velem "b" [] []])] 11).1
      [some (VDom.velem "div" [("className", AttrV.str "box")]
        [VDom.velem "span" [] [], VDom.velem "b" [] []])]
      (updateDom (HNode.elem 0 "DIV" "" [] false "" [])
        [some (VDom.velem "div" [("className", AttrV.str "box")]
          [VDom.velem "span" [] [], VDom.velem "b" [] []])] 11).2.1).2.2 = [] :=
  ⟨by decide, updateDom_stable_idempotent 0 "DIV" "" [] false ""
    [some (VDom.velem "div" [("className", AttrV.str "box")]
      [VDom.velem "span" [] [], VDom.velem "b" [] []])] 11 (by decide)⟩

end MF
